import Mathlib

/-!
# esquery bucket aggregations (aggs_bucket.go)

A shallow embedding of the two bucket aggregation builders of
aggs_bucket.go, TermsAggregation and DateHistogramAggregation, with their
setters and their Map rendering, followed by theorems about them.

Modelling choices, all read off the Go source:

* a pointer field (*uint64, *float64, *bool) is an Option: nil is none;
* a slice or map field that the code compares with nil is an Option of a
  list: nil is none, a non-nil value of length 0 is some [];
* uint64 is Nat (the code does no arithmetic on it), float64 is its
  bit pattern (the code only stores and copies it);
* a Go map is an association list kept sorted by key without duplicate keys,
  so that two maps with the same entries are the same list;
* interface{} values are the inductive type Value, one constructor per
  dynamic type the code stores;
* a run-time panic is the error of Except;
* a method with a pointer receiver that mutates and returns the receiver is a
  function from the old record to the new record;
* a sub-aggregation, a value of the interface Aggregation, is the pair of what
  its Name and Map return; where the effects of these calls matter, it is a
  StatefulAggregation, whose methods run in a program state, and Map is given
  in state-passing form (MapIn);
* a finite tree of aggregations is the inductive type AggTree; the number of
  calls of Map and the depth of the recursion of a run are read off a Profile
  that the run carries as its state.
-/

namespace Esquery

/-- Go map with string keys: an association list, sorted by key. -/
abbrev GoMap (V : Type) := List (String × V)

namespace GoMap

/-- The order in which keys are kept: lexicographic on the code points. -/
def keyLt : List Char → List Char → Bool
  | [], [] => false
  | [], _ :: _ => true
  | _ :: _, [] => false
  | a :: as, b :: bs =>
    if a.toNat < b.toNat then true
    else if a.toNat = b.toNat then keyLt as bs
    else false

/-- The assignment m[k] = v of Go. -/
def set {V : Type} : GoMap V → String → V → GoMap V
  | [], k, v => [(k, v)]
  | (k1, v1) :: rest, k, v =>
    if k = k1 then (k, v) :: rest
    else if keyLt k.data k1.data then (k, v) :: (k1, v1) :: rest
    else (k1, v1) :: set rest k v

/-- The statement `if c { m[k] = v }`. -/
def setIf {V : Type} (m : GoMap V) (c : Bool) (k : String) (v : V) : GoMap V :=
  if c then set m k v else m

/-- The statement `if p != nil { m[k] = ... }` on a pointer or map p that may
    be nil: o is none when p is nil, and otherwise holds the value to store. -/
def setSome {V : Type} (m : GoMap V) (k : String) (o : Option V) : GoMap V :=
  match o with
  | some v => set m k v
  | none => m

/-- The lookup m[k] of Go in its two-result form: none when the key is absent. -/
def get? {V : Type} : GoMap V → String → Option V
  | [], _ => none
  | (k1, v1) :: rest, k => if k = k1 then some v1 else get? rest k

/-- The keys of a map. -/
def keys {V : Type} (m : GoMap V) : List String := m.map Prod.fst

/-- The representation invariant: the keys increase strictly along the list. -/
def Sorted {V : Type} (m : GoMap V) : Prop :=
  m.Pairwise (fun p q => keyLt p.1.data q.1.data = true)

end GoMap

/-- A float64, held as its 64-bit IEEE-754 pattern; the code never computes with it. -/
structure Float64 where
  bits : Nat
  deriving DecidableEq, Repr

/-- The dynamic values stored in the rendered map[string]interface{}. -/
inductive Value where
  /-- A Go string. -/
  | string (s : String)
  /-- A uint64. -/
  | uint64 (n : Nat)
  /-- A non-nil *uint64, pointing to a cell that holds n. -/
  | uint64Ptr (n : Nat)
  /-- A float64. -/
  | float64 (x : Float64)
  /-- A bool. -/
  | bool (b : Bool)
  /-- A []string. -/
  | stringSlice (l : List String)
  /-- A map[string]string. -/
  | mapStringString (m : GoMap String)
  /-- A map[string]interface{}. -/
  | mapStringInterface (m : List (String × Value))
  /-- A map[string]map[string]interface{}. -/
  | mapStringMap (m : List (String × List (String × Value)))

/-- A run-time panic of the Go program. -/
inductive Panic where
  | indexOutOfRange (index : Nat) (length : Nat)
  deriving DecidableEq, Repr

/-- The Aggregation interface: a value that reports a Name and renders a Map.
    An interface value is held as what its two methods return when the parent
    that owns it is rendered; Map may panic, whatever type implements it. -/
structure Aggregation where
  Name : String
  Map : Except Panic (GoMap Value)

/-- The loop `for _, sub := range aggs { subAggs[sub.Name()] = sub.Map() }`
    started from the map subAggs. -/
def subAggsLoop : List Aggregation → GoMap (GoMap Value) → Except Panic (GoMap (GoMap Value))
  | [], subAggs => Except.ok subAggs
  | sub :: rest, subAggs =>
    match sub.Map with
    | Except.error e => Except.error e
    | Except.ok m => subAggsLoop rest (GoMap.set subAggs sub.Name m)

/-- The struct TermsAggregation. -/
structure TermsAggregation where
  name : String
  field : String
  size : Option Nat
  shardSize : Option Float64
  showTermDoc : Option Bool
  aggs : List Aggregation
  order : Option (GoMap String)
  include_ : Option (List String)

/-- TermsAgg creates a new aggregation of type "terms". -/
def TermsAgg (name field : String) : TermsAggregation :=
  { name := name, field := field, size := none, shardSize := none, showTermDoc := none,
    aggs := [], order := none, include_ := none }

namespace TermsAggregation

/-- Name returns the name of the aggregation. -/
def Name (agg : TermsAggregation) : String := agg.name

/-- Size sets the number of term buckets to return. -/
def Size (agg : TermsAggregation) (size : Nat) : TermsAggregation :=
  { agg with size := some size }

/-- ShardSize sets how many terms to request from each shard. -/
def ShardSize (agg : TermsAggregation) (size : Float64) : TermsAggregation :=
  { agg with shardSize := some size }

/-- ShowTermDocCountError sets whether to show an error value for each term. -/
def ShowTermDocCountError (agg : TermsAggregation) (b : Bool) : TermsAggregation :=
  { agg with showTermDoc := some b }

/-- Aggs sets sub-aggregations for the aggregation. -/
def Aggs (agg : TermsAggregation) (aggs : List Aggregation) : TermsAggregation :=
  { agg with aggs := aggs }

/-- Order sets the sort; the argument none is the nil map of Go. -/
def Order (agg : TermsAggregation) (order : Option (GoMap String)) : TermsAggregation :=
  { agg with order := order }

/-- Include with its variadic parameter: none is the call without arguments
    (Go passes a nil slice), some l is a call that passes the elements of l,
    and some [] is the call that spreads an empty non-nil slice. -/
def Include (agg : TermsAggregation) (vs : Option (List String)) : TermsAggregation :=
  { agg with include_ := vs }

/-- The inner map of TermsAggregation.Map, lines 74 to 98 of the source, one
    line per statement. The index expression agg.include[0] panics when the
    slice has no element. -/
def innerMap (agg : TermsAggregation) : Except Panic (GoMap Value) :=
  let innerMap : GoMap Value :=
    (GoMap.set [] "field" (Value.string agg.field)
      |>.setSome "size" (agg.size.map Value.uint64)
      |>.setSome "shard_size" (agg.shardSize.map Value.float64)
      |>.setSome "show_term_doc_count_error" (agg.showTermDoc.map Value.bool)
      |>.setSome "order" (agg.order.map Value.mapStringString))
  match agg.include_ with
  | none => Except.ok innerMap
  | some l =>
    if l.length ≤ 1 then
      match l[0]? with
      | none => Except.error (Panic.indexOutOfRange 0 l.length)
      | some a => Except.ok (innerMap.set "include" (Value.string a))
    else Except.ok (innerMap.set "include" (Value.stringSlice l))

/-- Map returns a map representation of the aggregation. -/
def Map (agg : TermsAggregation) : Except Panic (GoMap Value) :=
  match agg.innerMap with
  | Except.error e => Except.error e
  | Except.ok innerMap =>
    let outerMap : GoMap Value := GoMap.set [] "terms" (Value.mapStringInterface innerMap)
    if agg.aggs.length > 0 then
      match subAggsLoop agg.aggs [] with
      | Except.error e => Except.error e
      | Except.ok subAggs => Except.ok (GoMap.set outerMap "aggs" (Value.mapStringMap subAggs))
    else Except.ok outerMap

/-- A TermsAggregation used as a value of the interface Aggregation. -/
def toAggregation (agg : TermsAggregation) : Aggregation :=
  { Name := agg.Name, Map := agg.Map }

/-- One setter call with its argument. -/
inductive Call where
  | Size (size : Nat)
  | ShardSize (size : Float64)
  | ShowTermDocCountError (b : Bool)
  | Aggs (aggs : List Aggregation)
  | Order (order : Option (GoMap String))
  | Include (vs : Option (List String))

/-- The aggregation after one setter call. -/
def call (agg : TermsAggregation) : Call → TermsAggregation
  | Call.Size n => agg.Size n
  | Call.ShardSize x => agg.ShardSize x
  | Call.ShowTermDocCountError b => agg.ShowTermDocCountError b
  | Call.Aggs l => agg.Aggs l
  | Call.Order o => agg.Order o
  | Call.Include vs => agg.Include vs

/-- The aggregation after a sequence of setter calls, first call first. -/
def calls (agg : TermsAggregation) (cs : List Call) : TermsAggregation :=
  cs.foldl call agg

/-- The struct field that the body of a setter assigns. -/
def Call.field : Call → String
  | Call.Size _ => "size"
  | Call.ShardSize _ => "shardSize"
  | Call.ShowTermDocCountError _ => "showTermDoc"
  | Call.Aggs _ => "aggs"
  | Call.Order _ => "order"
  | Call.Include _ => "include"

end TermsAggregation

/-- The struct DateHistogramAggregation. -/
structure DateHistogramAggregation where
  name : String
  field : String
  calendarInterval : String
  fixedInterval : String
  format : String
  offset : String
  keyed : Option Bool
  minDocCount : Option Nat
  missing : String
  order : Option (GoMap String)
  aggs : List Aggregation

/-- DateHistogramAgg creates a new aggregation of type "date_histogram". -/
def DateHistogramAgg (name field : String) : DateHistogramAggregation :=
  { name := name, field := field, calendarInterval := "", fixedInterval := "", format := "",
    offset := "", keyed := none, minDocCount := none, missing := "", order := none, aggs := [] }

namespace DateHistogramAggregation

/-- Name returns the name of the aggregation. -/
def Name (agg : DateHistogramAggregation) : String := agg.name

/-- Aggs sets sub-aggregations for the aggregation. -/
def Aggs (agg : DateHistogramAggregation) (aggs : List Aggregation) : DateHistogramAggregation :=
  { agg with aggs := aggs }

/-- CalendarInterval sets calendarInterval. -/
def CalendarInterval (agg : DateHistogramAggregation) (interval : String) :
    DateHistogramAggregation :=
  { agg with calendarInterval := interval }

/-- Fixedinterval sets fixedInterval. -/
def Fixedinterval (agg : DateHistogramAggregation) (interval : String) :
    DateHistogramAggregation :=
  { agg with fixedInterval := interval }

/-- Format sets format. -/
def Format (agg : DateHistogramAggregation) (format : String) : DateHistogramAggregation :=
  { agg with format := format }

/-- Offset sets offset. -/
def Offset (agg : DateHistogramAggregation) (offset : String) : DateHistogramAggregation :=
  { agg with offset := offset }

/-- Order sets the sort; the argument none is the nil map of Go. -/
def Order (agg : DateHistogramAggregation) (order : Option (GoMap String)) :
    DateHistogramAggregation :=
  { agg with order := order }

/-- Keyed sets keyed. -/
def Keyed (agg : DateHistogramAggregation) (keyed : Bool) : DateHistogramAggregation :=
  { agg with keyed := some keyed }

/-- Missing sets the missing value. -/
def Missing (agg : DateHistogramAggregation) (missing : String) : DateHistogramAggregation :=
  { agg with missing := missing }

/-- MinDocCount sets the min doc count. -/
def MinDocCount (agg : DateHistogramAggregation) (minDocCount : Nat) :
    DateHistogramAggregation :=
  { agg with minDocCount := some minDocCount }

/-- The inner map of DateHistogramAggregation.Map, lines 204 to 238 of the
    source, one line per statement. Under "min_doc_count" the code stores
    agg.minDocCount, the pointer, where "keyed" gets the dereferenced *agg.keyed. -/
def innerMap (agg : DateHistogramAggregation) : GoMap Value :=
  GoMap.set [] "field" (Value.string agg.field)
    |>.setIf (agg.calendarInterval ≠ "") "calendar_interval" (Value.string agg.calendarInterval)
    |>.setIf (agg.fixedInterval ≠ "") "fixed_interval" (Value.string agg.fixedInterval)
    |>.setIf (agg.format ≠ "") "format" (Value.string agg.format)
    |>.setIf (agg.offset ≠ "") "offset" (Value.string agg.offset)
    |>.setIf (agg.missing ≠ "") "missing" (Value.string agg.missing)
    |>.setSome "min_doc_count" (agg.minDocCount.map Value.uint64Ptr)
    |>.setSome "keyed" (agg.keyed.map Value.bool)
    |>.setSome "order" (agg.order.map Value.mapStringString)

/-- Map returns a map representation of the aggregation. -/
def Map (agg : DateHistogramAggregation) : Except Panic (GoMap Value) :=
  let outerMap : GoMap Value :=
    GoMap.set [] "date_histogram" (Value.mapStringInterface agg.innerMap)
  if agg.aggs.length > 0 then
    match subAggsLoop agg.aggs [] with
    | Except.error e => Except.error e
    | Except.ok subAggs => Except.ok (GoMap.set outerMap "aggs" (Value.mapStringMap subAggs))
  else Except.ok outerMap

/-- A DateHistogramAggregation used as a value of the interface Aggregation. -/
def toAggregation (agg : DateHistogramAggregation) : Aggregation :=
  { Name := agg.Name, Map := agg.Map }

/-- One setter call with its argument. -/
inductive Call where
  | Aggs (aggs : List Aggregation)
  | CalendarInterval (interval : String)
  | Fixedinterval (interval : String)
  | Format (format : String)
  | Offset (offset : String)
  | Order (order : Option (GoMap String))
  | Keyed (keyed : Bool)
  | Missing (missing : String)
  | MinDocCount (minDocCount : Nat)

/-- The aggregation after one setter call. -/
def call (agg : DateHistogramAggregation) : Call → DateHistogramAggregation
  | Call.Aggs l => agg.Aggs l
  | Call.CalendarInterval s => agg.CalendarInterval s
  | Call.Fixedinterval s => agg.Fixedinterval s
  | Call.Format s => agg.Format s
  | Call.Offset s => agg.Offset s
  | Call.Order o => agg.Order o
  | Call.Keyed b => agg.Keyed b
  | Call.Missing s => agg.Missing s
  | Call.MinDocCount n => agg.MinDocCount n

/-- The aggregation after a sequence of setter calls, first call first. -/
def calls (agg : DateHistogramAggregation) (cs : List Call) : DateHistogramAggregation :=
  cs.foldl call agg

/-- The struct field that the body of a setter assigns. -/
def Call.field : Call → String
  | Call.Aggs _ => "aggs"
  | Call.CalendarInterval _ => "calendarInterval"
  | Call.Fixedinterval _ => "fixedInterval"
  | Call.Format _ => "format"
  | Call.Offset _ => "offset"
  | Call.Order _ => "order"
  | Call.Keyed _ => "keyed"
  | Call.Missing _ => "missing"
  | Call.MinDocCount _ => "minDocCount"

end DateHistogramAggregation

/-! ## Sub-aggregations with effects

The methods of the interface Aggregation are ordinary Go methods: a call may
read and change the program state. Below, a method call is a function from the
state before the call to the result and the state after it. -/

/-- A value of the interface Aggregation whose two methods run in a program
    state σ and may change it. -/
structure StatefulAggregation (σ : Type) where
  Name : σ → String × σ
  Map : σ → Except Panic (GoMap Value) × σ

/-- The loop `for _, sub := range aggs { subAggs[sub.Name()] = sub.Map() }` in a
    program state: in each round sub.Name() is called, then sub.Map(), then the
    entry is assigned; a panic of sub.Map() ends the loop. -/
def subAggsLoopIn {σ : Type} : List (StatefulAggregation σ) → GoMap (GoMap Value) → σ →
    Except Panic (GoMap (GoMap Value)) × σ
  | [], subAggs, s => (Except.ok subAggs, s)
  | sub :: rest, subAggs, s =>
    match sub.Name s with
    | (name, s1) =>
      match sub.Map s1 with
      | (Except.error e, s2) => (Except.error e, s2)
      | (Except.ok m, s2) => subAggsLoopIn rest (GoMap.set subAggs name m) s2

/-- TermsAggregation.Map in a program state, with the elements of agg.aggs given
    as the stateful objects aggs (the field aggs of the record is not read). The
    body assigns no field of agg: the state changes only through the calls on
    the sub-aggregations. -/
def TermsAggregation.MapIn {σ : Type} (agg : TermsAggregation)
    (aggs : List (StatefulAggregation σ)) (s : σ) : Except Panic (GoMap Value) × σ :=
  match agg.innerMap with
  | Except.error e => (Except.error e, s)
  | Except.ok innerMap =>
    let outerMap : GoMap Value := GoMap.set [] "terms" (Value.mapStringInterface innerMap)
    if aggs.length > 0 then
      match subAggsLoopIn aggs [] s with
      | (Except.error e, s1) => (Except.error e, s1)
      | (Except.ok subAggs, s1) =>
        (Except.ok (GoMap.set outerMap "aggs" (Value.mapStringMap subAggs)), s1)
    else (Except.ok outerMap, s)

/-- DateHistogramAggregation.Map in a program state, with the elements of
    agg.aggs given as the stateful objects aggs. -/
def DateHistogramAggregation.MapIn {σ : Type} (agg : DateHistogramAggregation)
    (aggs : List (StatefulAggregation σ)) (s : σ) : Except Panic (GoMap Value) × σ :=
  let outerMap : GoMap Value :=
    GoMap.set [] "date_histogram" (Value.mapStringInterface agg.innerMap)
  if aggs.length > 0 then
    match subAggsLoopIn aggs [] s with
    | (Except.error e, s1) => (Except.error e, s1)
    | (Except.ok subAggs, s1) =>
      (Except.ok (GoMap.set outerMap "aggs" (Value.mapStringMap subAggs)), s1)
  else (Except.ok outerMap, s)

/-- What the two methods of a stateful sub-aggregation return in the state s. -/
def StatefulAggregation.snapshot {σ : Type} (c : StatefulAggregation σ) (s : σ) : Aggregation :=
  { Name := (c.Name s).1, Map := (c.Map s).1 }

/-! ## Trees of aggregations -/

/-- A finite tree of aggregations: each node is a TermsAggregation or a
    DateHistogramAggregation, and its sub-aggregations are its subtrees (the
    field aggs of the node's record is not read). -/
inductive AggTree where
  | terms (agg : TermsAggregation) (children : List AggTree)
  | dateHistogram (agg : DateHistogramAggregation) (children : List AggTree)

mutual
/-- A tree as a value of the interface Aggregation: Name is the name of the
    root, and Map is the Map method of the root over the renderings of its
    subtrees, by recursion on the tree. -/
def AggTree.toAggregation : AggTree → Aggregation
  | AggTree.terms agg children =>
    (agg.Aggs (AggTree.toAggregations children)).toAggregation
  | AggTree.dateHistogram agg children =>
    (agg.Aggs (AggTree.toAggregations children)).toAggregation
/-- The subtrees of a node as values of the interface Aggregation. -/
def AggTree.toAggregations : List AggTree → List Aggregation
  | [] => []
  | t :: ts => t.toAggregation :: AggTree.toAggregations ts
end

/-- Map on a tree of aggregations. -/
def AggTree.Map (t : AggTree) : Except Panic (GoMap Value) := t.toAggregation.Map

mutual
/-- The nesting depth of a tree: 1 for a node without sub-aggregations. -/
def AggTree.depth : AggTree → Nat
  | AggTree.terms _ children => 1 + AggTree.depths children
  | AggTree.dateHistogram _ children => 1 + AggTree.depths children
/-- The largest nesting depth among a list of trees, 0 for no tree. -/
def AggTree.depths : List AggTree → Nat
  | [] => 0
  | t :: ts => max t.depth (AggTree.depths ts)
end

mutual
/-- The number of nodes of a tree. -/
def AggTree.size : AggTree → Nat
  | AggTree.terms _ children => 1 + AggTree.sizes children
  | AggTree.dateHistogram _ children => 1 + AggTree.sizes children
/-- The number of nodes of a list of trees. -/
def AggTree.sizes : List AggTree → Nat
  | [] => 0
  | t :: ts => t.size + AggTree.sizes ts
end

mutual
/-- No terms node of the tree holds an include slice that is non-nil and
    empty. -/
def AggTree.includesOk : AggTree → Bool
  | AggTree.terms agg children =>
    decide (agg.include_ ≠ some []) && AggTree.allIncludesOk children
  | AggTree.dateHistogram _ children => AggTree.allIncludesOk children
/-- No terms node of the trees holds an include slice that is non-nil and
    empty. -/
def AggTree.allIncludesOk : List AggTree → Bool
  | [] => true
  | t :: ts => t.includesOk && AggTree.allIncludesOk ts
end

/-- What a run of Map has used so far: the number of calls of Map made, the
    number of calls of Map that are open (the depth of the recursion at this
    moment), and the largest depth reached. -/
structure Profile where
  calls : Nat
  depth : Nat
  maxDepth : Nat
  deriving DecidableEq, Repr

/-- The profile on entry to a call of Map. -/
def Profile.enter (p : Profile) : Profile :=
  { calls := p.calls + 1, depth := p.depth + 1, maxDepth := max p.maxDepth (p.depth + 1) }

/-- The profile when a call of Map is left, by return or by panic. -/
def Profile.leave (p : Profile) : Profile :=
  { p with depth := p.depth - 1 }

mutual
/-- A tree as a stateful sub-aggregation whose state is the profile of the run:
    Map is the Map method of the root, run between enter and leave, over the
    subtrees as stateful sub-aggregations. -/
def AggTree.toStateful : AggTree → StatefulAggregation Profile
  | AggTree.terms agg children =>
    { Name := fun p => (agg.Name, p),
      Map := fun p =>
        match agg.MapIn (AggTree.toStatefuls children) p.enter with
        | (r, q) => (r, q.leave) }
  | AggTree.dateHistogram agg children =>
    { Name := fun p => (agg.Name, p),
      Map := fun p =>
        match agg.MapIn (AggTree.toStatefuls children) p.enter with
        | (r, q) => (r, q.leave) }
/-- The subtrees of a node as stateful sub-aggregations. -/
def AggTree.toStatefuls : List AggTree → List (StatefulAggregation Profile)
  | [] => []
  | t :: ts => t.toStateful :: AggTree.toStatefuls ts
end

/-! ## Maps -/

namespace GoMap

theorem get?_nil {V : Type} (k : String) : get? ([] : GoMap V) k = none := rfl

/-- Reading a map after an assignment. -/
theorem get?_set {V : Type} (m : GoMap V) (k : String) (v : V) (j : String) :
    get? (set m k v) j = if j = k then some v else get? m j := by
  induction m with
  | nil => simp [set, get?]
  | cons p rest ih =>
    obtain ⟨k1, v1⟩ := p
    unfold set
    by_cases h1 : k = k1
    · subst h1
      by_cases h3 : j = k <;> simp [get?, h3]
    · simp only [h1, if_false]
      by_cases h2 : keyLt k.data k1.data = true
      · simp only [h2, if_true, get?]
      · simp only [h2, if_false, get?, ih]
        by_cases h3 : j = k1
        · subst h3
          have : ¬ j = k := fun h => h1 h.symm
          simp [this]
        · simp [h3]

theorem get?_set_self {V : Type} (m : GoMap V) (k : String) (v : V) :
    get? (set m k v) k = some v := by
  simp [get?_set]

theorem get?_set_of_ne {V : Type} (m : GoMap V) (k : String) (v : V) (j : String)
    (h : j ≠ k) : get? (set m k v) j = get? m j := by
  simp [get?_set, h]

theorem get?_setIf {V : Type} (m : GoMap V) (c : Bool) (k : String) (v : V) (j : String) :
    get? (setIf m c k v) j = if j = k ∧ c = true then some v else get? m j := by
  cases c <;> simp [setIf, get?_set]

theorem get?_setSome {V : Type} (m : GoMap V) (k : String) (o : Option V) (j : String) :
    get? (setSome m k o) j = if j = k ∧ o.isSome = true then o else get? m j := by
  cases o <;> simp [setSome, get?_set]

theorem ite_isSome_self {V : Type} (o : Option V) :
    (if o.isSome = true then o else none) = o := by
  cases o <;> rfl

/-- A key is among the keys of a map exactly when the lookup finds a value. -/
theorem mem_keys_iff {V : Type} (m : GoMap V) (k : String) :
    k ∈ keys m ↔ ∃ v, get? m k = some v := by
  induction m with
  | nil => simp [keys, get?]
  | cons p rest ih =>
    obtain ⟨k1, v1⟩ := p
    by_cases h : k = k1
    · subst h
      simp [keys, get?]
    · have ih2 : k ∈ List.map Prod.fst rest ↔ ∃ v, get? rest k = some v := ih
      simp only [keys, List.map_cons, List.mem_cons, h, false_or, get?, if_false]
      exact ih2

theorem not_mem_keys_iff {V : Type} (m : GoMap V) (k : String) :
    k ∉ keys m ↔ get? m k = none := by
  rw [mem_keys_iff]
  cases h : get? m k <;> simp

/-! ### The representation invariant -/

theorem toNat_injective (a b : Char) (h : a.toNat = b.toNat) : a = b := by
  apply Char.ext
  cases ha : a.val with
  | mk x =>
    cases hb : b.val with
    | mk y =>
      have : x.toNat = y.toNat := by
        simpa [Char.toNat, UInt32.toNat, ha, hb] using h
      rw [BitVec.eq_of_toNat_eq this]

theorem keyLt_irrefl (a : List Char) : keyLt a a = false := by
  induction a with
  | nil => rfl
  | cons x xs ih => simp [keyLt, ih]

theorem keyLt_trans (a b c : List Char) (h1 : keyLt a b = true) (h2 : keyLt b c = true) :
    keyLt a c = true := by
  induction a generalizing b c with
  | nil =>
    cases b with
    | nil => simp [keyLt] at h1
    | cons y ys =>
      cases c with
      | nil => simp [keyLt] at h2
      | cons z zs => rfl
  | cons x xs ih =>
    cases b with
    | nil => simp [keyLt] at h1
    | cons y ys =>
      cases c with
      | nil => simp [keyLt] at h2
      | cons z zs =>
        simp only [keyLt] at h1 h2 ⊢
        split_ifs at h1 h2 ⊢ <;> first | rfl | omega | (exact ih _ _ h1 h2)

theorem keyLt_total (a b : List Char) (h : a ≠ b) : keyLt a b = true ∨ keyLt b a = true := by
  induction a generalizing b with
  | nil =>
    cases b with
    | nil => exact absurd rfl h
    | cons y ys => exact Or.inl rfl
  | cons x xs ih =>
    cases b with
    | nil => exact Or.inr rfl
    | cons y ys =>
      simp only [keyLt]
      rcases Nat.lt_trichotomy x.toNat y.toNat with hlt | heq | hgt
      · simp [hlt]
      · have hxy : x = y := toNat_injective x y heq
        subst hxy
        have hne : xs ≠ ys := fun e => h (by rw [e])
        simpa using ih ys hne
      · right
        simp [hgt]

theorem mem_set {V : Type} (m : GoMap V) (k : String) (v : V) (q : String × V)
    (h : q ∈ set m k v) : q = (k, v) ∨ q ∈ m := by
  induction m with
  | nil =>
    simp only [set, List.mem_singleton] at h
    exact Or.inl h
  | cons p rest ih =>
    obtain ⟨k1, v1⟩ := p
    unfold set at h
    split_ifs at h with h1 h2
    · rcases List.mem_cons.mp h with e | e
      · exact Or.inl e
      · exact Or.inr (List.mem_cons_of_mem _ e)
    · rcases List.mem_cons.mp h with e | e
      · exact Or.inl e
      · exact Or.inr e
    · rcases List.mem_cons.mp h with e | e
      · exact Or.inr (e ▸ List.mem_cons_self _ _)
      · rcases ih e with e2 | e2
        · exact Or.inl e2
        · exact Or.inr (List.mem_cons_of_mem _ e2)

/-- An assignment keeps the keys strictly increasing. -/
theorem set_sorted {V : Type} (m : GoMap V) (k : String) (v : V) (h : Sorted m) :
    Sorted (set m k v) := by
  induction m with
  | nil => exact List.pairwise_singleton _ _
  | cons p rest ih =>
    obtain ⟨k1, v1⟩ := p
    have hp := List.pairwise_cons.mp h
    unfold set
    split_ifs with h1 h2
    · subst h1
      exact List.pairwise_cons.mpr ⟨hp.1, hp.2⟩
    · refine List.pairwise_cons.mpr ⟨?_, h⟩
      intro q hq
      rcases List.mem_cons.mp hq with e | e
      · rw [e]
        exact h2
      · exact keyLt_trans _ _ _ h2 (hp.1 q e)
    · refine List.pairwise_cons.mpr ⟨?_, ih hp.2⟩
      intro q hq
      rcases mem_set rest k v q hq with e | e
      · rw [e]
        have hne : k.data ≠ k1.data := fun e2 => h1 (String.ext e2)
        rcases keyLt_total _ _ hne with h3 | h3
        · exact absurd h3 h2
        · exact h3
      · exact hp.1 q e

/-- A key below every key of a map is not in the map. -/
theorem get?_eq_none_of_lt {V : Type} (m : GoMap V) (j : String)
    (h : ∀ q ∈ m, keyLt j.data q.1.data = true) : get? m j = none := by
  induction m with
  | nil => rfl
  | cons p rest ih =>
    obtain ⟨k1, v1⟩ := p
    have hne : j ≠ k1 := by
      intro e
      have := h (k1, v1) (List.mem_cons_self _ _)
      rw [e, keyLt_irrefl] at this
      cases this
    simp only [get?, hne, if_false]
    exact ih (fun q hq => h q (List.mem_cons_of_mem _ hq))

/-- Two maps in sorted form with the same entries are the same list. -/
theorem sorted_ext {V : Type} (m1 m2 : GoMap V) (h1 : Sorted m1) (h2 : Sorted m2)
    (h : ∀ k, get? m1 k = get? m2 k) : m1 = m2 := by
  induction m1 generalizing m2 with
  | nil =>
    cases m2 with
    | nil => rfl
    | cons p r =>
      have := h p.1
      simp [get?] at this
  | cons p1 r1 ih =>
    obtain ⟨k1, v1⟩ := p1
    cases m2 with
    | nil =>
      have := h k1
      simp [get?] at this
    | cons p2 r2 =>
      obtain ⟨k2, v2⟩ := p2
      have hp1 := List.pairwise_cons.mp h1
      have hp2 := List.pairwise_cons.mp h2
      have hk : k1 = k2 := by
        by_contra hne
        have hne2 : k1.data ≠ k2.data := fun e => hne (String.ext e)
        rcases keyLt_total _ _ hne2 with hlt | hlt
        · have hnone : get? ((k2, v2) :: r2) k1 = none := by
            apply get?_eq_none_of_lt
            intro q hq
            rcases List.mem_cons.mp hq with e | e
            · rw [e]
              exact hlt
            · exact keyLt_trans _ _ _ hlt (hp2.1 q e)
          have := h k1
          rw [hnone] at this
          simp [get?] at this
        · have hnone : get? ((k1, v1) :: r1) k2 = none := by
            apply get?_eq_none_of_lt
            intro q hq
            rcases List.mem_cons.mp hq with e | e
            · rw [e]
              exact hlt
            · exact keyLt_trans _ _ _ hlt (hp1.1 q e)
          have := h k2
          rw [hnone] at this
          simp [get?] at this
      subst hk
      have hv : v1 = v2 := by
        have := h k1
        simpa [get?] using this
      subst hv
      have hrest : r1 = r2 := by
        apply ih r2 hp1.2 hp2.2
        intro k
        by_cases hkk : k = k1
        · subst hkk
          rw [get?_eq_none_of_lt r1 k hp1.1, get?_eq_none_of_lt r2 k hp2.1]
        · have := h k
          simpa [get?, hkk] using this
      rw [hrest]

theorem setIf_sorted {V : Type} (m : GoMap V) (c : Bool) (k : String) (v : V)
    (h : Sorted m) : Sorted (setIf m c k v) := by
  cases c
  · exact h
  · exact set_sorted m k v h

theorem setSome_sorted {V : Type} (m : GoMap V) (k : String) (o : Option V)
    (h : Sorted m) : Sorted (setSome m k o) := by
  cases o
  · exact h
  · exact set_sorted m k _ h

/-- A map in sorted form has no key twice. -/
theorem keys_nodup {V : Type} (m : GoMap V) (h : Sorted m) : (keys m).Nodup := by
  induction m with
  | nil => exact List.nodup_nil
  | cons p rest ih =>
    obtain ⟨k1, v1⟩ := p
    have hp := List.pairwise_cons.mp h
    have hnot : k1 ∉ keys rest := by
      rw [not_mem_keys_iff]
      exact get?_eq_none_of_lt rest k1 hp.1
    exact List.nodup_cons.mpr ⟨hnot, ih hp.2⟩

end GoMap

/-! ## The loop over the sub-aggregations -/

/-- When every sub-aggregation renders, the loop ends with a map. -/
theorem subAggsLoop_ok (cs : List Aggregation) (acc : GoMap (GoMap Value))
    (h : ∀ c ∈ cs, ∃ cm, c.Map = Except.ok cm) :
    ∃ subAggs, subAggsLoop cs acc = Except.ok subAggs := by
  induction cs generalizing acc with
  | nil => exact ⟨acc, rfl⟩
  | cons c rest ih =>
    obtain ⟨cm, hcm⟩ := h c (List.mem_cons_self c rest)
    have hrest : ∀ d ∈ rest, ∃ dm, d.Map = Except.ok dm :=
      fun d hd => h d (List.mem_cons_of_mem c hd)
    simp only [subAggsLoop, hcm]
    exact ih _ hrest

/-- When the loop ends with a map, every sub-aggregation has rendered. -/
theorem subAggsLoop_ok_inv (cs : List Aggregation) (acc subAggs : GoMap (GoMap Value))
    (h : subAggsLoop cs acc = Except.ok subAggs) :
    ∀ c ∈ cs, ∃ cm, c.Map = Except.ok cm := by
  induction cs generalizing acc with
  | nil => intro c hc; cases hc
  | cons c rest ih =>
    intro d hd
    cases hcm : c.Map with
    | error e => simp [subAggsLoop, hcm] at h
    | ok cm =>
      simp only [subAggsLoop, hcm] at h
      rcases List.mem_cons.mp hd with rfl | hd2
      · exact ⟨cm, hcm⟩
      · exact ih _ h d hd2

/-- A key that no sub-aggregation is named after is left as the loop found it. -/
theorem subAggsLoop_get?_other (cs : List Aggregation) (acc subAggs : GoMap (GoMap Value))
    (h : subAggsLoop cs acc = Except.ok subAggs) (k : String)
    (hk : ∀ c ∈ cs, c.Name ≠ k) : GoMap.get? subAggs k = GoMap.get? acc k := by
  induction cs generalizing acc with
  | nil =>
    simp only [subAggsLoop, Except.ok.injEq] at h
    rw [h]
  | cons c rest ih =>
    cases hcm : c.Map with
    | error e => simp [subAggsLoop, hcm] at h
    | ok cm =>
      simp only [subAggsLoop, hcm] at h
      have hrest : ∀ d ∈ rest, d.Name ≠ k := fun d hd => hk d (List.mem_cons_of_mem c hd)
      rw [ih _ h hrest]
      have hne : k ≠ c.Name := fun e => hk c (List.mem_cons_self c rest) e.symm
      exact GoMap.get?_set_of_ne _ _ _ _ hne

/-- The last sub-aggregation of a given name is the one found under that name. -/
theorem subAggsLoop_get?_last (pre : List Aggregation) (c : Aggregation)
    (post : List Aggregation) (acc subAggs : GoMap (GoMap Value))
    (h : subAggsLoop (pre ++ c :: post) acc = Except.ok subAggs)
    (hlast : ∀ d ∈ post, d.Name ≠ c.Name) :
    ∃ cm, c.Map = Except.ok cm ∧ GoMap.get? subAggs c.Name = some cm := by
  induction pre generalizing acc with
  | nil =>
    cases hcm : c.Map with
    | error e => simp [subAggsLoop, hcm] at h
    | ok cm =>
      simp only [List.nil_append, subAggsLoop, hcm] at h
      refine ⟨cm, rfl, ?_⟩
      rw [subAggsLoop_get?_other post _ _ h c.Name hlast]
      exact GoMap.get?_set_self _ _ _
  | cons p rest ih =>
    cases hpm : p.Map with
    | error e => simp [subAggsLoop, hpm] at h
    | ok pm =>
      simp only [List.cons_append, subAggsLoop, hpm] at h
      exact ih _ h

/-- The keys that the loop adds are the names of the sub-aggregations. -/
theorem subAggsLoop_keys (cs : List Aggregation) (acc subAggs : GoMap (GoMap Value))
    (h : subAggsLoop cs acc = Except.ok subAggs) (k : String) :
    k ∈ GoMap.keys subAggs ↔ k ∈ GoMap.keys acc ∨ ∃ c ∈ cs, c.Name = k := by
  induction cs generalizing acc with
  | nil =>
    simp only [subAggsLoop, Except.ok.injEq] at h
    simp [h]
  | cons c rest ih =>
    cases hcm : c.Map with
    | error e => simp [subAggsLoop, hcm] at h
    | ok cm =>
      simp only [subAggsLoop, hcm] at h
      rw [ih _ h, GoMap.mem_keys_iff, GoMap.mem_keys_iff]
      simp only [GoMap.get?_set, List.mem_cons, exists_eq_or_imp]
      by_cases hk : k = c.Name
      · subst hk
        simp
      · have hk2 : ¬ c.Name = k := fun e => hk e.symm
        simp [hk, hk2]

/-- The loop keeps the map of the sub-aggregations in sorted form. -/
theorem subAggsLoop_sorted (cs : List Aggregation) (acc subAggs : GoMap (GoMap Value))
    (h : subAggsLoop cs acc = Except.ok subAggs) (hacc : GoMap.Sorted acc) :
    GoMap.Sorted subAggs := by
  induction cs generalizing acc with
  | nil =>
    simp only [subAggsLoop, Except.ok.injEq] at h
    rw [← h]
    exact hacc
  | cons c rest ih =>
    cases hcm : c.Map with
    | error e => simp [subAggsLoop, hcm] at h
    | ok cm =>
      simp only [subAggsLoop, hcm] at h
      exact ih _ h (GoMap.set_sorted _ _ _ hacc)

/-! ## What the two Map methods return -/

/-- The inner map of a terms aggregation exists unless the include slice is
    non-nil and empty. -/
theorem TermsAggregation.innerMap_ok (agg : TermsAggregation) (hinc : agg.include_ ≠ some []) :
    ∃ inner, agg.innerMap = Except.ok inner := by
  obtain ⟨name, field, size, shardSize, showTermDoc, aggs, order, inc⟩ := agg
  cases inc with
  | none => exact ⟨_, rfl⟩
  | some l =>
    cases l with
    | nil => exact absurd rfl hinc
    | cons a rest =>
      cases rest with
      | nil => exact ⟨_, rfl⟩
      | cons b rest2 => exact ⟨_, rfl⟩

/-- The inner map of a terms aggregation is missing when the include slice is
    non-nil and empty: the index expression panics. -/
theorem TermsAggregation.innerMap_error (agg : TermsAggregation) (hinc : agg.include_ = some []) :
    agg.innerMap = Except.error (Panic.indexOutOfRange 0 0) := by
  obtain ⟨name, field, size, shardSize, showTermDoc, aggs, order, inc⟩ := agg
  cases hinc
  rfl

/-- Every entry of the map built by lines 74 to 89 of the source. -/
theorem TermsAggregation.options_get? (field : String) (size : Option Nat)
    (shardSize : Option Float64) (showTermDoc : Option Bool) (order : Option (GoMap String))
    (k : String) :
    GoMap.get? (GoMap.set [] "field" (Value.string field)
      |>.setSome "size" (size.map Value.uint64)
      |>.setSome "shard_size" (shardSize.map Value.float64)
      |>.setSome "show_term_doc_count_error" (showTermDoc.map Value.bool)
      |>.setSome "order" (order.map Value.mapStringString)) k =
      if k = "order" then order.map Value.mapStringString
      else if k = "show_term_doc_count_error" then showTermDoc.map Value.bool
      else if k = "shard_size" then shardSize.map Value.float64
      else if k = "size" then size.map Value.uint64
      else if k = "field" then some (Value.string field)
      else none := by
  simp only [GoMap.get?_setSome, GoMap.get?_set, GoMap.get?_nil]
  by_cases h0 : k = "order"
  · subst h0
    simp [GoMap.ite_isSome_self]
    intro e
    rw [e]
    rfl
  · by_cases h1 : k = "show_term_doc_count_error"
    · subst h1
      simp [GoMap.ite_isSome_self]
      intro e
      rw [e]
      rfl
    · by_cases h2 : k = "shard_size"
      · subst h2
        simp [GoMap.ite_isSome_self]
        intro e
        rw [e]
        rfl
      · by_cases h3 : k = "size"
        · subst h3
          simp [GoMap.ite_isSome_self]
          intro e
          rw [e]
          rfl
        · by_cases h4 : k = "field"
          · subst h4
            simp [GoMap.ite_isSome_self]
          · simp [GoMap.ite_isSome_self, h0, h1, h2, h3, h4]

/-- Every entry of the inner map of a terms aggregation. -/
theorem TermsAggregation.terms_innerMap_get? (agg : TermsAggregation) (inner : GoMap Value)
    (h : agg.innerMap = Except.ok inner) (k : String) :
    GoMap.get? inner k =
      if k = "include" then
        (match agg.include_ with
          | none => none
          | some [] => none
          | some [a] => some (Value.string a)
          | some l => some (Value.stringSlice l))
      else if k = "order" then agg.order.map Value.mapStringString
      else if k = "show_term_doc_count_error" then agg.showTermDoc.map Value.bool
      else if k = "shard_size" then agg.shardSize.map Value.float64
      else if k = "size" then agg.size.map Value.uint64
      else if k = "field" then some (Value.string agg.field)
      else none := by
  obtain ⟨name, field, size, shardSize, showTermDoc, aggs, order, inc⟩ := agg
  have hinc : inc = none ∨ inc = some [] ∨ (∃ a, inc = some [a]) ∨
      (∃ a b r, inc = some (a :: b :: r)) := by
    rcases inc with _ | _ | ⟨a, _ | ⟨b, r⟩⟩
    · exact Or.inl rfl
    · exact Or.inr (Or.inl rfl)
    · exact Or.inr (Or.inr (Or.inl ⟨a, rfl⟩))
    · exact Or.inr (Or.inr (Or.inr ⟨a, b, r, rfl⟩))
  rcases hinc with rfl | rfl | ⟨a, rfl⟩ | ⟨a, b, r, rfl⟩
  · simp only [TermsAggregation.innerMap, Except.ok.injEq] at h
    subst h
    rw [TermsAggregation.options_get?]
    by_cases h0 : k = "include"
    · subst h0
      simp
    · simp [h0]
  · rw [TermsAggregation.innerMap_error _ rfl] at h
    cases h
  · simp only [TermsAggregation.innerMap, List.length_cons, List.length_nil,
      List.getElem?_cons_zero, Nat.zero_add, le_refl, if_true, Except.ok.injEq] at h
    subst h
    rw [GoMap.get?_set, TermsAggregation.options_get?]
  · have hlen : ¬ (a :: b :: r).length ≤ 1 := by simp
    simp only [TermsAggregation.innerMap, hlen, if_false, Except.ok.injEq] at h
    subst h
    rw [GoMap.get?_set, TermsAggregation.options_get?]

/-- Every entry of the inner map of a date histogram aggregation. -/
theorem DateHistogramAggregation.dateHistogram_innerMap_get? (agg : DateHistogramAggregation) (k : String) :
    GoMap.get? agg.innerMap k =
      if k = "order" then agg.order.map Value.mapStringString
      else if k = "keyed" then agg.keyed.map Value.bool
      else if k = "min_doc_count" then agg.minDocCount.map Value.uint64Ptr
      else if k = "missing" then
        (if agg.missing = "" then none else some (Value.string agg.missing))
      else if k = "offset" then
        (if agg.offset = "" then none else some (Value.string agg.offset))
      else if k = "format" then
        (if agg.format = "" then none else some (Value.string agg.format))
      else if k = "fixed_interval" then
        (if agg.fixedInterval = "" then none else some (Value.string agg.fixedInterval))
      else if k = "calendar_interval" then
        (if agg.calendarInterval = "" then none else some (Value.string agg.calendarInterval))
      else if k = "field" then some (Value.string agg.field)
      else none := by
  simp only [DateHistogramAggregation.innerMap, GoMap.get?_setSome, GoMap.get?_setIf,
    GoMap.get?_set, GoMap.get?_nil]
  by_cases h0 : k = "order"
  · subst h0
    simp [GoMap.ite_isSome_self]
    intro e
    rw [e]
    rfl
  · by_cases h1 : k = "keyed"
    · subst h1
      simp [GoMap.ite_isSome_self]
      intro e
      rw [e]
      rfl
    · by_cases h2 : k = "min_doc_count"
      · subst h2
        simp [GoMap.ite_isSome_self]
        intro e
        rw [e]
        rfl
      · by_cases h3 : k = "missing"
        · subst h3
          simp [GoMap.ite_isSome_self]
        · by_cases h4 : k = "offset"
          · subst h4
            simp [GoMap.ite_isSome_self]
          · by_cases h5 : k = "format"
            · subst h5
              simp [GoMap.ite_isSome_self]
            · by_cases h6 : k = "fixed_interval"
              · subst h6
                simp [GoMap.ite_isSome_self]
              · by_cases h7 : k = "calendar_interval"
                · subst h7
                  simp [GoMap.ite_isSome_self]
                · by_cases h8 : k = "field"
                  · subst h8
                    simp [GoMap.ite_isSome_self]
                  · simp [GoMap.ite_isSome_self, h0, h1, h2, h3, h4, h5, h6, h7, h8]

/-- The outer map that both Map methods build from the inner map and the map of
    the sub-aggregations: its entry under the kind and its entry under "aggs". -/
theorem outerMap_get? (kind : String) (inner : GoMap Value) (n : Nat)
    (subAggs : GoMap (GoMap Value)) (hkind : kind ≠ "aggs") :
    let m : GoMap Value :=
      if n > 0 then
        GoMap.set (GoMap.set [] kind (Value.mapStringInterface inner)) "aggs"
          (Value.mapStringMap subAggs)
      else GoMap.set [] kind (Value.mapStringInterface inner)
    GoMap.get? m kind = some (Value.mapStringInterface inner) ∧
    GoMap.get? m "aggs" = (if n > 0 then some (Value.mapStringMap subAggs) else none) ∧
    ∀ k, k ≠ kind → k ≠ "aggs" → GoMap.get? m k = none := by
  intro m
  have hkind2 : ¬ "aggs" = kind := fun e => hkind e.symm
  by_cases hn : n > 0
  · simp only [m, hn, if_true, GoMap.get?_set, GoMap.get?_nil]
    refine ⟨by simp [hkind], by simp, ?_⟩
    intro k h1 h2
    simp [h1, h2]
  · simp only [m, hn, if_false, GoMap.get?_set, GoMap.get?_nil]
    refine ⟨by simp, by simp [hkind2], ?_⟩
    intro k h1 _
    simp [h1]

/-- What a returned Map of a terms aggregation is made of. -/
theorem TermsAggregation.terms_Map_inv (agg : TermsAggregation) (m : GoMap Value)
    (h : agg.Map = Except.ok m) :
    ∃ inner subAggs, agg.innerMap = Except.ok inner ∧
      subAggsLoop agg.aggs [] = Except.ok subAggs ∧
      m = (if agg.aggs.length > 0 then
          GoMap.set (GoMap.set [] "terms" (Value.mapStringInterface inner)) "aggs"
            (Value.mapStringMap subAggs)
        else GoMap.set [] "terms" (Value.mapStringInterface inner)) := by
  unfold TermsAggregation.Map at h
  cases hi : agg.innerMap with
  | error e => simp [hi] at h
  | ok inner =>
    simp only [hi] at h
    by_cases hn : agg.aggs.length > 0
    · simp only [hn, if_true] at h
      cases hs : subAggsLoop agg.aggs [] with
      | error e => simp [hs] at h
      | ok subAggs =>
        simp only [hs, Except.ok.injEq] at h
        exact ⟨inner, subAggs, rfl, rfl, by simp [hn, h]⟩
    · simp only [hn, if_false, Except.ok.injEq] at h
      have hnil : agg.aggs = [] := by
        cases hl : agg.aggs with
        | nil => rfl
        | cons c r => simp [hl] at hn
      refine ⟨inner, [], rfl, ?_, by simp [hn, h]⟩
      rw [hnil]
      rfl

/-- A terms aggregation renders when its include slice is nil or has an element
    and its sub-aggregations render. -/
theorem TermsAggregation.terms_Map_ok (agg : TermsAggregation) (hinc : agg.include_ ≠ some [])
    (hkids : ∀ c ∈ agg.aggs, ∃ cm, c.Map = Except.ok cm) :
    ∃ m, agg.Map = Except.ok m := by
  obtain ⟨inner, hi⟩ := agg.innerMap_ok hinc
  obtain ⟨subAggs, hs⟩ := subAggsLoop_ok agg.aggs [] hkids
  unfold TermsAggregation.Map
  simp only [hi, hs]
  by_cases hn : agg.aggs.length > 0
  · simp only [hn, if_true]
    exact ⟨_, rfl⟩
  · simp only [hn, if_false]
    exact ⟨_, rfl⟩

/-- A terms aggregation whose include slice is non-nil and empty does not render. -/
theorem TermsAggregation.Map_error (agg : TermsAggregation) (hinc : agg.include_ = some []) :
    agg.Map = Except.error (Panic.indexOutOfRange 0 0) := by
  unfold TermsAggregation.Map
  rw [agg.innerMap_error hinc]

/-- What a returned Map of a date histogram aggregation is made of. -/
theorem DateHistogramAggregation.dateHistogram_Map_inv (agg : DateHistogramAggregation) (m : GoMap Value)
    (h : agg.Map = Except.ok m) :
    ∃ subAggs, subAggsLoop agg.aggs [] = Except.ok subAggs ∧
      m = (if agg.aggs.length > 0 then
          GoMap.set (GoMap.set [] "date_histogram" (Value.mapStringInterface agg.innerMap))
            "aggs" (Value.mapStringMap subAggs)
        else GoMap.set [] "date_histogram" (Value.mapStringInterface agg.innerMap)) := by
  unfold DateHistogramAggregation.Map at h
  by_cases hn : agg.aggs.length > 0
  · simp only [hn, if_true] at h
    cases hs : subAggsLoop agg.aggs [] with
    | error e => simp [hs] at h
    | ok subAggs =>
      simp only [hs, Except.ok.injEq] at h
      exact ⟨subAggs, rfl, by simp [hn, h]⟩
  · simp only [hn, if_false, Except.ok.injEq] at h
    have hnil : agg.aggs = [] := by
      cases hl : agg.aggs with
      | nil => rfl
      | cons c r => simp [hl] at hn
    refine ⟨[], ?_, by simp [hn, h]⟩
    rw [hnil]
    rfl

/-- A date histogram aggregation renders when its sub-aggregations render. -/
theorem DateHistogramAggregation.dateHistogram_Map_ok (agg : DateHistogramAggregation)
    (hkids : ∀ c ∈ agg.aggs, ∃ cm, c.Map = Except.ok cm) :
    ∃ m, agg.Map = Except.ok m := by
  obtain ⟨subAggs, hs⟩ := subAggsLoop_ok agg.aggs [] hkids
  unfold DateHistogramAggregation.Map
  simp only [hs]
  by_cases hn : agg.aggs.length > 0
  · simp only [hn, if_true]
    exact ⟨_, rfl⟩
  · simp only [hn, if_false]
    exact ⟨_, rfl⟩

/-- A terms aggregation renders exactly when its include slice is nil or has
    an element and every sub-aggregation renders. -/
theorem TermsAggregation.terms_Map_ok_iff (agg : TermsAggregation) :
    (∃ m, agg.Map = Except.ok m) ↔
      agg.include_ ≠ some [] ∧ ∀ c ∈ agg.aggs, ∃ cm, c.Map = Except.ok cm := by
  constructor
  · rintro ⟨m, hm⟩
    obtain ⟨inner, subAggs, hi, hs, _⟩ := agg.terms_Map_inv m hm
    refine ⟨?_, subAggsLoop_ok_inv agg.aggs [] subAggs hs⟩
    intro hinc
    rw [agg.innerMap_error hinc] at hi
    cases hi
  · rintro ⟨hinc, hkids⟩
    exact agg.terms_Map_ok hinc hkids

/-- A date histogram aggregation renders exactly when every sub-aggregation
    renders. -/
theorem DateHistogramAggregation.dateHistogram_Map_ok_iff (agg : DateHistogramAggregation) :
    (∃ m, agg.Map = Except.ok m) ↔ ∀ c ∈ agg.aggs, ∃ cm, c.Map = Except.ok cm := by
  constructor
  · rintro ⟨m, hm⟩
    obtain ⟨subAggs, hs, _⟩ := agg.dateHistogram_Map_inv m hm
    exact subAggsLoop_ok_inv agg.aggs [] subAggs hs
  · exact agg.dateHistogram_Map_ok

/-- The inner map of a rendered terms aggregation. -/
theorem TermsAggregation.terms_Map_inner (agg : TermsAggregation) (m : GoMap Value)
    (h : agg.Map = Except.ok m) :
    ∃ inner, agg.innerMap = Except.ok inner ∧
      GoMap.get? m "terms" = some (Value.mapStringInterface inner) := by
  obtain ⟨inner, subAggs, hi, _, hm⟩ := agg.terms_Map_inv m h
  refine ⟨inner, hi, ?_⟩
  rw [hm]
  exact (outerMap_get? "terms" inner agg.aggs.length subAggs (by decide)).1

/-- The inner map of a rendered date histogram aggregation. -/
theorem DateHistogramAggregation.dateHistogram_Map_inner (agg : DateHistogramAggregation) (m : GoMap Value)
    (h : agg.Map = Except.ok m) :
    GoMap.get? m "date_histogram" = some (Value.mapStringInterface agg.innerMap) := by
  obtain ⟨subAggs, _, hm⟩ := agg.dateHistogram_Map_inv m h
  rw [hm]
  exact (outerMap_get? "date_histogram" agg.innerMap agg.aggs.length subAggs (by decide)).1

/-- The mapping a terms aggregation renders, and its inner mapping, are in
    sorted form. -/
theorem TermsAggregation.terms_Map_sorted (agg : TermsAggregation) (m : GoMap Value)
    (h : agg.Map = Except.ok m) :
    GoMap.Sorted m ∧ ∀ inner, agg.innerMap = Except.ok inner → GoMap.Sorted inner := by
  obtain ⟨inner, subAggs, hi, _, hm⟩ := agg.terms_Map_inv m h
  constructor
  · rw [hm]
    split_ifs
    · exact GoMap.set_sorted _ _ _ (GoMap.set_sorted _ _ _ List.Pairwise.nil)
    · exact GoMap.set_sorted _ _ _ List.Pairwise.nil
  · intro inner2 hi2
    have hbase : GoMap.Sorted (GoMap.set [] "field" (Value.string agg.field)
        |>.setSome "size" (agg.size.map Value.uint64)
        |>.setSome "shard_size" (agg.shardSize.map Value.float64)
        |>.setSome "show_term_doc_count_error" (agg.showTermDoc.map Value.bool)
        |>.setSome "order" (agg.order.map Value.mapStringString)) :=
      GoMap.setSome_sorted _ _ _ (GoMap.setSome_sorted _ _ _ (GoMap.setSome_sorted _ _ _
        (GoMap.setSome_sorted _ _ _ (GoMap.set_sorted _ _ _ List.Pairwise.nil))))
    unfold TermsAggregation.innerMap at hi2
    cases hinc : agg.include_ with
    | none =>
      simp only [hinc, Except.ok.injEq] at hi2
      rw [← hi2]
      exact hbase
    | some l =>
      simp only [hinc] at hi2
      split_ifs at hi2
      · cases hl : l[0]? with
        | none => simp [hl] at hi2
        | some a =>
          simp only [hl, Except.ok.injEq] at hi2
          rw [← hi2]
          exact GoMap.set_sorted _ _ _ hbase
      · simp only [Except.ok.injEq] at hi2
        rw [← hi2]
        exact GoMap.set_sorted _ _ _ hbase

/-- The mapping a date histogram aggregation renders, and its inner mapping,
    are in sorted form. -/
theorem DateHistogramAggregation.dateHistogram_Map_sorted (agg : DateHistogramAggregation)
    (m : GoMap Value) (h : agg.Map = Except.ok m) :
    GoMap.Sorted m ∧ GoMap.Sorted agg.innerMap := by
  obtain ⟨subAggs, _, hm⟩ := agg.dateHistogram_Map_inv m h
  constructor
  · rw [hm]
    split_ifs
    · exact GoMap.set_sorted _ _ _ (GoMap.set_sorted _ _ _ List.Pairwise.nil)
    · exact GoMap.set_sorted _ _ _ List.Pairwise.nil
  · exact GoMap.setSome_sorted _ _ _ (GoMap.setSome_sorted _ _ _ (GoMap.setSome_sorted _ _ _
      (GoMap.setIf_sorted _ _ _ _ (GoMap.setIf_sorted _ _ _ _ (GoMap.setIf_sorted _ _ _ _
      (GoMap.setIf_sorted _ _ _ _ (GoMap.setIf_sorted _ _ _ _
      (GoMap.set_sorted _ _ _ List.Pairwise.nil))))))))

/-- The entry "aggs" of a rendered terms aggregation. -/
theorem TermsAggregation.terms_Map_aggs (agg : TermsAggregation) (m : GoMap Value)
    (h : agg.Map = Except.ok m) :
    (agg.aggs = [] → GoMap.get? m "aggs" = none) ∧
    (agg.aggs ≠ [] → ∃ subAggs, GoMap.get? m "aggs" = some (Value.mapStringMap subAggs) ∧
      subAggsLoop agg.aggs [] = Except.ok subAggs) := by
  obtain ⟨inner, subAggs, _, hs, hm⟩ := agg.terms_Map_inv m h
  have ho := (outerMap_get? "terms" inner agg.aggs.length subAggs (by decide)).2.1
  rw [← hm] at ho
  constructor
  · intro hnil
    rw [ho, hnil]
    rfl
  · intro hne
    have hpos : agg.aggs.length > 0 := List.length_pos.mpr hne
    exact ⟨subAggs, by rw [ho, if_pos hpos], hs⟩

/-- The entry "aggs" of a rendered date histogram aggregation. -/
theorem DateHistogramAggregation.dateHistogram_Map_aggs (agg : DateHistogramAggregation) (m : GoMap Value)
    (h : agg.Map = Except.ok m) :
    (agg.aggs = [] → GoMap.get? m "aggs" = none) ∧
    (agg.aggs ≠ [] → ∃ subAggs, GoMap.get? m "aggs" = some (Value.mapStringMap subAggs) ∧
      subAggsLoop agg.aggs [] = Except.ok subAggs) := by
  obtain ⟨subAggs, hs, hm⟩ := agg.dateHistogram_Map_inv m h
  have ho := (outerMap_get? "date_histogram" agg.innerMap agg.aggs.length subAggs
    (by decide)).2.1
  rw [← hm] at ho
  constructor
  · intro hnil
    rw [ho, hnil]
    rfl
  · intro hne
    have hpos : agg.aggs.length > 0 := List.length_pos.mpr hne
    exact ⟨subAggs, by rw [ho, if_pos hpos], hs⟩

/-- What the entry "aggs" is, for a rendering r of a parent whose entry "aggs"
    is the result of the loop over the sub-aggregations cs. -/
theorem aggs_entry_spec (cs : List Aggregation) (m : GoMap Value)
    (haggs : (cs = [] → GoMap.get? m "aggs" = none) ∧
      (cs ≠ [] → ∃ subAggs, GoMap.get? m "aggs" = some (Value.mapStringMap subAggs) ∧
        subAggsLoop cs [] = Except.ok subAggs)) :
    ("aggs" ∈ GoMap.keys m ↔ cs ≠ []) ∧
    (cs ≠ [] → ∃ subAggs, GoMap.get? m "aggs" = some (Value.mapStringMap subAggs) ∧
      (∀ k, k ∈ GoMap.keys subAggs ↔ ∃ c ∈ cs, c.Name = k) ∧
      (∀ pre c post, cs = pre ++ c :: post → (∀ x ∈ post, x.Name ≠ c.Name) →
        ∃ cm, c.Map = Except.ok cm ∧ GoMap.get? subAggs c.Name = some cm)) := by
  constructor
  · constructor
    · intro hk hnil
      rw [GoMap.mem_keys_iff, haggs.1 hnil] at hk
      obtain ⟨v, hv⟩ := hk
      cases hv
    · intro hne
      obtain ⟨subAggs, hg, _⟩ := haggs.2 hne
      exact (GoMap.mem_keys_iff m "aggs").mpr ⟨_, hg⟩
  · intro hne
    obtain ⟨subAggs, hg, hs⟩ := haggs.2 hne
    refine ⟨subAggs, hg, ?_, ?_⟩
    · intro k
      rw [subAggsLoop_keys cs [] subAggs hs k]
      simp [GoMap.keys]
    · intro pre c post he hlast
      subst he
      exact subAggsLoop_get?_last pre c post [] subAggs hs hlast

/-! ## Sequences of setter calls -/

/-- A field that no call of a sequence changes is as it was before the sequence. -/
theorem foldl_field_unchanged {S C β : Type} (step : S → C → S) (proj : S → β) (cs : List C)
    (s : S) (h : ∀ c ∈ cs, ∀ t, proj (step t c) = proj t) :
    proj (cs.foldl step s) = proj s := by
  induction cs generalizing s with
  | nil => rfl
  | cons c rest ih =>
    rw [List.foldl_cons, ih _ (fun d hd => h d (List.mem_cons_of_mem c hd))]
    exact h c (List.mem_cons_self c rest) s

/-- A field holds what the last call that sets it has stored. -/
theorem foldl_field_last {S C β : Type} (step : S → C → S) (proj : S → β)
    (pre : List C) (c : C) (post : List C) (s : S) (v : β)
    (hc : ∀ t, proj (step t c) = v) (hpost : ∀ d ∈ post, ∀ t, proj (step t d) = proj t) :
    proj ((pre ++ c :: post).foldl step s) = v := by
  rw [List.foldl_append, List.foldl_cons, foldl_field_unchanged step proj post _ hpost]
  exact hc _

/-- In a sequence with a call of some kind, one call of that kind is the last. -/
theorem exists_last_call {C : Type} (P : C → Prop) (cs : List C) (h : ∃ c ∈ cs, P c) :
    ∃ pre c post, cs = pre ++ c :: post ∧ P c ∧ ∀ d ∈ post, ¬ P d := by
  induction cs with
  | nil =>
    obtain ⟨c, hc, _⟩ := h
    cases hc
  | cons c rest ih =>
    by_cases hrest : ∃ d ∈ rest, P d
    · obtain ⟨pre, d, post, he, hd, hpost⟩ := ih hrest
      exact ⟨c :: pre, d, post, by rw [he, List.cons_append], hd, hpost⟩
    · obtain ⟨d, hd, hP⟩ := h
      rcases List.mem_cons.mp hd with rfl | hd2
      · exact ⟨[], d, rest, rfl, hP, fun e he hPe => hrest ⟨e, he, hPe⟩⟩
      · exact absurd ⟨d, hd2, hP⟩ hrest

theorem exists_map_eq_some {α β : Type} (f : α → β) (o : Option α) :
    (∃ v, o.map f = some v) ↔ ∃ a, o = some a := by
  cases o <;> simp

/-- An optional field is set exactly when the sequence of calls has a call of
    the kind that sets it. -/
theorem isSome_iff_called {C α : Type} (P : C → Prop) (cs : List C) (f : Option α)
    (h0 : (∀ c ∈ cs, ¬ P c) → f = none)
    (h1 : ∀ pre c post, cs = pre ++ c :: post → P c → (∀ d ∈ post, ¬ P d) → ∃ v, f = some v) :
    (∃ v, f = some v) ↔ ∃ c ∈ cs, P c := by
  constructor
  · intro hv
    by_contra hno
    have : f = none := h0 (fun c hc hP => hno ⟨c, hc, hP⟩)
    obtain ⟨v, hv⟩ := hv
    rw [hv] at this
    cases this
  · intro hex
    obtain ⟨pre, c, post, he, hc, hpost⟩ := exists_last_call P cs hex
    exact h1 pre c post he hc hpost

namespace TermsAggregation

theorem size_calls (a : TermsAggregation) (cs : List Call) :
    ((∀ n, Call.Size n ∉ cs) → (a.calls cs).size = a.size) ∧
    (∀ pre n post, cs = pre ++ Call.Size n :: post → (∀ n2, Call.Size n2 ∉ post) →
      (a.calls cs).size = some n) := by
  constructor
  · intro h
    refine foldl_field_unchanged call (fun t => t.size) cs a ?_
    intro c hc t
    cases c <;> first | rfl | exact absurd hc (h _)
  · intro pre n post he h
    subst he
    refine foldl_field_last call (fun t => t.size) pre _ post a (some n) (fun _ => rfl) ?_
    intro c hc t
    cases c <;> first | rfl | exact absurd hc (h _)

theorem shardSize_calls (a : TermsAggregation) (cs : List Call) :
    ((∀ x, Call.ShardSize x ∉ cs) → (a.calls cs).shardSize = a.shardSize) ∧
    (∀ pre x post, cs = pre ++ Call.ShardSize x :: post → (∀ x2, Call.ShardSize x2 ∉ post) →
      (a.calls cs).shardSize = some x) := by
  constructor
  · intro h
    refine foldl_field_unchanged call (fun t => t.shardSize) cs a ?_
    intro c hc t
    cases c <;> first | rfl | exact absurd hc (h _)
  · intro pre x post he h
    subst he
    refine foldl_field_last call (fun t => t.shardSize) pre _ post a (some x) (fun _ => rfl) ?_
    intro c hc t
    cases c <;> first | rfl | exact absurd hc (h _)

theorem showTermDoc_calls (a : TermsAggregation) (cs : List Call) :
    ((∀ b, Call.ShowTermDocCountError b ∉ cs) → (a.calls cs).showTermDoc = a.showTermDoc) ∧
    (∀ pre b post, cs = pre ++ Call.ShowTermDocCountError b :: post →
      (∀ b2, Call.ShowTermDocCountError b2 ∉ post) → (a.calls cs).showTermDoc = some b) := by
  constructor
  · intro h
    refine foldl_field_unchanged call (fun t => t.showTermDoc) cs a ?_
    intro c hc t
    cases c <;> first | rfl | exact absurd hc (h _)
  · intro pre b post he h
    subst he
    refine foldl_field_last call (fun t => t.showTermDoc) pre _ post a (some b)
      (fun _ => rfl) ?_
    intro c hc t
    cases c <;> first | rfl | exact absurd hc (h _)

theorem size_set_iff (name field : String) (cs : List Call) :
    (∃ n, ((TermsAgg name field).calls cs).size = some n) ↔ ∃ n, Call.Size n ∈ cs := by
  have hs := size_calls (TermsAgg name field) cs
  rw [isSome_iff_called (fun c => ∃ n, c = Call.Size n) cs _
    (fun h => by
      rw [hs.1 (fun n hn => h _ hn ⟨n, rfl⟩)]
      rfl)
    (fun pre c post he hc hpost => by
      obtain ⟨n, rfl⟩ := hc
      exact ⟨n, hs.2 pre n post he (fun n2 hn2 => hpost _ hn2 ⟨n2, rfl⟩)⟩)]
  constructor
  · rintro ⟨c, hc, n, rfl⟩
    exact ⟨n, hc⟩
  · rintro ⟨n, hn⟩
    exact ⟨_, hn, n, rfl⟩

theorem shardSize_set_iff (name field : String) (cs : List Call) :
    (∃ x, ((TermsAgg name field).calls cs).shardSize = some x) ↔
      ∃ x, Call.ShardSize x ∈ cs := by
  have hs := shardSize_calls (TermsAgg name field) cs
  rw [isSome_iff_called (fun c => ∃ x, c = Call.ShardSize x) cs _
    (fun h => by
      rw [hs.1 (fun x hx => h _ hx ⟨x, rfl⟩)]
      rfl)
    (fun pre c post he hc hpost => by
      obtain ⟨x, rfl⟩ := hc
      exact ⟨x, hs.2 pre x post he (fun x2 hx2 => hpost _ hx2 ⟨x2, rfl⟩)⟩)]
  constructor
  · rintro ⟨c, hc, x, rfl⟩
    exact ⟨x, hc⟩
  · rintro ⟨x, hx⟩
    exact ⟨_, hx, x, rfl⟩

theorem showTermDoc_set_iff (name field : String) (cs : List Call) :
    (∃ b, ((TermsAgg name field).calls cs).showTermDoc = some b) ↔
      ∃ b, Call.ShowTermDocCountError b ∈ cs := by
  have hs := showTermDoc_calls (TermsAgg name field) cs
  rw [isSome_iff_called (fun c => ∃ b, c = Call.ShowTermDocCountError b) cs _
    (fun h => by
      rw [hs.1 (fun b hb => h _ hb ⟨b, rfl⟩)]
      rfl)
    (fun pre c post he hc hpost => by
      obtain ⟨b, rfl⟩ := hc
      exact ⟨b, hs.2 pre b post he (fun b2 hb2 => hpost _ hb2 ⟨b2, rfl⟩)⟩)]
  constructor
  · rintro ⟨c, hc, b, rfl⟩
    exact ⟨b, hc⟩
  · rintro ⟨b, hb⟩
    exact ⟨_, hb, b, rfl⟩

end TermsAggregation

/-- Running a sequence of calls and then clearing a field is running, from the
    cleared start, the calls that do not set that field. -/
theorem foldl_erase_filter {S C : Type} (step : S → C → S) (erase : S → S) (keep : C → Bool)
    (h1 : ∀ c, keep c = false → ∀ t, erase (step t c) = erase t)
    (h2 : ∀ c, keep c = true → ∀ t, erase (step t c) = step (erase t) c)
    (cs : List C) (s : S) :
    erase (cs.foldl step s) = (cs.filter keep).foldl step (erase s) := by
  induction cs generalizing s with
  | nil => rfl
  | cons c rest ih =>
    rw [List.foldl_cons, ih]
    cases hk : keep c with
    | false => rw [List.filter_cons_of_neg (by simp [hk]), h1 c hk]
    | true => rw [List.filter_cons_of_pos (by simp [hk]), List.foldl_cons, h2 c hk]

namespace DateHistogramAggregation

/-- A history whose last CalendarInterval call passes "" ends in the same aggregation
    as the history without its CalendarInterval calls. -/
theorem calls_CalendarInterval_empty (name field : String) (pre post : List Call)
    (hpost : ∀ s, Call.CalendarInterval s ∉ post) :
    (DateHistogramAgg name field).calls (pre ++ Call.CalendarInterval "" :: post) =
      (DateHistogramAgg name field).calls
        ((pre ++ Call.CalendarInterval "" :: post).filter
          (fun c => match c with | Call.CalendarInterval _ => false | _ => true)) := by
  have hlast : ((DateHistogramAgg name field).calls (pre ++ Call.CalendarInterval "" :: post)).calendarInterval
      = "" := by
    refine foldl_field_last call (fun t => t.calendarInterval) pre _ post _ "" (fun _ => rfl) ?_
    intro c hc t
    cases c <;> first | rfl | exact absurd hc (hpost _)
  have herase := foldl_erase_filter call (fun t => { t with calendarInterval := "" })
    (fun c => match c with | Call.CalendarInterval _ => false | _ => true)
    (fun c hc t => by cases c <;> first | rfl | simp at hc)
    (fun c hc t => by cases c <;> first | rfl | simp at hc)
    (pre ++ Call.CalendarInterval "" :: post) (DateHistogramAgg name field)
  have hself : ∀ t : DateHistogramAggregation, t.calendarInterval = "" → { t with calendarInterval := "" } = t := by
    intro t ht
    cases t
    cases ht
    rfl
  exact (hself _ hlast).symm.trans herase

/-- A history whose last Fixedinterval call passes "" ends in the same aggregation
    as the history without its Fixedinterval calls. -/
theorem calls_Fixedinterval_empty (name field : String) (pre post : List Call)
    (hpost : ∀ s, Call.Fixedinterval s ∉ post) :
    (DateHistogramAgg name field).calls (pre ++ Call.Fixedinterval "" :: post) =
      (DateHistogramAgg name field).calls
        ((pre ++ Call.Fixedinterval "" :: post).filter
          (fun c => match c with | Call.Fixedinterval _ => false | _ => true)) := by
  have hlast : ((DateHistogramAgg name field).calls (pre ++ Call.Fixedinterval "" :: post)).fixedInterval
      = "" := by
    refine foldl_field_last call (fun t => t.fixedInterval) pre _ post _ "" (fun _ => rfl) ?_
    intro c hc t
    cases c <;> first | rfl | exact absurd hc (hpost _)
  have herase := foldl_erase_filter call (fun t => { t with fixedInterval := "" })
    (fun c => match c with | Call.Fixedinterval _ => false | _ => true)
    (fun c hc t => by cases c <;> first | rfl | simp at hc)
    (fun c hc t => by cases c <;> first | rfl | simp at hc)
    (pre ++ Call.Fixedinterval "" :: post) (DateHistogramAgg name field)
  have hself : ∀ t : DateHistogramAggregation, t.fixedInterval = "" → { t with fixedInterval := "" } = t := by
    intro t ht
    cases t
    cases ht
    rfl
  exact (hself _ hlast).symm.trans herase

/-- A history whose last Format call passes "" ends in the same aggregation
    as the history without its Format calls. -/
theorem calls_Format_empty (name field : String) (pre post : List Call)
    (hpost : ∀ s, Call.Format s ∉ post) :
    (DateHistogramAgg name field).calls (pre ++ Call.Format "" :: post) =
      (DateHistogramAgg name field).calls
        ((pre ++ Call.Format "" :: post).filter
          (fun c => match c with | Call.Format _ => false | _ => true)) := by
  have hlast : ((DateHistogramAgg name field).calls (pre ++ Call.Format "" :: post)).format
      = "" := by
    refine foldl_field_last call (fun t => t.format) pre _ post _ "" (fun _ => rfl) ?_
    intro c hc t
    cases c <;> first | rfl | exact absurd hc (hpost _)
  have herase := foldl_erase_filter call (fun t => { t with format := "" })
    (fun c => match c with | Call.Format _ => false | _ => true)
    (fun c hc t => by cases c <;> first | rfl | simp at hc)
    (fun c hc t => by cases c <;> first | rfl | simp at hc)
    (pre ++ Call.Format "" :: post) (DateHistogramAgg name field)
  have hself : ∀ t : DateHistogramAggregation, t.format = "" → { t with format := "" } = t := by
    intro t ht
    cases t
    cases ht
    rfl
  exact (hself _ hlast).symm.trans herase

/-- A history whose last Offset call passes "" ends in the same aggregation
    as the history without its Offset calls. -/
theorem calls_Offset_empty (name field : String) (pre post : List Call)
    (hpost : ∀ s, Call.Offset s ∉ post) :
    (DateHistogramAgg name field).calls (pre ++ Call.Offset "" :: post) =
      (DateHistogramAgg name field).calls
        ((pre ++ Call.Offset "" :: post).filter
          (fun c => match c with | Call.Offset _ => false | _ => true)) := by
  have hlast : ((DateHistogramAgg name field).calls (pre ++ Call.Offset "" :: post)).offset
      = "" := by
    refine foldl_field_last call (fun t => t.offset) pre _ post _ "" (fun _ => rfl) ?_
    intro c hc t
    cases c <;> first | rfl | exact absurd hc (hpost _)
  have herase := foldl_erase_filter call (fun t => { t with offset := "" })
    (fun c => match c with | Call.Offset _ => false | _ => true)
    (fun c hc t => by cases c <;> first | rfl | simp at hc)
    (fun c hc t => by cases c <;> first | rfl | simp at hc)
    (pre ++ Call.Offset "" :: post) (DateHistogramAgg name field)
  have hself : ∀ t : DateHistogramAggregation, t.offset = "" → { t with offset := "" } = t := by
    intro t ht
    cases t
    cases ht
    rfl
  exact (hself _ hlast).symm.trans herase

/-- A history whose last Missing call passes "" ends in the same aggregation
    as the history without its Missing calls. -/
theorem calls_Missing_empty (name field : String) (pre post : List Call)
    (hpost : ∀ s, Call.Missing s ∉ post) :
    (DateHistogramAgg name field).calls (pre ++ Call.Missing "" :: post) =
      (DateHistogramAgg name field).calls
        ((pre ++ Call.Missing "" :: post).filter
          (fun c => match c with | Call.Missing _ => false | _ => true)) := by
  have hlast : ((DateHistogramAgg name field).calls (pre ++ Call.Missing "" :: post)).missing
      = "" := by
    refine foldl_field_last call (fun t => t.missing) pre _ post _ "" (fun _ => rfl) ?_
    intro c hc t
    cases c <;> first | rfl | exact absurd hc (hpost _)
  have herase := foldl_erase_filter call (fun t => { t with missing := "" })
    (fun c => match c with | Call.Missing _ => false | _ => true)
    (fun c hc t => by cases c <;> first | rfl | simp at hc)
    (fun c hc t => by cases c <;> first | rfl | simp at hc)
    (pre ++ Call.Missing "" :: post) (DateHistogramAgg name field)
  have hself : ∀ t : DateHistogramAggregation, t.missing = "" → { t with missing := "" } = t := by
    intro t ht
    cases t
    cases ht
    rfl
  exact (hself _ hlast).symm.trans herase

theorem minDocCount_calls (a : DateHistogramAggregation) (cs : List Call) :
    ((∀ n, Call.MinDocCount n ∉ cs) → (a.calls cs).minDocCount = a.minDocCount) ∧
    (∀ pre n post, cs = pre ++ Call.MinDocCount n :: post → (∀ n2, Call.MinDocCount n2 ∉ post) →
      (a.calls cs).minDocCount = some n) := by
  constructor
  · intro h
    refine foldl_field_unchanged call (fun t => t.minDocCount) cs a ?_
    intro c hc t
    cases c <;> first | rfl | exact absurd hc (h _)
  · intro pre n post he h
    subst he
    refine foldl_field_last call (fun t => t.minDocCount) pre _ post a (some n) (fun _ => rfl) ?_
    intro c hc t
    cases c <;> first | rfl | exact absurd hc (h _)

theorem minDocCount_set_iff (name field : String) (cs : List Call) :
    (∃ n, ((DateHistogramAgg name field).calls cs).minDocCount = some n) ↔
      ∃ n, Call.MinDocCount n ∈ cs := by
  have hs := minDocCount_calls (DateHistogramAgg name field) cs
  rw [isSome_iff_called (fun c => ∃ n, c = Call.MinDocCount n) cs _
    (fun h => by
      rw [hs.1 (fun n hv => h _ hv ⟨n, rfl⟩)]
      rfl)
    (fun pre c post he hc hpost => by
      obtain ⟨n, rfl⟩ := hc
      exact ⟨n, hs.2 pre n post he (fun n2 hv2 => hpost _ hv2 ⟨n2, rfl⟩)⟩)]
  constructor
  · rintro ⟨c, hc, n, rfl⟩
    exact ⟨n, hc⟩
  · rintro ⟨n, hv⟩
    exact ⟨_, hv, n, rfl⟩

theorem keyed_calls (a : DateHistogramAggregation) (cs : List Call) :
    ((∀ b, Call.Keyed b ∉ cs) → (a.calls cs).keyed = a.keyed) ∧
    (∀ pre b post, cs = pre ++ Call.Keyed b :: post → (∀ b2, Call.Keyed b2 ∉ post) →
      (a.calls cs).keyed = some b) := by
  constructor
  · intro h
    refine foldl_field_unchanged call (fun t => t.keyed) cs a ?_
    intro c hc t
    cases c <;> first | rfl | exact absurd hc (h _)
  · intro pre b post he h
    subst he
    refine foldl_field_last call (fun t => t.keyed) pre _ post a (some b) (fun _ => rfl) ?_
    intro c hc t
    cases c <;> first | rfl | exact absurd hc (h _)

theorem keyed_set_iff (name field : String) (cs : List Call) :
    (∃ b, ((DateHistogramAgg name field).calls cs).keyed = some b) ↔
      ∃ b, Call.Keyed b ∈ cs := by
  have hs := keyed_calls (DateHistogramAgg name field) cs
  rw [isSome_iff_called (fun c => ∃ b, c = Call.Keyed b) cs _
    (fun h => by
      rw [hs.1 (fun b hv => h _ hv ⟨b, rfl⟩)]
      rfl)
    (fun pre c post he hc hpost => by
      obtain ⟨b, rfl⟩ := hc
      exact ⟨b, hs.2 pre b post he (fun b2 hv2 => hpost _ hv2 ⟨b2, rfl⟩)⟩)]
  constructor
  · rintro ⟨c, hc, b, rfl⟩
    exact ⟨b, hc⟩
  · rintro ⟨b, hv⟩
    exact ⟨_, hv, b, rfl⟩

theorem order_calls (a : DateHistogramAggregation) (cs : List Call) :
    ((∀ o, Call.Order o ∉ cs) → (a.calls cs).order = a.order) ∧
    (∀ pre o post, cs = pre ++ Call.Order o :: post → (∀ o2, Call.Order o2 ∉ post) →
      (a.calls cs).order = o) := by
  constructor
  · intro h
    refine foldl_field_unchanged call (fun t => t.order) cs a ?_
    intro c hc t
    cases c <;> first | rfl | exact absurd hc (h _)
  · intro pre o post he h
    subst he
    refine foldl_field_last call (fun t => t.order) pre _ post a o (fun _ => rfl) ?_
    intro c hc t
    cases c <;> first | rfl | exact absurd hc (h _)

/-- The order map is non-nil exactly when the last Order call passed a non-nil map. -/
theorem order_set_iff (name field : String) (cs : List Call) :
    (∃ o, ((DateHistogramAgg name field).calls cs).order = some o) ↔
      ∃ pre o post, cs = pre ++ Call.Order (some o) :: post ∧ ∀ o2, Call.Order o2 ∉ post := by
  have hs := order_calls (DateHistogramAgg name field) cs
  constructor
  · rintro ⟨o, ho⟩
    by_cases hex : ∃ c ∈ cs, ∃ o2, c = Call.Order o2
    · obtain ⟨pre, c, post, he, ⟨o2, rfl⟩, hpost⟩ :=
        exists_last_call (fun c => ∃ o2, c = Call.Order o2) cs hex
      have hlast : ∀ o3, Call.Order o3 ∉ post := fun o3 h3 => hpost _ h3 ⟨o3, rfl⟩
      have := hs.2 pre o2 post he hlast
      rw [ho] at this
      subst this
      exact ⟨pre, o, post, he, hlast⟩
    · have := hs.1 (fun o2 h2 => hex ⟨_, h2, o2, rfl⟩)
      rw [ho] at this
      cases this
  · rintro ⟨pre, o, post, he, hlast⟩
    exact ⟨o, hs.2 pre (some o) post he hlast⟩

end DateHistogramAggregation

/-! ## Failure of Map -/

/-- C1: Map can fail. The terms aggregation built by TermsAgg, Size and then
    Include with an empty non-nil list of values has no rendering: the index
    expression agg.include[0] panics with index 0 out of range for length 0. -/
theorem C1_Map_panics_after_Include_of_empty_list :
    (((TermsAgg "colors" "color.keyword").Size 5).Include (some [])).Map
      = Except.error (Panic.indexOutOfRange 0 0) := by
  rfl

/-- C2: on every terms aggregation, Include called with an empty non-nil list
    of values makes Map panic at the index expression agg.include[0]; no mapping
    is returned, with or without the key "include". -/
theorem C2_Include_of_empty_list_panics (agg : TermsAggregation) :
    (agg.Include (some [])).Map = Except.error (Panic.indexOutOfRange 0 0) :=
  TermsAggregation.Map_error _ rfl

/-! ## The include entry -/

/-- C3: after Include with a non-empty list vs, on a terms aggregation whose
    sub-aggregations render, Map returns a mapping whose inner mapping has under
    "include" the bare string a when vs is the one-element list [a], and the
    sequence vs itself when vs has two or more elements. -/
theorem C3_include_bare_string_or_sequence (agg : TermsAggregation) (vs : List String)
    (hvs : vs ≠ []) (hkids : ∀ c ∈ agg.aggs, ∃ cm, c.Map = Except.ok cm) :
    ∃ m inner, (agg.Include (some vs)).Map = Except.ok m ∧
      GoMap.get? m "terms" = some (Value.mapStringInterface inner) ∧
      (∀ a, vs = [a] → GoMap.get? inner "include" = some (Value.string a)) ∧
      (2 ≤ vs.length → GoMap.get? inner "include" = some (Value.stringSlice vs)) := by
  have hinc : (agg.Include (some vs)).include_ ≠ some [] := by
    intro h
    simp only [TermsAggregation.Include, Option.some.injEq] at h
    exact hvs h
  obtain ⟨m, hm⟩ := TermsAggregation.terms_Map_ok (agg.Include (some vs)) hinc hkids
  obtain ⟨inner, hi, hget⟩ := TermsAggregation.terms_Map_inner _ m hm
  refine ⟨m, inner, hm, hget, ?_, ?_⟩
  · intro a ha
    subst ha
    rw [TermsAggregation.terms_innerMap_get? _ inner hi]
    simp [TermsAggregation.Include]
  · intro hlen
    rw [TermsAggregation.terms_innerMap_get? _ inner hi]
    match vs, hlen with
    | a :: b :: r, _ => simp [TermsAggregation.Include]

/-- C3 at TermsAgg("colors", "color.keyword") with Include("red", "blue"). -/
theorem C3_include_bare_string_or_sequence_witness :
    ∃ m inner, ((TermsAgg "colors" "color.keyword").Include (some ["red", "blue"])).Map
        = Except.ok m ∧
      GoMap.get? m "terms" = some (Value.mapStringInterface inner) ∧
      (∀ a, ["red", "blue"] = [a] → GoMap.get? inner "include" = some (Value.string a)) ∧
      (2 ≤ ["red", "blue"].length →
        GoMap.get? inner "include" = some (Value.stringSlice ["red", "blue"])) :=
  C3_include_bare_string_or_sequence (TermsAgg "colors" "color.keyword") ["red", "blue"]
    (by simp) (by simp [TermsAgg])

/-! ## Rendering without configuration -/

/-- C4: with no setter called, TermsAgg(name, field).Map() is exactly the
    mapping with the one key "terms" over the inner mapping with the one key
    "field", and DateHistogramAgg(name, field).Map() is the same under
    "date_histogram"; neither has a key "aggs". -/
theorem C4_Map_of_fresh_aggregation (name field : String) :
    (TermsAgg name field).Map
      = Except.ok [("terms", Value.mapStringInterface [("field", Value.string field)])] ∧
    (DateHistogramAgg name field).Map
      = Except.ok [("date_histogram",
          Value.mapStringInterface [("field", Value.string field)])] :=
  ⟨rfl, rfl⟩

/-! ## The optional fields of a terms aggregation -/

/-- C5: for a terms aggregation reached from TermsAgg by any sequence of setter
    calls, on which Map returns (the include slice is not empty and non-nil, the
    sub-aggregations render), each of the keys "size", "shard_size" and
    "show_term_doc_count_error" is in the inner mapping exactly when its setter
    was called, and its value is then the argument of the last such call. In
    particular TermsAgg(n, f).Size(k).Include(a, b).Map() is the mapping with
    "terms" over the three entries field, size and include. -/
theorem C5_terms_optional_fields_follow_calls (name field : String)
    (cs : List TermsAggregation.Call)
    (hinc : ((TermsAgg name field).calls cs).include_ ≠ some [])
    (hkids : ∀ c ∈ ((TermsAgg name field).calls cs).aggs, ∃ cm, c.Map = Except.ok cm) :
    (∃ m inner, ((TermsAgg name field).calls cs).Map = Except.ok m ∧
      GoMap.get? m "terms" = some (Value.mapStringInterface inner) ∧
      ("size" ∈ GoMap.keys inner ↔ ∃ n, TermsAggregation.Call.Size n ∈ cs) ∧
      (∀ pre n post, cs = pre ++ TermsAggregation.Call.Size n :: post →
        (∀ n2, TermsAggregation.Call.Size n2 ∉ post) →
        GoMap.get? inner "size" = some (Value.uint64 n)) ∧
      ("shard_size" ∈ GoMap.keys inner ↔ ∃ x, TermsAggregation.Call.ShardSize x ∈ cs) ∧
      (∀ pre x post, cs = pre ++ TermsAggregation.Call.ShardSize x :: post →
        (∀ x2, TermsAggregation.Call.ShardSize x2 ∉ post) →
        GoMap.get? inner "shard_size" = some (Value.float64 x)) ∧
      ("show_term_doc_count_error" ∈ GoMap.keys inner ↔
        ∃ b, TermsAggregation.Call.ShowTermDocCountError b ∈ cs) ∧
      (∀ pre b post, cs = pre ++ TermsAggregation.Call.ShowTermDocCountError b :: post →
        (∀ b2, TermsAggregation.Call.ShowTermDocCountError b2 ∉ post) →
        GoMap.get? inner "show_term_doc_count_error" = some (Value.bool b))) ∧
    (∀ (k : Nat) (a b : String),
      (((TermsAgg name field).Size k).Include (some [a, b])).Map
        = Except.ok [("terms", Value.mapStringInterface
            [("field", Value.string field), ("include", Value.stringSlice [a, b]),
             ("size", Value.uint64 k)])]) := by
  refine ⟨?_, fun _ _ _ => rfl⟩
  obtain ⟨m, hm⟩ := TermsAggregation.terms_Map_ok _ hinc hkids
  obtain ⟨inner, hi, hget⟩ := TermsAggregation.terms_Map_inner _ m hm
  have hsize : GoMap.get? inner "size"
      = ((TermsAgg name field).calls cs).size.map Value.uint64 := by
    rw [TermsAggregation.terms_innerMap_get? _ inner hi]
    simp
  have hshard : GoMap.get? inner "shard_size"
      = ((TermsAgg name field).calls cs).shardSize.map Value.float64 := by
    rw [TermsAggregation.terms_innerMap_get? _ inner hi]
    simp
  have hshow : GoMap.get? inner "show_term_doc_count_error"
      = ((TermsAgg name field).calls cs).showTermDoc.map Value.bool := by
    rw [TermsAggregation.terms_innerMap_get? _ inner hi]
    simp
  refine ⟨m, inner, hm, hget, ?_, ?_, ?_, ?_, ?_, ?_⟩
  · rw [GoMap.mem_keys_iff, hsize, exists_map_eq_some, TermsAggregation.size_set_iff name field cs]
  · intro pre n post he hlast
    rw [hsize, (TermsAggregation.size_calls _ cs).2 pre n post he hlast]
    rfl
  · rw [GoMap.mem_keys_iff, hshard, exists_map_eq_some,
      TermsAggregation.shardSize_set_iff name field cs]
  · intro pre x post he hlast
    rw [hshard, (TermsAggregation.shardSize_calls _ cs).2 pre x post he hlast]
    rfl
  · rw [GoMap.mem_keys_iff, hshow, exists_map_eq_some,
      TermsAggregation.showTermDoc_set_iff name field cs]
  · intro pre b post he hlast
    rw [hshow, (TermsAggregation.showTermDoc_calls _ cs).2 pre b post he hlast]
    rfl

/-- C5 on the calls Size(5), ShowTermDocCountError(false), Size(0),
    Include("red", "blue"): the zero values of the last calls are rendered, and
    "shard_size", never set, is absent. -/
theorem C5_terms_optional_fields_follow_calls_witness :
    ((TermsAgg "colors" "color.keyword").calls
      [TermsAggregation.Call.Size 5, TermsAggregation.Call.ShowTermDocCountError false,
       TermsAggregation.Call.Size 0,
       TermsAggregation.Call.Include (some ["red", "blue"])]).include_ ≠ some [] ∧
    (∀ c ∈ ((TermsAgg "colors" "color.keyword").calls
      [TermsAggregation.Call.Size 5, TermsAggregation.Call.ShowTermDocCountError false,
       TermsAggregation.Call.Size 0,
       TermsAggregation.Call.Include (some ["red", "blue"])]).aggs,
      ∃ cm, c.Map = Except.ok cm) ∧
    ∃ m inner, ((TermsAgg "colors" "color.keyword").calls
      [TermsAggregation.Call.Size 5, TermsAggregation.Call.ShowTermDocCountError false,
       TermsAggregation.Call.Size 0,
       TermsAggregation.Call.Include (some ["red", "blue"])]).Map = Except.ok m ∧
      GoMap.get? m "terms" = some (Value.mapStringInterface inner) ∧
      GoMap.get? inner "size" = some (Value.uint64 0) ∧
      GoMap.get? inner "show_term_doc_count_error" = some (Value.bool false) ∧
      "shard_size" ∉ GoMap.keys inner := by
  have hinc : ((TermsAgg "colors" "color.keyword").calls
      [TermsAggregation.Call.Size 5, TermsAggregation.Call.ShowTermDocCountError false,
       TermsAggregation.Call.Size 0,
       TermsAggregation.Call.Include (some ["red", "blue"])]).include_ ≠ some [] := by
    decide
  have hkids : ∀ c ∈ ((TermsAgg "colors" "color.keyword").calls
      [TermsAggregation.Call.Size 5, TermsAggregation.Call.ShowTermDocCountError false,
       TermsAggregation.Call.Size 0,
       TermsAggregation.Call.Include (some ["red", "blue"])]).aggs,
      ∃ cm, c.Map = Except.ok cm := by
    intro c hc
    cases hc
  obtain ⟨⟨m, inner, hm, hget, _, hsize, hshard, _, _, hshow⟩, _⟩ :=
    C5_terms_optional_fields_follow_calls "colors" "color.keyword" _ hinc hkids
  refine ⟨hinc, hkids, m, inner, hm, hget, ?_, ?_, ?_⟩
  · exact hsize [TermsAggregation.Call.Size 5,
      TermsAggregation.Call.ShowTermDocCountError false] 0
      [TermsAggregation.Call.Include (some ["red", "blue"])] rfl (by simp)
  · exact hshow [TermsAggregation.Call.Size 5] false
      [TermsAggregation.Call.Size 0, TermsAggregation.Call.Include (some ["red", "blue"])]
      rfl (by simp)
  · rw [hshard]
    simp

/-! ## The options of a date histogram aggregation -/

/-- C6: DateHistogramAgg("by_day", "date").CalendarInterval("day").MinDocCount(1)
    renders the three inner entries calendar_interval, field and min_doc_count,
    but the value under "min_doc_count" is the pointer agg.minDocCount, not the
    unsigned integer 1 that the expected mapping holds. -/
theorem C6_min_doc_count_is_stored_as_pointer :
    (((DateHistogramAgg "by_day" "date").CalendarInterval "day").MinDocCount 1).Map
      = Except.ok [("date_histogram", Value.mapStringInterface
          [("calendar_interval", Value.string "day"), ("field", Value.string "date"),
           ("min_doc_count", Value.uint64Ptr 1)])] ∧
    (((DateHistogramAgg "by_day" "date").CalendarInterval "day").MinDocCount 1).Map
      ≠ Except.ok [("date_histogram", Value.mapStringInterface
          [("calendar_interval", Value.string "day"), ("field", Value.string "date"),
           ("min_doc_count", Value.uint64 1)])] := by
  have h : (((DateHistogramAgg "by_day" "date").CalendarInterval "day").MinDocCount 1).Map
      = Except.ok [("date_histogram", Value.mapStringInterface
          [("calendar_interval", Value.string "day"), ("field", Value.string "date"),
           ("min_doc_count", Value.uint64Ptr 1)])] := rfl
  refine ⟨h, ?_⟩
  rw [h]
  simp

/-- C7: on a date histogram aggregation whose sub-aggregations render, each of
    the keys calendar_interval, fixed_interval, format, offset and missing is in
    the inner mapping exactly when the stored string is not "", and its value is
    then that string. So a history whose last call of such a setter passes ""
    renders as the history without the calls of that setter, and after
    CalendarInterval and Fixedinterval with two non-empty strings both keys are
    in the inner mapping. -/
theorem C7_string_options_present_iff_nonempty (agg : DateHistogramAggregation)
    (hkids : ∀ c ∈ agg.aggs, ∃ cm, c.Map = Except.ok cm) :
    (∃ m inner, agg.Map = Except.ok m ∧
      GoMap.get? m "date_histogram" = some (Value.mapStringInterface inner) ∧
      ("calendar_interval" ∈ GoMap.keys inner ↔ agg.calendarInterval ≠ "") ∧
      (agg.calendarInterval ≠ "" →
        GoMap.get? inner "calendar_interval" = some (Value.string agg.calendarInterval)) ∧
      ("fixed_interval" ∈ GoMap.keys inner ↔ agg.fixedInterval ≠ "") ∧
      (agg.fixedInterval ≠ "" →
        GoMap.get? inner "fixed_interval" = some (Value.string agg.fixedInterval)) ∧
      ("format" ∈ GoMap.keys inner ↔ agg.format ≠ "") ∧
      (agg.format ≠ "" →
        GoMap.get? inner "format" = some (Value.string agg.format)) ∧
      ("offset" ∈ GoMap.keys inner ↔ agg.offset ≠ "") ∧
      (agg.offset ≠ "" →
        GoMap.get? inner "offset" = some (Value.string agg.offset)) ∧
      ("missing" ∈ GoMap.keys inner ↔ agg.missing ≠ "") ∧
      (agg.missing ≠ "" →
        GoMap.get? inner "missing" = some (Value.string agg.missing))) ∧
    (∀ (name field : String) (pre post : List DateHistogramAggregation.Call),
      (∀ s, DateHistogramAggregation.Call.CalendarInterval s ∉ post) →
      ((DateHistogramAgg name field).calls
          (pre ++ DateHistogramAggregation.Call.CalendarInterval "" :: post)).Map =
        ((DateHistogramAgg name field).calls
          ((pre ++ DateHistogramAggregation.Call.CalendarInterval "" :: post).filter
            (fun c => match c with
              | DateHistogramAggregation.Call.CalendarInterval _ => false
              | _ => true))).Map) ∧
    (∀ (name field : String) (pre post : List DateHistogramAggregation.Call),
      (∀ s, DateHistogramAggregation.Call.Fixedinterval s ∉ post) →
      ((DateHistogramAgg name field).calls
          (pre ++ DateHistogramAggregation.Call.Fixedinterval "" :: post)).Map =
        ((DateHistogramAgg name field).calls
          ((pre ++ DateHistogramAggregation.Call.Fixedinterval "" :: post).filter
            (fun c => match c with
              | DateHistogramAggregation.Call.Fixedinterval _ => false
              | _ => true))).Map) ∧
    (∀ (name field : String) (pre post : List DateHistogramAggregation.Call),
      (∀ s, DateHistogramAggregation.Call.Format s ∉ post) →
      ((DateHistogramAgg name field).calls
          (pre ++ DateHistogramAggregation.Call.Format "" :: post)).Map =
        ((DateHistogramAgg name field).calls
          ((pre ++ DateHistogramAggregation.Call.Format "" :: post).filter
            (fun c => match c with
              | DateHistogramAggregation.Call.Format _ => false
              | _ => true))).Map) ∧
    (∀ (name field : String) (pre post : List DateHistogramAggregation.Call),
      (∀ s, DateHistogramAggregation.Call.Offset s ∉ post) →
      ((DateHistogramAgg name field).calls
          (pre ++ DateHistogramAggregation.Call.Offset "" :: post)).Map =
        ((DateHistogramAgg name field).calls
          ((pre ++ DateHistogramAggregation.Call.Offset "" :: post).filter
            (fun c => match c with
              | DateHistogramAggregation.Call.Offset _ => false
              | _ => true))).Map) ∧
    (∀ (name field : String) (pre post : List DateHistogramAggregation.Call),
      (∀ s, DateHistogramAggregation.Call.Missing s ∉ post) →
      ((DateHistogramAgg name field).calls
          (pre ++ DateHistogramAggregation.Call.Missing "" :: post)).Map =
        ((DateHistogramAgg name field).calls
          ((pre ++ DateHistogramAggregation.Call.Missing "" :: post).filter
            (fun c => match c with
              | DateHistogramAggregation.Call.Missing _ => false
              | _ => true))).Map) ∧
    (∀ s t : String, s ≠ "" → t ≠ "" →
      ∃ m inner, ((agg.CalendarInterval s).Fixedinterval t).Map = Except.ok m ∧
        GoMap.get? m "date_histogram" = some (Value.mapStringInterface inner) ∧
        GoMap.get? inner "calendar_interval" = some (Value.string s) ∧
        GoMap.get? inner "fixed_interval" = some (Value.string t)) := by
  refine ⟨?_, ?_, ?_, ?_, ?_, ?_, ?_⟩
  · obtain ⟨m, hm⟩ := DateHistogramAggregation.dateHistogram_Map_ok agg hkids
    refine ⟨m, agg.innerMap, hm, DateHistogramAggregation.dateHistogram_Map_inner agg m hm,
      ?_, ?_, ?_, ?_, ?_, ?_, ?_, ?_, ?_, ?_⟩
    · rw [GoMap.mem_keys_iff, DateHistogramAggregation.dateHistogram_innerMap_get?]
      by_cases he : agg.calendarInterval = "" <;> simp [he]
    · intro hne
      rw [DateHistogramAggregation.dateHistogram_innerMap_get?]
      simp [hne]
    · rw [GoMap.mem_keys_iff, DateHistogramAggregation.dateHistogram_innerMap_get?]
      by_cases he : agg.fixedInterval = "" <;> simp [he]
    · intro hne
      rw [DateHistogramAggregation.dateHistogram_innerMap_get?]
      simp [hne]
    · rw [GoMap.mem_keys_iff, DateHistogramAggregation.dateHistogram_innerMap_get?]
      by_cases he : agg.format = "" <;> simp [he]
    · intro hne
      rw [DateHistogramAggregation.dateHistogram_innerMap_get?]
      simp [hne]
    · rw [GoMap.mem_keys_iff, DateHistogramAggregation.dateHistogram_innerMap_get?]
      by_cases he : agg.offset = "" <;> simp [he]
    · intro hne
      rw [DateHistogramAggregation.dateHistogram_innerMap_get?]
      simp [hne]
    · rw [GoMap.mem_keys_iff, DateHistogramAggregation.dateHistogram_innerMap_get?]
      by_cases he : agg.missing = "" <;> simp [he]
    · intro hne
      rw [DateHistogramAggregation.dateHistogram_innerMap_get?]
      simp [hne]
  · intro name field pre post hpost
    rw [← DateHistogramAggregation.calls_CalendarInterval_empty name field pre post hpost]
  · intro name field pre post hpost
    rw [← DateHistogramAggregation.calls_Fixedinterval_empty name field pre post hpost]
  · intro name field pre post hpost
    rw [← DateHistogramAggregation.calls_Format_empty name field pre post hpost]
  · intro name field pre post hpost
    rw [← DateHistogramAggregation.calls_Offset_empty name field pre post hpost]
  · intro name field pre post hpost
    rw [← DateHistogramAggregation.calls_Missing_empty name field pre post hpost]
  · intro s t hs ht
    obtain ⟨m, hm⟩ := DateHistogramAggregation.dateHistogram_Map_ok
      ((agg.CalendarInterval s).Fixedinterval t) hkids
    refine ⟨m, _, hm, DateHistogramAggregation.dateHistogram_Map_inner _ m hm, ?_, ?_⟩
    · rw [DateHistogramAggregation.dateHistogram_innerMap_get?]
      simp [DateHistogramAggregation.CalendarInterval, DateHistogramAggregation.Fixedinterval, hs]
    · rw [DateHistogramAggregation.dateHistogram_innerMap_get?]
      simp [DateHistogramAggregation.CalendarInterval, DateHistogramAggregation.Fixedinterval, ht]

/-- C7 at DateHistogramAgg("by_day", "date").CalendarInterval("day"): the
    key calendar_interval holds "day", and fixed_interval is absent. -/
theorem C7_string_options_present_iff_nonempty_witness :
    (∀ c ∈ ((DateHistogramAgg "by_day" "date").CalendarInterval "day").aggs,
      ∃ cm, c.Map = Except.ok cm) ∧
    ∃ m inner, ((DateHistogramAgg "by_day" "date").CalendarInterval "day").Map = Except.ok m ∧
      GoMap.get? m "date_histogram" = some (Value.mapStringInterface inner) ∧
      GoMap.get? inner "calendar_interval" = some (Value.string "day") ∧
      "fixed_interval" ∉ GoMap.keys inner := by
  have hkids : ∀ c ∈ ((DateHistogramAgg "by_day" "date").CalendarInterval "day").aggs,
      ∃ cm, c.Map = Except.ok cm := by
    intro c hc
    cases hc
  obtain ⟨⟨m, inner, hm, hget, _, hcal, hfix, _⟩, _⟩ :=
    C7_string_options_present_iff_nonempty
      ((DateHistogramAgg "by_day" "date").CalendarInterval "day") hkids
  refine ⟨hkids, m, inner, hm, hget, hcal (by decide), ?_⟩
  rw [hfix]
  decide

/-- C8, the claim as stated fails: after DateHistogramAgg("by_day", "date")
    and Order with the nil map, Map returns a mapping whose inner mapping has no
    key "order", although the setter Order was called. -/
theorem C8_Order_nil_leaves_no_order_key :
    DateHistogramAggregation.Call.Order none ∈ [DateHistogramAggregation.Call.Order none] ∧
    ∃ inner, ((DateHistogramAgg "by_day" "date").calls
        [DateHistogramAggregation.Call.Order none]).Map
        = Except.ok [("date_histogram", Value.mapStringInterface inner)] ∧
      "order" ∉ GoMap.keys inner :=
  ⟨List.mem_singleton.mpr rfl, [("field", Value.string "date")], rfl, by decide⟩

/-- C8, amended: for a date histogram aggregation reached from DateHistogramAgg
    by any sequence of setter calls, whose sub-aggregations render, the keys
    "min_doc_count" and "keyed" are in the inner mapping exactly when MinDocCount
    and Keyed were called, "keyed" holding the argument of the last Keyed call
    (false included), and the key "order" is there exactly when the last Order
    call passed a non-nil map. -/
theorem C8_date_histogram_optional_fields_follow_calls (name field : String)
    (cs : List DateHistogramAggregation.Call)
    (hkids : ∀ c ∈ ((DateHistogramAgg name field).calls cs).aggs, ∃ cm, c.Map = Except.ok cm) :
    ∃ m inner, ((DateHistogramAgg name field).calls cs).Map = Except.ok m ∧
      GoMap.get? m "date_histogram" = some (Value.mapStringInterface inner) ∧
      ("min_doc_count" ∈ GoMap.keys inner ↔
        ∃ n, DateHistogramAggregation.Call.MinDocCount n ∈ cs) ∧
      ("keyed" ∈ GoMap.keys inner ↔ ∃ b, DateHistogramAggregation.Call.Keyed b ∈ cs) ∧
      (∀ pre b post, cs = pre ++ DateHistogramAggregation.Call.Keyed b :: post →
        (∀ b2, DateHistogramAggregation.Call.Keyed b2 ∉ post) →
        GoMap.get? inner "keyed" = some (Value.bool b)) ∧
      ("order" ∈ GoMap.keys inner ↔
        ∃ pre o post, cs = pre ++ DateHistogramAggregation.Call.Order (some o) :: post ∧
          ∀ o2, DateHistogramAggregation.Call.Order o2 ∉ post) := by
  obtain ⟨m, hm⟩ := DateHistogramAggregation.dateHistogram_Map_ok _ hkids
  have hmin : GoMap.get? ((DateHistogramAgg name field).calls cs).innerMap "min_doc_count"
      = ((DateHistogramAgg name field).calls cs).minDocCount.map Value.uint64Ptr := by
    rw [DateHistogramAggregation.dateHistogram_innerMap_get?]
    simp
  have hkeyed : GoMap.get? ((DateHistogramAgg name field).calls cs).innerMap "keyed"
      = ((DateHistogramAgg name field).calls cs).keyed.map Value.bool := by
    rw [DateHistogramAggregation.dateHistogram_innerMap_get?]
    simp
  have horder : GoMap.get? ((DateHistogramAgg name field).calls cs).innerMap "order"
      = ((DateHistogramAgg name field).calls cs).order.map Value.mapStringString := by
    rw [DateHistogramAggregation.dateHistogram_innerMap_get?]
    simp
  refine ⟨m, _, hm, DateHistogramAggregation.dateHistogram_Map_inner _ m hm, ?_, ?_, ?_, ?_⟩
  · rw [GoMap.mem_keys_iff, hmin, exists_map_eq_some,
      DateHistogramAggregation.minDocCount_set_iff name field cs]
  · rw [GoMap.mem_keys_iff, hkeyed, exists_map_eq_some,
      DateHistogramAggregation.keyed_set_iff name field cs]
  · intro pre b post he hlast
    rw [hkeyed, (DateHistogramAggregation.keyed_calls _ cs).2 pre b post he hlast]
    rfl
  · rw [GoMap.mem_keys_iff, horder, exists_map_eq_some,
      DateHistogramAggregation.order_set_iff name field cs]

/-- C8 on the calls Keyed(false), MinDocCount(0), Order(nil): "keyed" holds
    false, "min_doc_count" is present, and "order" is absent. -/
theorem C8_date_histogram_optional_fields_follow_calls_witness :
    (∀ c ∈ ((DateHistogramAgg "by_day" "date").calls
      [DateHistogramAggregation.Call.Keyed false, DateHistogramAggregation.Call.MinDocCount 0,
       DateHistogramAggregation.Call.Order none]).aggs, ∃ cm, c.Map = Except.ok cm) ∧
    ∃ m inner, ((DateHistogramAgg "by_day" "date").calls
      [DateHistogramAggregation.Call.Keyed false, DateHistogramAggregation.Call.MinDocCount 0,
       DateHistogramAggregation.Call.Order none]).Map = Except.ok m ∧
      GoMap.get? m "date_histogram" = some (Value.mapStringInterface inner) ∧
      "min_doc_count" ∈ GoMap.keys inner ∧
      GoMap.get? inner "keyed" = some (Value.bool false) ∧
      "order" ∉ GoMap.keys inner := by
  have hkids : ∀ c ∈ ((DateHistogramAgg "by_day" "date").calls
      [DateHistogramAggregation.Call.Keyed false, DateHistogramAggregation.Call.MinDocCount 0,
       DateHistogramAggregation.Call.Order none]).aggs, ∃ cm, c.Map = Except.ok cm := by
    intro c hc
    cases hc
  obtain ⟨m, inner, hm, hget, hmin, _, hkeyed, horder⟩ :=
    C8_date_histogram_optional_fields_follow_calls "by_day" "date" _ hkids
  refine ⟨hkids, m, inner, hm, hget, hmin.mpr ⟨0, by simp⟩, ?_, ?_⟩
  · exact hkeyed [] false [DateHistogramAggregation.Call.MinDocCount 0,
      DateHistogramAggregation.Call.Order none] rfl (by simp)
  · rw [horder]
    rintro ⟨pre, o, post, he, _⟩
    have hmem : DateHistogramAggregation.Call.Order (some o) ∈
        [DateHistogramAggregation.Call.Keyed false,
         DateHistogramAggregation.Call.MinDocCount 0,
         DateHistogramAggregation.Call.Order none] := by
      rw [he]
      simp
    simp at hmem

/-! ## The order entry -/

/-- C9, the claim as stated fails: after TermsAgg("colors", "color.keyword")
    and Order with the nil map, which is a mapping without entries, the inner
    mapping has no key "order". -/
theorem C9_Order_nil_is_treated_as_unset :
    ∃ inner, ((TermsAgg "colors" "color.keyword").Order none).Map
        = Except.ok [("terms", Value.mapStringInterface inner)] ∧
      GoMap.get? inner "order" = none :=
  ⟨[("field", Value.string "color.keyword")], rfl, rfl⟩

/-- C9, amended: for both aggregation kinds and every non-nil mapping o, the
    empty one included, after Order(o) an aggregation that renders (for terms:
    the include slice is not empty and non-nil; for both: the sub-aggregations
    render) has the key "order" with value o in its inner mapping; after Order
    with the nil map the key is absent. -/
theorem C9_Order_non_nil_map_is_rendered (t : TermsAggregation)
    (d : DateHistogramAggregation) (o : GoMap String)
    (hinc : t.include_ ≠ some [])
    (htkids : ∀ c ∈ t.aggs, ∃ cm, c.Map = Except.ok cm)
    (hdkids : ∀ c ∈ d.aggs, ∃ cm, c.Map = Except.ok cm) :
    (∃ m inner, (t.Order (some o)).Map = Except.ok m ∧
      GoMap.get? m "terms" = some (Value.mapStringInterface inner) ∧
      GoMap.get? inner "order" = some (Value.mapStringString o)) ∧
    (∃ m inner, (d.Order (some o)).Map = Except.ok m ∧
      GoMap.get? m "date_histogram" = some (Value.mapStringInterface inner) ∧
      GoMap.get? inner "order" = some (Value.mapStringString o)) ∧
    (∃ m inner, (t.Order none).Map = Except.ok m ∧
      GoMap.get? m "terms" = some (Value.mapStringInterface inner) ∧
      "order" ∉ GoMap.keys inner) ∧
    (∃ m inner, (d.Order none).Map = Except.ok m ∧
      GoMap.get? m "date_histogram" = some (Value.mapStringInterface inner) ∧
      "order" ∉ GoMap.keys inner) := by
  refine ⟨?_, ?_, ?_, ?_⟩
  · obtain ⟨m, hm⟩ := TermsAggregation.terms_Map_ok (t.Order (some o)) hinc htkids
    obtain ⟨inner, hi, hget⟩ := TermsAggregation.terms_Map_inner _ m hm
    refine ⟨m, inner, hm, hget, ?_⟩
    rw [TermsAggregation.terms_innerMap_get? _ inner hi]
    simp [TermsAggregation.Order]
  · obtain ⟨m, hm⟩ := DateHistogramAggregation.dateHistogram_Map_ok (d.Order (some o)) hdkids
    refine ⟨m, _, hm, DateHistogramAggregation.dateHistogram_Map_inner _ m hm, ?_⟩
    rw [DateHistogramAggregation.dateHistogram_innerMap_get?]
    simp [DateHistogramAggregation.Order]
  · obtain ⟨m, hm⟩ := TermsAggregation.terms_Map_ok (t.Order none) hinc htkids
    obtain ⟨inner, hi, hget⟩ := TermsAggregation.terms_Map_inner _ m hm
    refine ⟨m, inner, hm, hget, ?_⟩
    rw [GoMap.not_mem_keys_iff, TermsAggregation.terms_innerMap_get? _ inner hi]
    simp [TermsAggregation.Order]
  · obtain ⟨m, hm⟩ := DateHistogramAggregation.dateHistogram_Map_ok (d.Order none) hdkids
    refine ⟨m, _, hm, DateHistogramAggregation.dateHistogram_Map_inner _ m hm, ?_⟩
    rw [GoMap.not_mem_keys_iff, DateHistogramAggregation.dateHistogram_innerMap_get?]
    simp [DateHistogramAggregation.Order]

/-- C9 with the empty non-nil map on TermsAgg("colors", "color.keyword") and
    DateHistogramAgg("by_day", "date"): "order" is rendered with the empty map. -/
theorem C9_Order_non_nil_map_is_rendered_witness :
    (TermsAgg "colors" "color.keyword").include_ ≠ some [] ∧
    (∀ c ∈ (TermsAgg "colors" "color.keyword").aggs, ∃ cm, c.Map = Except.ok cm) ∧
    (∀ c ∈ (DateHistogramAgg "by_day" "date").aggs, ∃ cm, c.Map = Except.ok cm) ∧
    (∃ m inner, ((TermsAgg "colors" "color.keyword").Order (some [])).Map = Except.ok m ∧
      GoMap.get? m "terms" = some (Value.mapStringInterface inner) ∧
      GoMap.get? inner "order" = some (Value.mapStringString [])) ∧
    (∃ m inner, ((DateHistogramAgg "by_day" "date").Order (some [])).Map = Except.ok m ∧
      GoMap.get? m "date_histogram" = some (Value.mapStringInterface inner) ∧
      GoMap.get? inner "order" = some (Value.mapStringString [])) := by
  have hinc : (TermsAgg "colors" "color.keyword").include_ ≠ some [] := by decide
  have htkids : ∀ c ∈ (TermsAgg "colors" "color.keyword").aggs,
      ∃ cm, c.Map = Except.ok cm := by
    intro c hc
    cases hc
  have hdkids : ∀ c ∈ (DateHistogramAgg "by_day" "date").aggs,
      ∃ cm, c.Map = Except.ok cm := by
    intro c hc
    cases hc
  obtain ⟨h1, h2, _, _⟩ := C9_Order_non_nil_map_is_rendered
    (TermsAgg "colors" "color.keyword") (DateHistogramAgg "by_day" "date") [] hinc htkids hdkids
  exact ⟨hinc, htkids, hdkids, h1, h2⟩

/-! ## Sub-aggregations -/

/-- C10: for both aggregation kinds and every list cs of sub-aggregations that
    render, Map returns a mapping that has the key "aggs" exactly when cs is not
    empty; the value is then a mapping whose keys are the names of the members
    of cs and which maps the name of c to c.Map() whenever no later member of cs
    has the same name. One level down: for a child c of either kind with
    sub-aggregations gs, the entry of the grandchild g under
    Map()["aggs"][c.Name()]["aggs"][g.Name()] is g.Map(). -/
theorem C10_aggs_maps_names_to_renderings (t : TermsAggregation)
    (d : DateHistogramAggregation) (cs : List Aggregation)
    (hinc : t.include_ ≠ some [])
    (hkids : ∀ c ∈ cs, ∃ cm, c.Map = Except.ok cm) :
    (∀ r ∈ [(t.Aggs cs).Map, (d.Aggs cs).Map], ∃ m, r = Except.ok m ∧
      ("aggs" ∈ GoMap.keys m ↔ cs ≠ []) ∧
      (cs ≠ [] → ∃ subAggs, GoMap.get? m "aggs" = some (Value.mapStringMap subAggs) ∧
        (∀ k, k ∈ GoMap.keys subAggs ↔ ∃ c ∈ cs, c.Name = k) ∧
        (∀ pre c post, cs = pre ++ c :: post → (∀ x ∈ post, x.Name ≠ c.Name) →
          ∃ cm, c.Map = Except.ok cm ∧ GoMap.get? subAggs c.Name = some cm))) ∧
    (∀ r ∈ [(t.Aggs cs).Map, (d.Aggs cs).Map],
      ∀ (t2 : TermsAggregation) (d2 : DateHistogramAggregation) (gs : List Aggregation),
      ∀ c ∈ [(t2.Aggs gs).toAggregation, (d2.Aggs gs).toAggregation],
      ∀ (pre post gpre : List Aggregation) (g : Aggregation) (gpost : List Aggregation),
        cs = pre ++ c :: post → (∀ x ∈ post, x.Name ≠ c.Name) →
        gs = gpre ++ g :: gpost → (∀ x ∈ gpost, x.Name ≠ g.Name) →
        ∃ m subAggs cm subAggs2 gm, r = Except.ok m ∧
          GoMap.get? m "aggs" = some (Value.mapStringMap subAggs) ∧
          GoMap.get? subAggs c.Name = some cm ∧
          GoMap.get? cm "aggs" = some (Value.mapStringMap subAggs2) ∧
          GoMap.get? subAggs2 g.Name = some gm ∧
          g.Map = Except.ok gm) := by
  have hparent : ∀ r ∈ [(t.Aggs cs).Map, (d.Aggs cs).Map], ∃ m, r = Except.ok m ∧
      (cs = [] → GoMap.get? m "aggs" = none) ∧
      (cs ≠ [] → ∃ subAggs, GoMap.get? m "aggs" = some (Value.mapStringMap subAggs) ∧
        subAggsLoop cs [] = Except.ok subAggs) := by
    intro r hr
    simp only [List.mem_cons, List.mem_singleton, List.not_mem_nil, or_false] at hr
    rcases hr with rfl | rfl
    · obtain ⟨m, hm⟩ := TermsAggregation.terms_Map_ok (t.Aggs cs) hinc hkids
      exact ⟨m, hm, TermsAggregation.terms_Map_aggs _ m hm⟩
    · obtain ⟨m, hm⟩ := DateHistogramAggregation.dateHistogram_Map_ok (d.Aggs cs) hkids
      exact ⟨m, hm, DateHistogramAggregation.dateHistogram_Map_aggs _ m hm⟩
  constructor
  · intro r hr
    obtain ⟨m, hm, haggs⟩ := hparent r hr
    exact ⟨m, hm, aggs_entry_spec cs m haggs⟩
  · intro r hr t2 d2 gs c hc pre post gpre g gpost hcs hlast hgs hglast
    obtain ⟨m, hm, haggs⟩ := hparent r hr
    have hne : cs ≠ [] := by
      rw [hcs]
      exact fun h => List.noConfusion (List.append_eq_nil.mp h).2
    have hgne : gs ≠ [] := by
      rw [hgs]
      exact fun h => List.noConfusion (List.append_eq_nil.mp h).2
    obtain ⟨subAggs, hget, _, hlastc⟩ := (aggs_entry_spec cs m haggs).2 hne
    obtain ⟨cm, hcm, hgetc⟩ := hlastc pre c post hcs hlast
    have hchild : (gs = [] → GoMap.get? cm "aggs" = none) ∧
        (gs ≠ [] → ∃ subAggs2, GoMap.get? cm "aggs" = some (Value.mapStringMap subAggs2) ∧
          subAggsLoop gs [] = Except.ok subAggs2) := by
      simp only [List.mem_cons, List.mem_singleton, List.not_mem_nil, or_false] at hc
      rcases hc with rfl | rfl
      · exact TermsAggregation.terms_Map_aggs (t2.Aggs gs) cm hcm
      · exact DateHistogramAggregation.dateHistogram_Map_aggs (d2.Aggs gs) cm hcm
    obtain ⟨subAggs2, hget2, _, hlastg⟩ := (aggs_entry_spec gs cm hchild).2 hgne
    obtain ⟨gm, hgm, hgetg⟩ := hlastg gpre g gpost hgs hglast
    exact ⟨m, subAggs, cm, subAggs2, gm, hm, hget, hgetc, hget2, hgetg, hgm⟩

/-- C10 on a terms parent with three children named x, y, x, the second
    with a grandchild g: under "aggs" the name x maps to the rendering of the
    last child named x, and the grandchild is found two levels down. -/
theorem C10_aggs_maps_names_to_renderings_witness :
    (TermsAgg "p" "f").include_ ≠ some [] ∧
    (∀ c ∈ [(TermsAgg "x" "a").toAggregation,
       ((DateHistogramAgg "y" "d").Aggs [(TermsAgg "g" "h").toAggregation]).toAggregation,
       (TermsAgg "x" "b").toAggregation], ∃ cm, c.Map = Except.ok cm) ∧
    ∃ m subAggs cm subAggs2, ((TermsAgg "p" "f").Aggs
      [(TermsAgg "x" "a").toAggregation,
       ((DateHistogramAgg "y" "d").Aggs [(TermsAgg "g" "h").toAggregation]).toAggregation,
       (TermsAgg "x" "b").toAggregation]).Map = Except.ok m ∧
      GoMap.get? m "aggs" = some (Value.mapStringMap subAggs) ∧
      GoMap.get? subAggs "x"
        = some [("terms", Value.mapStringInterface [("field", Value.string "b")])] ∧
      GoMap.get? subAggs "y" = some cm ∧
      GoMap.get? cm "aggs" = some (Value.mapStringMap subAggs2) ∧
      GoMap.get? subAggs2 "g"
        = some [("terms", Value.mapStringInterface [("field", Value.string "h")])] := by
  have hinc : (TermsAgg "p" "f").include_ ≠ some [] := by decide
  have hkids : ∀ c ∈ [(TermsAgg "x" "a").toAggregation,
       ((DateHistogramAgg "y" "d").Aggs [(TermsAgg "g" "h").toAggregation]).toAggregation,
       (TermsAgg "x" "b").toAggregation], ∃ cm, c.Map = Except.ok cm := by
    intro c hc
    simp only [List.mem_cons, List.mem_singleton, List.not_mem_nil, or_false] at hc
    rcases hc with rfl | rfl | rfl <;> exact ⟨_, rfl⟩
  have hthm := C10_aggs_maps_names_to_renderings (TermsAgg "p" "f")
    (DateHistogramAgg "q" "date") _ hinc hkids
  obtain ⟨m, hm, _, hsub⟩ := hthm.1 _ (List.mem_cons_self _ _)
  obtain ⟨subAggs, hget, _, hlast⟩ := hsub (by simp)
  obtain ⟨xm, hxm, hgetx⟩ := hlast
    [(TermsAgg "x" "a").toAggregation,
     ((DateHistogramAgg "y" "d").Aggs [(TermsAgg "g" "h").toAggregation]).toAggregation]
    (TermsAgg "x" "b").toAggregation [] rfl (by simp)
  obtain ⟨m2, sub1, cm, subAggs2, gm, hm2, hget2, hgety, hgetg, hgetgg, hgm⟩ :=
    hthm.2 _ (List.mem_cons_self _ _) (TermsAgg "y" "d") (DateHistogramAgg "y" "d")
      [(TermsAgg "g" "h").toAggregation]
      ((DateHistogramAgg "y" "d").Aggs [(TermsAgg "g" "h").toAggregation]).toAggregation
      (by simp)
      [(TermsAgg "x" "a").toAggregation] [(TermsAgg "x" "b").toAggregation] []
      (TermsAgg "g" "h").toAggregation [] rfl (by decide) rfl (by simp)
  have hmm : m2 = m := by
    rw [hm] at hm2
    exact (Except.ok.inj hm2).symm
  subst hmm
  have hss : sub1 = subAggs := by
    rw [hget] at hget2
    simpa using hget2.symm
  subst hss
  have hxv : xm = [("terms", Value.mapStringInterface [("field", Value.string "b")])] := by
    have : (TermsAgg "x" "b").toAggregation.Map
        = Except.ok [("terms", Value.mapStringInterface [("field", Value.string "b")])] := rfl
    rw [this] at hxm
    exact (Except.ok.inj hxm).symm
  have hgv : gm = [("terms", Value.mapStringInterface [("field", Value.string "h")])] := by
    have : (TermsAgg "g" "h").toAggregation.Map
        = Except.ok [("terms", Value.mapStringInterface [("field", Value.string "h")])] := rfl
    rw [this] at hgm
    exact (Except.ok.inj hgm).symm
  subst hxv
  subst hgv
  exact ⟨hinc, hkids, m2, sub1, cm, subAggs2, hm, hget, hgetx, hgety, hgetg, hgetgg⟩

/-- A field holds what the last call that sets it stores, or what it held
    before the sequence when no call sets it. -/
theorem foldl_field_by_last {S C β : Type} (step : S → C → S) (proj : S → β)
    (sets : C → Bool)
    (hset : ∀ c, sets c = true → ∀ t u, proj (step t c) = proj (step u c))
    (hnot : ∀ c, sets c = false → ∀ t, proj (step t c) = proj t)
    (cs : List C) (s : S) :
    proj (cs.foldl step s) =
      match cs.reverse.find? sets with
      | some c => proj (step s c)
      | none => proj s := by
  induction cs using List.reverseRecOn with
  | nil => rfl
  | append_singleton l c ih =>
    rw [List.foldl_append, List.reverse_append]
    simp only [List.foldl_cons, List.foldl_nil, List.reverse_cons, List.reverse_nil,
      List.nil_append, List.singleton_append, List.find?_cons]
    cases hc : sets c with
    | true => exact hset c hc _ _
    | false =>
      rw [hnot c hc]
      exact ih

/-- Two TermsAggregation records with the same fields are the same record. -/
theorem TermsAggregation.terms_eq_of_fields (a b : TermsAggregation)
    (h_name : a.name = b.name)
    (h_field : a.field = b.field)
    (h_size : a.size = b.size)
    (h_shardSize : a.shardSize = b.shardSize)
    (h_showTermDoc : a.showTermDoc = b.showTermDoc)
    (h_aggs : a.aggs = b.aggs)
    (h_order : a.order = b.order)
    (h_include_ : a.include_ = b.include_) : a = b := by
  cases a
  cases b
  simp_all

/-- The aggregation after a sequence of setter calls is determined by the last
    call on each struct field. -/
theorem TermsAggregation.terms_calls_eq_of_same_last (a : TermsAggregation) (cs1 cs2 : List TermsAggregation.Call)
    (h : ∀ f : String, cs1.reverse.find? (fun c => decide (c.field = f))
      = cs2.reverse.find? (fun c => decide (c.field = f))) :
    a.calls cs1 = a.calls cs2 := by
  have hfixed : ∀ cs : List TermsAggregation.Call,
      (a.calls cs).name = a.name ∧ (a.calls cs).field = a.field := by
    intro cs
    constructor
    · exact foldl_field_unchanged TermsAggregation.call (fun t => t.name) cs a
        (fun c _ t => by cases c <;> rfl)
    · exact foldl_field_unchanged TermsAggregation.call (fun t => t.field) cs a
        (fun c _ t => by cases c <;> rfl)
  apply TermsAggregation.terms_eq_of_fields
  · rw [(hfixed cs1).1, (hfixed cs2).1]
  · rw [(hfixed cs1).2, (hfixed cs2).2]
  · have h1 := foldl_field_by_last TermsAggregation.call (fun t => t.size)
      (fun c => decide (c.field = "size"))
      (fun c hc t u => by cases c <;> first | rfl | simp [TermsAggregation.Call.field] at hc)
      (fun c hc t => by cases c <;> first | rfl | simp [TermsAggregation.Call.field] at hc)
    have e1 := h1 cs1 a
    have e2 := h1 cs2 a
    beta_reduce at e1 e2
    show (List.foldl TermsAggregation.call a cs1).size = (List.foldl TermsAggregation.call a cs2).size
    rw [e1, e2, h "size"]
  · have h1 := foldl_field_by_last TermsAggregation.call (fun t => t.shardSize)
      (fun c => decide (c.field = "shardSize"))
      (fun c hc t u => by cases c <;> first | rfl | simp [TermsAggregation.Call.field] at hc)
      (fun c hc t => by cases c <;> first | rfl | simp [TermsAggregation.Call.field] at hc)
    have e1 := h1 cs1 a
    have e2 := h1 cs2 a
    beta_reduce at e1 e2
    show (List.foldl TermsAggregation.call a cs1).shardSize = (List.foldl TermsAggregation.call a cs2).shardSize
    rw [e1, e2, h "shardSize"]
  · have h1 := foldl_field_by_last TermsAggregation.call (fun t => t.showTermDoc)
      (fun c => decide (c.field = "showTermDoc"))
      (fun c hc t u => by cases c <;> first | rfl | simp [TermsAggregation.Call.field] at hc)
      (fun c hc t => by cases c <;> first | rfl | simp [TermsAggregation.Call.field] at hc)
    have e1 := h1 cs1 a
    have e2 := h1 cs2 a
    beta_reduce at e1 e2
    show (List.foldl TermsAggregation.call a cs1).showTermDoc = (List.foldl TermsAggregation.call a cs2).showTermDoc
    rw [e1, e2, h "showTermDoc"]
  · have h1 := foldl_field_by_last TermsAggregation.call (fun t => t.aggs)
      (fun c => decide (c.field = "aggs"))
      (fun c hc t u => by cases c <;> first | rfl | simp [TermsAggregation.Call.field] at hc)
      (fun c hc t => by cases c <;> first | rfl | simp [TermsAggregation.Call.field] at hc)
    have e1 := h1 cs1 a
    have e2 := h1 cs2 a
    beta_reduce at e1 e2
    show (List.foldl TermsAggregation.call a cs1).aggs = (List.foldl TermsAggregation.call a cs2).aggs
    rw [e1, e2, h "aggs"]
  · have h1 := foldl_field_by_last TermsAggregation.call (fun t => t.order)
      (fun c => decide (c.field = "order"))
      (fun c hc t u => by cases c <;> first | rfl | simp [TermsAggregation.Call.field] at hc)
      (fun c hc t => by cases c <;> first | rfl | simp [TermsAggregation.Call.field] at hc)
    have e1 := h1 cs1 a
    have e2 := h1 cs2 a
    beta_reduce at e1 e2
    show (List.foldl TermsAggregation.call a cs1).order = (List.foldl TermsAggregation.call a cs2).order
    rw [e1, e2, h "order"]
  · have h1 := foldl_field_by_last TermsAggregation.call (fun t => t.include_)
      (fun c => decide (c.field = "include"))
      (fun c hc t u => by cases c <;> first | rfl | simp [TermsAggregation.Call.field] at hc)
      (fun c hc t => by cases c <;> first | rfl | simp [TermsAggregation.Call.field] at hc)
    have e1 := h1 cs1 a
    have e2 := h1 cs2 a
    beta_reduce at e1 e2
    show (List.foldl TermsAggregation.call a cs1).include_ = (List.foldl TermsAggregation.call a cs2).include_
    rw [e1, e2, h "include"]

/-- Two DateHistogramAggregation records with the same fields are the same record. -/
theorem DateHistogramAggregation.dateHistogram_eq_of_fields (a b : DateHistogramAggregation)
    (h_name : a.name = b.name)
    (h_field : a.field = b.field)
    (h_calendarInterval : a.calendarInterval = b.calendarInterval)
    (h_fixedInterval : a.fixedInterval = b.fixedInterval)
    (h_format : a.format = b.format)
    (h_offset : a.offset = b.offset)
    (h_keyed : a.keyed = b.keyed)
    (h_minDocCount : a.minDocCount = b.minDocCount)
    (h_missing : a.missing = b.missing)
    (h_order : a.order = b.order)
    (h_aggs : a.aggs = b.aggs) : a = b := by
  cases a
  cases b
  simp_all

/-- The aggregation after a sequence of setter calls is determined by the last
    call on each struct field. -/
theorem DateHistogramAggregation.dateHistogram_calls_eq_of_same_last (a : DateHistogramAggregation) (cs1 cs2 : List DateHistogramAggregation.Call)
    (h : ∀ f : String, cs1.reverse.find? (fun c => decide (c.field = f))
      = cs2.reverse.find? (fun c => decide (c.field = f))) :
    a.calls cs1 = a.calls cs2 := by
  have hfixed : ∀ cs : List DateHistogramAggregation.Call,
      (a.calls cs).name = a.name ∧ (a.calls cs).field = a.field := by
    intro cs
    constructor
    · exact foldl_field_unchanged DateHistogramAggregation.call (fun t => t.name) cs a
        (fun c _ t => by cases c <;> rfl)
    · exact foldl_field_unchanged DateHistogramAggregation.call (fun t => t.field) cs a
        (fun c _ t => by cases c <;> rfl)
  apply DateHistogramAggregation.dateHistogram_eq_of_fields
  · rw [(hfixed cs1).1, (hfixed cs2).1]
  · rw [(hfixed cs1).2, (hfixed cs2).2]
  · have h1 := foldl_field_by_last DateHistogramAggregation.call (fun t => t.calendarInterval)
      (fun c => decide (c.field = "calendarInterval"))
      (fun c hc t u => by cases c <;> first | rfl | simp [DateHistogramAggregation.Call.field] at hc)
      (fun c hc t => by cases c <;> first | rfl | simp [DateHistogramAggregation.Call.field] at hc)
    have e1 := h1 cs1 a
    have e2 := h1 cs2 a
    beta_reduce at e1 e2
    show (List.foldl DateHistogramAggregation.call a cs1).calendarInterval = (List.foldl DateHistogramAggregation.call a cs2).calendarInterval
    rw [e1, e2, h "calendarInterval"]
  · have h1 := foldl_field_by_last DateHistogramAggregation.call (fun t => t.fixedInterval)
      (fun c => decide (c.field = "fixedInterval"))
      (fun c hc t u => by cases c <;> first | rfl | simp [DateHistogramAggregation.Call.field] at hc)
      (fun c hc t => by cases c <;> first | rfl | simp [DateHistogramAggregation.Call.field] at hc)
    have e1 := h1 cs1 a
    have e2 := h1 cs2 a
    beta_reduce at e1 e2
    show (List.foldl DateHistogramAggregation.call a cs1).fixedInterval = (List.foldl DateHistogramAggregation.call a cs2).fixedInterval
    rw [e1, e2, h "fixedInterval"]
  · have h1 := foldl_field_by_last DateHistogramAggregation.call (fun t => t.format)
      (fun c => decide (c.field = "format"))
      (fun c hc t u => by cases c <;> first | rfl | simp [DateHistogramAggregation.Call.field] at hc)
      (fun c hc t => by cases c <;> first | rfl | simp [DateHistogramAggregation.Call.field] at hc)
    have e1 := h1 cs1 a
    have e2 := h1 cs2 a
    beta_reduce at e1 e2
    show (List.foldl DateHistogramAggregation.call a cs1).format = (List.foldl DateHistogramAggregation.call a cs2).format
    rw [e1, e2, h "format"]
  · have h1 := foldl_field_by_last DateHistogramAggregation.call (fun t => t.offset)
      (fun c => decide (c.field = "offset"))
      (fun c hc t u => by cases c <;> first | rfl | simp [DateHistogramAggregation.Call.field] at hc)
      (fun c hc t => by cases c <;> first | rfl | simp [DateHistogramAggregation.Call.field] at hc)
    have e1 := h1 cs1 a
    have e2 := h1 cs2 a
    beta_reduce at e1 e2
    show (List.foldl DateHistogramAggregation.call a cs1).offset = (List.foldl DateHistogramAggregation.call a cs2).offset
    rw [e1, e2, h "offset"]
  · have h1 := foldl_field_by_last DateHistogramAggregation.call (fun t => t.keyed)
      (fun c => decide (c.field = "keyed"))
      (fun c hc t u => by cases c <;> first | rfl | simp [DateHistogramAggregation.Call.field] at hc)
      (fun c hc t => by cases c <;> first | rfl | simp [DateHistogramAggregation.Call.field] at hc)
    have e1 := h1 cs1 a
    have e2 := h1 cs2 a
    beta_reduce at e1 e2
    show (List.foldl DateHistogramAggregation.call a cs1).keyed = (List.foldl DateHistogramAggregation.call a cs2).keyed
    rw [e1, e2, h "keyed"]
  · have h1 := foldl_field_by_last DateHistogramAggregation.call (fun t => t.minDocCount)
      (fun c => decide (c.field = "minDocCount"))
      (fun c hc t u => by cases c <;> first | rfl | simp [DateHistogramAggregation.Call.field] at hc)
      (fun c hc t => by cases c <;> first | rfl | simp [DateHistogramAggregation.Call.field] at hc)
    have e1 := h1 cs1 a
    have e2 := h1 cs2 a
    beta_reduce at e1 e2
    show (List.foldl DateHistogramAggregation.call a cs1).minDocCount = (List.foldl DateHistogramAggregation.call a cs2).minDocCount
    rw [e1, e2, h "minDocCount"]
  · have h1 := foldl_field_by_last DateHistogramAggregation.call (fun t => t.missing)
      (fun c => decide (c.field = "missing"))
      (fun c hc t u => by cases c <;> first | rfl | simp [DateHistogramAggregation.Call.field] at hc)
      (fun c hc t => by cases c <;> first | rfl | simp [DateHistogramAggregation.Call.field] at hc)
    have e1 := h1 cs1 a
    have e2 := h1 cs2 a
    beta_reduce at e1 e2
    show (List.foldl DateHistogramAggregation.call a cs1).missing = (List.foldl DateHistogramAggregation.call a cs2).missing
    rw [e1, e2, h "missing"]
  · have h1 := foldl_field_by_last DateHistogramAggregation.call (fun t => t.order)
      (fun c => decide (c.field = "order"))
      (fun c hc t u => by cases c <;> first | rfl | simp [DateHistogramAggregation.Call.field] at hc)
      (fun c hc t => by cases c <;> first | rfl | simp [DateHistogramAggregation.Call.field] at hc)
    have e1 := h1 cs1 a
    have e2 := h1 cs2 a
    beta_reduce at e1 e2
    show (List.foldl DateHistogramAggregation.call a cs1).order = (List.foldl DateHistogramAggregation.call a cs2).order
    rw [e1, e2, h "order"]
  · have h1 := foldl_field_by_last DateHistogramAggregation.call (fun t => t.aggs)
      (fun c => decide (c.field = "aggs"))
      (fun c hc t u => by cases c <;> first | rfl | simp [DateHistogramAggregation.Call.field] at hc)
      (fun c hc t => by cases c <;> first | rfl | simp [DateHistogramAggregation.Call.field] at hc)
    have e1 := h1 cs1 a
    have e2 := h1 cs2 a
    beta_reduce at e1 e2
    show (List.foldl DateHistogramAggregation.call a cs1).aggs = (List.foldl DateHistogramAggregation.call a cs2).aggs
    rw [e1, e2, h "aggs"]

/-! ## Setters -/

/-- C12: last write wins per field, by replacement. For every setter of either
    kind, calling it with v1 and then with v2 leaves the same aggregation, and so
    the same Map, as calling it with v2 alone; this holds for any two calls that
    assign the same struct field. In particular Size(a).Size(b) keeps only b, and
    Aggs(xs...).Aggs(ys...) leaves the list of sub-aggregations equal to ys. -/
theorem C12_last_write_wins (t : TermsAggregation) (d : DateHistogramAggregation) :
    (∀ c1 c2 : TermsAggregation.Call, c1.field = c2.field →
      (t.call c1).call c2 = t.call c2 ∧ ((t.call c1).call c2).Map = (t.call c2).Map) ∧
    (∀ c1 c2 : DateHistogramAggregation.Call, c1.field = c2.field →
      (d.call c1).call c2 = d.call c2 ∧ ((d.call c1).call c2).Map = (d.call c2).Map) ∧
    (∀ a b : Nat, (t.Size a).Size b = t.Size b ∧ ((t.Size a).Size b).size = some b) ∧
    (∀ xs ys : List Aggregation,
      (t.Aggs xs).Aggs ys = t.Aggs ys ∧ ((t.Aggs xs).Aggs ys).aggs = ys) ∧
    (∀ xs ys : List Aggregation,
      (d.Aggs xs).Aggs ys = d.Aggs ys ∧ ((d.Aggs xs).Aggs ys).aggs = ys) ∧
    (∀ v1 v2 : Option (List String), (t.Include v1).Include v2 = t.Include v2) ∧
    (∀ s1 s2 : String, (d.CalendarInterval s1).CalendarInterval s2 = d.CalendarInterval s2) ∧
    (∀ n1 n2 : Nat, (d.MinDocCount n1).MinDocCount n2 = d.MinDocCount n2) := by
  refine ⟨?_, ?_, fun _ _ => ⟨rfl, rfl⟩, fun _ _ => ⟨rfl, rfl⟩, fun _ _ => ⟨rfl, rfl⟩,
    fun _ _ => rfl, fun _ _ => rfl, fun _ _ => rfl⟩
  · intro c1 c2 h
    have hstate : (t.call c1).call c2 = t.call c2 := by
      cases c1 <;> cases c2 <;>
        first
        | rfl
        | simp [TermsAggregation.Call.field] at h
    exact ⟨hstate, by rw [hstate]⟩
  · intro c1 c2 h
    have hstate : (d.call c1).call c2 = d.call c2 := by
      cases c1 <;> cases c2 <;>
        first
        | rfl
        | simp [DateHistogramAggregation.Call.field] at h
    exact ⟨hstate, by rw [hstate]⟩

/-- C13: setters of different fields commute. For an aggregation of either
    kind and two setter calls that assign different struct fields, the two
    orders of calling leave the same aggregation and the same Map. Hence two
    sequences of calls in which the last call on each field is the same leave the
    same aggregation and the same Map, whatever the order of the calls. -/
theorem C13_setters_of_different_fields_commute (t : TermsAggregation)
    (d : DateHistogramAggregation) :
    (∀ c1 c2 : TermsAggregation.Call, c1.field ≠ c2.field →
      (t.call c1).call c2 = (t.call c2).call c1 ∧
      ((t.call c1).call c2).Map = ((t.call c2).call c1).Map) ∧
    (∀ c1 c2 : DateHistogramAggregation.Call, c1.field ≠ c2.field →
      (d.call c1).call c2 = (d.call c2).call c1 ∧
      ((d.call c1).call c2).Map = ((d.call c2).call c1).Map) ∧
    (∀ (n : Nat) (vs : Option (List String)) (o : Option (GoMap String)),
      ((t.Size n).Include vs).Order o = ((t.Order o).Size n).Include vs) ∧
    (∀ (s : String) (n : Nat) (b : Bool),
      ((d.CalendarInterval s).MinDocCount n).Keyed b
        = ((d.Keyed b).CalendarInterval s).MinDocCount n) ∧
    (∀ cs1 cs2 : List TermsAggregation.Call,
      (∀ f : String, cs1.reverse.find? (fun c => decide (c.field = f))
        = cs2.reverse.find? (fun c => decide (c.field = f))) →
      t.calls cs1 = t.calls cs2 ∧ (t.calls cs1).Map = (t.calls cs2).Map) ∧
    (∀ cs1 cs2 : List DateHistogramAggregation.Call,
      (∀ f : String, cs1.reverse.find? (fun c => decide (c.field = f))
        = cs2.reverse.find? (fun c => decide (c.field = f))) →
      d.calls cs1 = d.calls cs2 ∧ (d.calls cs1).Map = (d.calls cs2).Map) := by
  refine ⟨?_, ?_, fun _ _ _ => rfl, fun _ _ _ => rfl, ?_, ?_⟩
  · intro c1 c2 h
    have hstate : (t.call c1).call c2 = (t.call c2).call c1 := by
      cases c1 <;> cases c2 <;>
        first
        | rfl
        | exact absurd rfl h
    exact ⟨hstate, by rw [hstate]⟩
  · intro c1 c2 h
    have hstate : (d.call c1).call c2 = (d.call c2).call c1 := by
      cases c1 <;> cases c2 <;>
        first
        | rfl
        | exact absurd rfl h
    exact ⟨hstate, by rw [hstate]⟩
  · intro cs1 cs2 h
    have hstate := TermsAggregation.terms_calls_eq_of_same_last t cs1 cs2 h
    exact ⟨hstate, by rw [hstate]⟩
  · intro cs1 cs2 h
    have hstate := DateHistogramAggregation.dateHistogram_calls_eq_of_same_last d cs1 cs2 h
    exact ⟨hstate, by rw [hstate]⟩

/-- C14: each setter changes exactly one field. For an aggregation of either
    kind, after a setter call the field that the setter assigns holds the
    argument, and name, field and every field that the call does not assign are
    as in the receiver. Consequently, after any sequence of setter calls, Name()
    returns the name given to the constructor, and field is the constructor's. -/
theorem C14_setter_changes_exactly_one_field (t : TermsAggregation)
    (d : DateHistogramAggregation) :
    (∀ n : Nat, (t.Size n).size = some n) ∧
    (∀ x : Float64, (t.ShardSize x).shardSize = some x) ∧
    (∀ b : Bool, (t.ShowTermDocCountError b).showTermDoc = some b) ∧
    (∀ l : List Aggregation, (t.Aggs l).aggs = l) ∧
    (∀ o : Option (GoMap String), (t.Order o).order = o) ∧
    (∀ vs : Option (List String), (t.Include vs).include_ = vs) ∧
    (∀ c : TermsAggregation.Call,
      (t.call c).name = t.name ∧ (t.call c).field = t.field ∧
      (c.field ≠ "size" → (t.call c).size = t.size) ∧
      (c.field ≠ "shardSize" → (t.call c).shardSize = t.shardSize) ∧
      (c.field ≠ "showTermDoc" → (t.call c).showTermDoc = t.showTermDoc) ∧
      (c.field ≠ "aggs" → (t.call c).aggs = t.aggs) ∧
      (c.field ≠ "order" → (t.call c).order = t.order) ∧
      (c.field ≠ "include" → (t.call c).include_ = t.include_)) ∧
    (∀ l : List Aggregation, (d.Aggs l).aggs = l) ∧
    (∀ s : String, (d.CalendarInterval s).calendarInterval = s) ∧
    (∀ s : String, (d.Fixedinterval s).fixedInterval = s) ∧
    (∀ s : String, (d.Format s).format = s) ∧
    (∀ s : String, (d.Offset s).offset = s) ∧
    (∀ o : Option (GoMap String), (d.Order o).order = o) ∧
    (∀ b : Bool, (d.Keyed b).keyed = some b) ∧
    (∀ s : String, (d.Missing s).missing = s) ∧
    (∀ n : Nat, (d.MinDocCount n).minDocCount = some n) ∧
    (∀ c : DateHistogramAggregation.Call,
      (d.call c).name = d.name ∧ (d.call c).field = d.field ∧
      (c.field ≠ "aggs" → (d.call c).aggs = d.aggs) ∧
      (c.field ≠ "calendarInterval" → (d.call c).calendarInterval = d.calendarInterval) ∧
      (c.field ≠ "fixedInterval" → (d.call c).fixedInterval = d.fixedInterval) ∧
      (c.field ≠ "format" → (d.call c).format = d.format) ∧
      (c.field ≠ "offset" → (d.call c).offset = d.offset) ∧
      (c.field ≠ "order" → (d.call c).order = d.order) ∧
      (c.field ≠ "keyed" → (d.call c).keyed = d.keyed) ∧
      (c.field ≠ "missing" → (d.call c).missing = d.missing) ∧
      (c.field ≠ "minDocCount" → (d.call c).minDocCount = d.minDocCount)) ∧
    (∀ (name field : String) (cs : List TermsAggregation.Call),
      ((TermsAgg name field).calls cs).Name = name ∧
      ((TermsAgg name field).calls cs).field = field) ∧
    (∀ (name field : String) (cs : List DateHistogramAggregation.Call),
      ((DateHistogramAgg name field).calls cs).Name = name ∧
      ((DateHistogramAgg name field).calls cs).field = field) := by
  refine ⟨fun _ => rfl, fun _ => rfl, fun _ => rfl, fun _ => rfl, fun _ => rfl, fun _ => rfl, ?_,
    fun _ => rfl, fun _ => rfl, fun _ => rfl, fun _ => rfl, fun _ => rfl, fun _ => rfl, fun _ => rfl, fun _ => rfl, fun _ => rfl, ?_, ?_, ?_⟩
  · intro c
    cases c <;>
      refine ⟨rfl, rfl, ?_, ?_, ?_, ?_, ?_, ?_⟩ <;>
      intro h <;>
      first
      | rfl
      | exact absurd rfl h
  · intro c
    cases c <;>
      refine ⟨rfl, rfl, ?_, ?_, ?_, ?_, ?_, ?_, ?_, ?_, ?_⟩ <;>
      intro h <;>
      first
      | rfl
      | exact absurd rfl h
  · intro name field cs
    constructor
    · exact foldl_field_unchanged TermsAggregation.call (fun a => a.name) cs _
        (fun c _ a => by cases c <;> rfl)
    · exact foldl_field_unchanged TermsAggregation.call (fun a => a.field) cs _
        (fun c _ a => by cases c <;> rfl)
  · intro name field cs
    constructor
    · exact foldl_field_unchanged DateHistogramAggregation.call (fun a => a.name) cs _
        (fun c _ a => by cases c <;> rfl)
    · exact foldl_field_unchanged DateHistogramAggregation.call (fun a => a.field) cs _
        (fun c _ a => by cases c <;> rfl)

/-! ## The shape of the rendering -/

/-- C15: for a terms aggregation reached from TermsAgg(name, field) on which
    Map succeeds, the keys of the outer mapping are "terms" alone or "terms" and
    "aggs", the inner mapping under "terms" has "field" bound to the
    constructor's field, and every inner key is one of field, size, shard_size,
    show_term_doc_count_error, order, include. Likewise a date histogram
    aggregation reached from DateHistogramAgg(name2, field2), whose
    sub-aggregations render, renders with outer keys "date_histogram" alone or
    with "aggs", "field" bound to field2, and inner keys among field,
    calendar_interval, fixed_interval, format, offset, missing, min_doc_count,
    keyed, order. -/
theorem C15_wire_format_shape (name field : String) (tcs : List TermsAggregation.Call)
    (tm : GoMap Value) (name2 field2 : String) (dcs : List DateHistogramAggregation.Call)
    (ht : ((TermsAgg name field).calls tcs).Map = Except.ok tm)
    (hdkids : ∀ c ∈ ((DateHistogramAgg name2 field2).calls dcs).aggs,
      ∃ cm, c.Map = Except.ok cm) :
    ((GoMap.keys tm = ["terms"] ∨ GoMap.keys tm = ["aggs", "terms"]) ∧
      ∃ inner, GoMap.get? tm "terms" = some (Value.mapStringInterface inner) ∧
        GoMap.get? inner "field" = some (Value.string field) ∧
        ∀ k ∈ GoMap.keys inner, k ∈ ["field", "size", "shard_size",
          "show_term_doc_count_error", "order", "include"]) ∧
    (∃ dm, ((DateHistogramAgg name2 field2).calls dcs).Map = Except.ok dm ∧
      (GoMap.keys dm = ["date_histogram"] ∨ GoMap.keys dm = ["aggs", "date_histogram"]) ∧
      ∃ inner, GoMap.get? dm "date_histogram" = some (Value.mapStringInterface inner) ∧
        GoMap.get? inner "field" = some (Value.string field2) ∧
        ∀ k ∈ GoMap.keys inner, k ∈ ["field", "calendar_interval", "fixed_interval",
          "format", "offset", "missing", "min_doc_count", "keyed", "order"]) := by
  have htfield : ((TermsAgg name field).calls tcs).field = field :=
    foldl_field_unchanged TermsAggregation.call (fun a => a.field) tcs _
      (fun c _ a => by cases c <;> rfl)
  have hdfield : ((DateHistogramAgg name2 field2).calls dcs).field = field2 :=
    foldl_field_unchanged DateHistogramAggregation.call (fun a => a.field) dcs _
      (fun c _ a => by cases c <;> rfl)
  constructor
  · obtain ⟨inner, subAggs, hi, _, hm⟩ := TermsAggregation.terms_Map_inv _ tm ht
    have hget : GoMap.get? tm "terms" = some (Value.mapStringInterface inner) := by
      rw [hm]
      exact (outerMap_get? "terms" inner _ subAggs (by decide)).1
    refine ⟨?_, inner, hget, ?_, ?_⟩
    · rw [hm]
      split_ifs
      · exact Or.inr rfl
      · exact Or.inl rfl
    · rw [TermsAggregation.terms_innerMap_get? _ inner hi, htfield]
      simp
    · intro k hk
      rw [GoMap.mem_keys_iff, TermsAggregation.terms_innerMap_get? _ inner hi] at hk
      by_contra hnot
      simp only [List.mem_cons, List.mem_singleton, List.not_mem_nil, or_false, not_or] at hnot
      obtain ⟨h1, h2, h3, h4, h5, h6⟩ := hnot
      simp [h1, h2, h3, h4, h5, h6] at hk
  · obtain ⟨dm, hdm⟩ := DateHistogramAggregation.dateHistogram_Map_ok _ hdkids
    obtain ⟨subAggs, _, hm⟩ := DateHistogramAggregation.dateHistogram_Map_inv _ dm hdm
    refine ⟨dm, hdm, ?_, _, DateHistogramAggregation.dateHistogram_Map_inner _ dm hdm, ?_, ?_⟩
    · rw [hm]
      split_ifs
      · exact Or.inr rfl
      · exact Or.inl rfl
    · rw [DateHistogramAggregation.dateHistogram_innerMap_get?, hdfield]
      simp
    · intro k hk
      rw [GoMap.mem_keys_iff, DateHistogramAggregation.dateHistogram_innerMap_get?] at hk
      by_contra hnot
      simp only [List.mem_cons, List.mem_singleton, List.not_mem_nil, or_false, not_or] at hnot
      obtain ⟨h1, h2, h3, h4, h5, h6, h7, h8, h9⟩ := hnot
      simp [h1, h2, h3, h4, h5, h6, h7, h8, h9] at hk

/-- C15 at TermsAgg("colors", "color.keyword").Size(5).Aggs(child) and
    DateHistogramAgg("by_day", "date").Keyed(true). -/
theorem C15_wire_format_shape_witness :
    ((TermsAgg "colors" "color.keyword").calls
      [TermsAggregation.Call.Size 5,
      TermsAggregation.Call.Aggs [(TermsAgg "x" "a").toAggregation]]).Map = Except.ok
      [("aggs", Value.mapStringMap
        [("x", [("terms", Value.mapStringInterface [("field", Value.string "a")])])]),
      ("terms", Value.mapStringInterface
        [("field", Value.string "color.keyword"), ("size", Value.uint64 5)])] ∧
    (∀ c ∈ ((DateHistogramAgg "by_day" "date").calls [DateHistogramAggregation.Call.Keyed true]).aggs,
      ∃ cm, c.Map = Except.ok cm) ∧
    ((GoMap.keys
      [("aggs", Value.mapStringMap
        [("x", [("terms", Value.mapStringInterface [("field", Value.string "a")])])]),
      ("terms", Value.mapStringInterface
        [("field", Value.string "color.keyword"), ("size", Value.uint64 5)])] = ["terms"] ∨
      GoMap.keys
      [("aggs", Value.mapStringMap
        [("x", [("terms", Value.mapStringInterface [("field", Value.string "a")])])]),
      ("terms", Value.mapStringInterface
        [("field", Value.string "color.keyword"), ("size", Value.uint64 5)])] = ["aggs", "terms"]) ∧
      ∃ inner, GoMap.get?
      [("aggs", Value.mapStringMap
        [("x", [("terms", Value.mapStringInterface [("field", Value.string "a")])])]),
      ("terms", Value.mapStringInterface
        [("field", Value.string "color.keyword"), ("size", Value.uint64 5)])] "terms" = some (Value.mapStringInterface inner) ∧
        GoMap.get? inner "field" = some (Value.string "color.keyword") ∧
        ∀ k ∈ GoMap.keys inner, k ∈ ["field", "size", "shard_size",
          "show_term_doc_count_error", "order", "include"]) ∧
    (∃ dm, ((DateHistogramAgg "by_day" "date").calls [DateHistogramAggregation.Call.Keyed true]).Map = Except.ok dm ∧
      (GoMap.keys dm = ["date_histogram"] ∨ GoMap.keys dm = ["aggs", "date_histogram"]) ∧
      ∃ inner, GoMap.get? dm "date_histogram" = some (Value.mapStringInterface inner) ∧
        GoMap.get? inner "field" = some (Value.string "date") ∧
        ∀ k ∈ GoMap.keys inner, k ∈ ["field", "calendar_interval", "fixed_interval",
          "format", "offset", "missing", "min_doc_count", "keyed", "order"]) :=
  ⟨rfl, (fun _ hc => by cases hc),
    C15_wire_format_shape "colors" "color.keyword"
      [TermsAggregation.Call.Size 5,
      TermsAggregation.Call.Aggs [(TermsAgg "x" "a").toAggregation]]
      [("aggs", Value.mapStringMap
        [("x", [("terms", Value.mapStringInterface [("field", Value.string "a")])])]),
      ("terms", Value.mapStringInterface
        [("field", Value.string "color.keyword"), ("size", Value.uint64 5)])]
      "by_day" "date" [DateHistogramAggregation.Call.Keyed true] rfl
      (fun _ hc => by cases hc)⟩

/-! ## The name of an aggregation -/

/-- A date histogram parent with the single sub-aggregation c files the
    rendering of c under the name of c. -/
theorem single_child_aggs (p : DateHistogramAggregation) (c : Aggregation) (m : GoMap Value)
    (h : (p.Aggs [c]).Map = Except.ok m) :
    ∃ cm, c.Map = Except.ok cm ∧
      GoMap.get? m "aggs" = some (Value.mapStringMap [(c.Name, cm)]) := by
  obtain ⟨subAggs, hget, hs⟩ :=
    (DateHistogramAggregation.dateHistogram_Map_aggs (p.Aggs [c]) m h).2
      (List.cons_ne_nil c [])
  have hs2 : subAggsLoop [c] [] = Except.ok subAggs := hs
  cases hc : c.Map with
  | error e => simp [subAggsLoop, hc] at hs2
  | ok cm =>
    simp only [subAggsLoop, hc, GoMap.set, Except.ok.injEq] at hs2
    exact ⟨cm, rfl, by rw [hget, ← hs2]⟩

/-- C17: the name of an aggregation is not in its own rendering. Two
    aggregations of the same kind that agree on every field except name have the
    same Map; as values of the interface Aggregation they differ only in Name,
    and a parent that owns one of them files that same rendering under its
    name, the one key of the "aggs" mapping. -/
theorem C17_name_is_not_rendered (a b : TermsAggregation) (x y : DateHistogramAggregation)
    (h_field : a.field = b.field) (h_size : a.size = b.size)
    (h_shardSize : a.shardSize = b.shardSize) (h_showTermDoc : a.showTermDoc = b.showTermDoc)
    (h_aggs : a.aggs = b.aggs) (h_order : a.order = b.order)
    (h_include : a.include_ = b.include_)
    (k_field : x.field = y.field) (k_calendarInterval : x.calendarInterval = y.calendarInterval)
    (k_fixedInterval : x.fixedInterval = y.fixedInterval) (k_format : x.format = y.format)
    (k_offset : x.offset = y.offset) (k_keyed : x.keyed = y.keyed)
    (k_minDocCount : x.minDocCount = y.minDocCount) (k_missing : x.missing = y.missing)
    (k_order : x.order = y.order) (k_aggs : x.aggs = y.aggs) :
    a.Map = b.Map ∧ x.Map = y.Map ∧
    a.toAggregation.Map = b.toAggregation.Map ∧ x.toAggregation.Map = y.toAggregation.Map ∧
    a.toAggregation.Name = a.name ∧ b.toAggregation.Name = b.name ∧
    x.toAggregation.Name = x.name ∧ y.toAggregation.Name = y.name ∧
    (∀ (p : DateHistogramAggregation) (m : GoMap Value),
      (p.Aggs [a.toAggregation]).Map = Except.ok m →
      ∃ cm, a.Map = Except.ok cm ∧ b.Map = Except.ok cm ∧
        GoMap.get? m "aggs" = some (Value.mapStringMap [(a.name, cm)])) ∧
    (∀ (p : DateHistogramAggregation) (m : GoMap Value),
      (p.Aggs [x.toAggregation]).Map = Except.ok m →
      ∃ cm, x.Map = Except.ok cm ∧ y.Map = Except.ok cm ∧
        GoMap.get? m "aggs" = some (Value.mapStringMap [(x.name, cm)])) := by
  have hab : a.Map = b.Map := by
    simp only [TermsAggregation.Map, TermsAggregation.innerMap, h_field, h_size, h_shardSize,
      h_showTermDoc, h_aggs, h_order, h_include]
  have hxy : x.Map = y.Map := by
    simp only [DateHistogramAggregation.Map, DateHistogramAggregation.innerMap, k_field,
      k_calendarInterval, k_fixedInterval, k_format, k_offset, k_keyed, k_minDocCount,
      k_missing, k_order, k_aggs]
  refine ⟨hab, hxy, hab, hxy, rfl, rfl, rfl, rfl, ?_, ?_⟩
  · intro p m hm
    obtain ⟨cm, hcm, hget⟩ := single_child_aggs p a.toAggregation m hm
    have hcm2 : a.Map = Except.ok cm := hcm
    exact ⟨cm, hcm2, hab ▸ hcm2, hget⟩
  · intro p m hm
    obtain ⟨cm, hcm, hget⟩ := single_child_aggs p x.toAggregation m hm
    have hcm2 : x.Map = Except.ok cm := hcm
    exact ⟨cm, hcm2, hxy ▸ hcm2, hget⟩

/-- C17 at two terms aggregations named "x" and "y" and two date histogram
    aggregations named "p" and "q" that are otherwise configured alike. -/
theorem C17_name_is_not_rendered_witness :
    ((TermsAgg "x" "f").Size 5).name ≠ ((TermsAgg "y" "f").Size 5).name ∧
    ((TermsAgg "x" "f").Size 5).Map = ((TermsAgg "y" "f").Size 5).Map ∧
    ((DateHistogramAgg "p" "d").Keyed true).Map = ((DateHistogramAgg "q" "d").Keyed true).Map :=
  have h := C17_name_is_not_rendered ((TermsAgg "x" "f").Size 5) ((TermsAgg "y" "f").Size 5)
    ((DateHistogramAgg "p" "d").Keyed true) ((DateHistogramAgg "q" "d").Keyed true)
    rfl rfl rfl rfl rfl rfl rfl rfl rfl rfl rfl rfl rfl rfl rfl rfl rfl
  ⟨by decide, h.1, h.2.1⟩

/-! ## The number of rendered sub-aggregations -/

/-- The map that the loop builds from the empty map has as many entries as the
    sub-aggregations have distinct names. -/
theorem subAggsLoop_length (cs : List Aggregation) (subAggs : GoMap (GoMap Value))
    (h : subAggsLoop cs [] = Except.ok subAggs) :
    subAggs.length = (cs.map Aggregation.Name).dedup.length := by
  have hnodup : (GoMap.keys subAggs).Nodup :=
    GoMap.keys_nodup subAggs (subAggsLoop_sorted cs [] subAggs h List.Pairwise.nil)
  have hset : (GoMap.keys subAggs).toFinset = (cs.map Aggregation.Name).toFinset := by
    ext k
    rw [List.mem_toFinset, List.mem_toFinset, subAggsLoop_keys cs [] subAggs h k]
    simp [GoMap.keys]
  have hlen : subAggs.length = (GoMap.keys subAggs).length := by
    simp [GoMap.keys]
  rw [hlen, ← List.toFinset_card_of_nodup hnodup, hset, List.card_toFinset]

/-- The number of distinct members of a list is its length exactly when no
    member occurs twice. -/
theorem dedup_length_eq_iff_nodup (l : List String) : l.dedup.length = l.length ↔ l.Nodup := by
  constructor
  · intro h
    have hsub : l.dedup.Sublist l := List.dedup_sublist l
    have heq : l.dedup = l := hsub.eq_of_length h
    exact List.dedup_eq_self.mp heq
  · intro h
    rw [List.dedup_eq_self.mpr h]

/-- C18: for both aggregation kinds and every non-empty list cs of
    sub-aggregations that render, the mapping under "aggs" has as many entries as
    there are distinct names among cs: at least 1, at most the length of cs, and
    exactly the length of cs when and only when the names are pairwise distinct. -/
theorem C18_aggs_has_one_entry_per_distinct_name (t : TermsAggregation)
    (d : DateHistogramAggregation) (cs : List Aggregation)
    (hne : cs ≠ []) (hinc : t.include_ ≠ some [])
    (hkids : ∀ c ∈ cs, ∃ cm, c.Map = Except.ok cm) :
    ∀ r ∈ [(t.Aggs cs).Map, (d.Aggs cs).Map], ∃ m subAggs, r = Except.ok m ∧
      GoMap.get? m "aggs" = some (Value.mapStringMap subAggs) ∧
      subAggs.length = (cs.map Aggregation.Name).dedup.length ∧
      1 ≤ subAggs.length ∧
      subAggs.length ≤ cs.length ∧
      (subAggs.length = cs.length ↔ (cs.map Aggregation.Name).Nodup) := by
  intro r hr
  have hparent : ∃ m subAggs, r = Except.ok m ∧
      GoMap.get? m "aggs" = some (Value.mapStringMap subAggs) ∧
      subAggsLoop cs [] = Except.ok subAggs := by
    simp only [List.mem_cons, List.mem_singleton, List.not_mem_nil, or_false] at hr
    rcases hr with rfl | rfl
    · obtain ⟨m, hm⟩ := TermsAggregation.terms_Map_ok (t.Aggs cs) hinc hkids
      obtain ⟨subAggs, hget, hs⟩ := (TermsAggregation.terms_Map_aggs _ m hm).2 hne
      exact ⟨m, subAggs, hm, hget, hs⟩
    · obtain ⟨m, hm⟩ := DateHistogramAggregation.dateHistogram_Map_ok (d.Aggs cs) hkids
      obtain ⟨subAggs, hget, hs⟩ := (DateHistogramAggregation.dateHistogram_Map_aggs _ m hm).2 hne
      exact ⟨m, subAggs, hm, hget, hs⟩
  obtain ⟨m, subAggs, hm, hget, hs⟩ := hparent
  have hlen := subAggsLoop_length cs subAggs hs
  refine ⟨m, subAggs, hm, hget, hlen, ?_, ?_, ?_⟩
  · rw [hlen]
    cases cs with
    | nil => exact absurd rfl hne
    | cons c rest =>
      have hmem : c.Name ∈ (List.map Aggregation.Name (c :: rest)).dedup :=
        List.mem_dedup.mpr (List.mem_map_of_mem _ (List.mem_cons_self c rest))
      exact List.length_pos_of_mem hmem
  · rw [hlen]
    have := (List.dedup_sublist (cs.map Aggregation.Name)).length_le
    simpa using this
  · rw [hlen]
    have := dedup_length_eq_iff_nodup (cs.map Aggregation.Name)
    simpa using this

/-- C18 on a terms parent with three children named x, y, x: the mapping
    under "aggs" has two entries, fewer than the three children, whose names are
    not pairwise distinct. -/
theorem C18_aggs_has_one_entry_per_distinct_name_witness :
    ([(TermsAgg "x" "a").toAggregation, (DateHistogramAgg "y" "d").toAggregation,
       (TermsAgg "x" "b").toAggregation] : List Aggregation) ≠ [] ∧
    (TermsAgg "p" "f").include_ ≠ some [] ∧
    (∀ c ∈ [(TermsAgg "x" "a").toAggregation, (DateHistogramAgg "y" "d").toAggregation,
       (TermsAgg "x" "b").toAggregation], ∃ cm, c.Map = Except.ok cm) ∧
    ∃ m subAggs, ((TermsAgg "p" "f").Aggs
      [(TermsAgg "x" "a").toAggregation, (DateHistogramAgg "y" "d").toAggregation,
       (TermsAgg "x" "b").toAggregation]).Map = Except.ok m ∧
      GoMap.get? m "aggs" = some (Value.mapStringMap subAggs) ∧
      subAggs.length = 2 ∧
      ¬ (List.map Aggregation.Name
      [(TermsAgg "x" "a").toAggregation, (DateHistogramAgg "y" "d").toAggregation,
       (TermsAgg "x" "b").toAggregation]).Nodup := by
  have hne : ([(TermsAgg "x" "a").toAggregation, (DateHistogramAgg "y" "d").toAggregation,
       (TermsAgg "x" "b").toAggregation] : List Aggregation) ≠ [] := by simp
  have hinc : (TermsAgg "p" "f").include_ ≠ some [] := by decide
  have hkids : ∀ c ∈ [(TermsAgg "x" "a").toAggregation, (DateHistogramAgg "y" "d").toAggregation,
       (TermsAgg "x" "b").toAggregation], ∃ cm, c.Map = Except.ok cm := by
    intro c hc
    simp only [List.mem_cons, List.mem_singleton, List.not_mem_nil, or_false] at hc
    rcases hc with rfl | rfl | rfl <;> exact ⟨_, rfl⟩
  obtain ⟨m, subAggs, hm, hget, hlen, _, _, _⟩ :=
    C18_aggs_has_one_entry_per_distinct_name (TermsAgg "p" "f") (DateHistogramAgg "q" "date")
      _ hne hinc hkids _ (List.mem_cons_self _ _)
  refine ⟨hne, hinc, hkids, m, subAggs, hm, hget, ?_, ?_⟩
  · rw [hlen]
    decide
  · decide

/-! ## Map as a read of the program state -/

/-- With sub-aggregations whose methods leave the program state as it is, the
    loop leaves the state as it is and returns what the loop over their results
    returns. -/
theorem subAggsLoopIn_of_pure {σ : Type} (aggs : List (StatefulAggregation σ))
    (acc : GoMap (GoMap Value)) (s : σ)
    (hpure : ∀ c ∈ aggs, ∀ u, (c.Name u).2 = u ∧ (c.Map u).2 = u) :
    subAggsLoopIn aggs acc s = (subAggsLoop (aggs.map (fun c => c.snapshot s)) acc, s) := by
  induction aggs generalizing acc with
  | nil => rfl
  | cons c rest ih =>
    have hn := (hpure c (List.mem_cons_self c rest) s).1
    have hm := (hpure c (List.mem_cons_self c rest) s).2
    have hrest : ∀ d ∈ rest, ∀ u, (d.Name u).2 = u ∧ (d.Map u).2 = u :=
      fun d hd => hpure d (List.mem_cons_of_mem c hd)
    simp only [subAggsLoopIn, List.map_cons, subAggsLoop, StatefulAggregation.snapshot]
    rcases hN : c.Name s with ⟨n, s1⟩
    rw [hN] at hn
    simp only at hn
    subst hn
    rcases hM : c.Map s1 with ⟨r, s2⟩
    rw [hM] at hm
    simp only at hm
    subst hm
    simp only [hN, hM]
    cases r with
    | error e => rfl
    | ok m => exact ih _ hrest

/-- With pure sub-aggregations, Map of a terms aggregation leaves the program
    state as it is and returns the Map of the record over their results. -/
theorem TermsAggregation.terms_MapIn_of_pure {σ : Type} (agg : TermsAggregation)
    (aggs : List (StatefulAggregation σ)) (s : σ)
    (hpure : ∀ c ∈ aggs, ∀ u, (c.Name u).2 = u ∧ (c.Map u).2 = u) :
    agg.MapIn aggs s = ((agg.Aggs (aggs.map (fun c => c.snapshot s))).Map, s) := by
  have hinner : (agg.Aggs (aggs.map (fun c => c.snapshot s))).innerMap = agg.innerMap := rfl
  unfold TermsAggregation.MapIn TermsAggregation.Map
  rw [hinner]
  cases agg.innerMap with
  | error e => rfl
  | ok inner =>
    simp only [TermsAggregation.Aggs, List.length_map]
    by_cases hlen : aggs.length > 0
    · simp only [hlen, if_true, subAggsLoopIn_of_pure aggs [] s hpure]
      cases subAggsLoop (aggs.map (fun c => c.snapshot s)) [] <;> rfl
    · simp only [hlen, if_false]

/-- With pure sub-aggregations, Map of a date histogram aggregation leaves the
    program state as it is and returns the Map of the record over their results. -/
theorem DateHistogramAggregation.dateHistogram_MapIn_of_pure {σ : Type}
    (agg : DateHistogramAggregation) (aggs : List (StatefulAggregation σ)) (s : σ)
    (hpure : ∀ c ∈ aggs, ∀ u, (c.Name u).2 = u ∧ (c.Map u).2 = u) :
    agg.MapIn aggs s = ((agg.Aggs (aggs.map (fun c => c.snapshot s))).Map, s) := by
  have hinner : (agg.Aggs (aggs.map (fun c => c.snapshot s))).innerMap = agg.innerMap := rfl
  unfold DateHistogramAggregation.MapIn DateHistogramAggregation.Map
  rw [hinner]
  simp only [DateHistogramAggregation.Aggs, List.length_map]
  by_cases hlen : aggs.length > 0
  · simp only [hlen, if_true, subAggsLoopIn_of_pure aggs [] s hpure]
    cases subAggsLoop (aggs.map (fun c => c.snapshot s)) [] <;> rfl
  · simp only [hlen, if_false]


/-- C11: Map is a pure read and is idempotent. For an aggregation a of either
    kind that lives in the program state (self reads its fields and its
    sub-aggregations from the state), whose sub-aggregations have pure Name and
    Map, a call a.Map() leaves the program state, and so every field of a, as
    it was; a second call right after it returns the same result and again the
    same state; and the result is the Map of the record over the results of the
    sub-aggregations. -/
theorem C11_Map_is_a_pure_read_and_idempotent {σ : Type}
    (selfT : σ → TermsAggregation × List (StatefulAggregation σ))
    (selfD : σ → DateHistogramAggregation × List (StatefulAggregation σ)) (s : σ)
    (hT : ∀ c ∈ (selfT s).2, ∀ u, (c.Name u).2 = u ∧ (c.Map u).2 = u)
    (hD : ∀ c ∈ (selfD s).2, ∀ u, (c.Name u).2 = u ∧ (c.Map u).2 = u) :
    (((selfT s).1.MapIn (selfT s).2 s).2 = s ∧
      selfT ((selfT s).1.MapIn (selfT s).2 s).2 = selfT s ∧
      (selfT ((selfT s).1.MapIn (selfT s).2 s).2).1.MapIn
          (selfT ((selfT s).1.MapIn (selfT s).2 s).2).2 ((selfT s).1.MapIn (selfT s).2 s).2
        = (selfT s).1.MapIn (selfT s).2 s ∧
      ((selfT s).1.MapIn (selfT s).2 s).1
        = ((selfT s).1.Aggs ((selfT s).2.map (fun c => c.snapshot s))).Map) ∧
    (((selfD s).1.MapIn (selfD s).2 s).2 = s ∧
      selfD ((selfD s).1.MapIn (selfD s).2 s).2 = selfD s ∧
      (selfD ((selfD s).1.MapIn (selfD s).2 s).2).1.MapIn
          (selfD ((selfD s).1.MapIn (selfD s).2 s).2).2 ((selfD s).1.MapIn (selfD s).2 s).2
        = (selfD s).1.MapIn (selfD s).2 s ∧
      ((selfD s).1.MapIn (selfD s).2 s).1
        = ((selfD s).1.Aggs ((selfD s).2.map (fun c => c.snapshot s))).Map) := by
  have h1 := TermsAggregation.terms_MapIn_of_pure (selfT s).1 (selfT s).2 s hT
  have h2 := DateHistogramAggregation.dateHistogram_MapIn_of_pure (selfD s).1 (selfD s).2 s hD
  have e1 : ((selfT s).1.MapIn (selfT s).2 s).2 = s := by rw [h1]
  have e2 : ((selfD s).1.MapIn (selfD s).2 s).2 = s := by rw [h2]
  refine ⟨⟨e1, by rw [e1], by rw [e1], by rw [h1]⟩, ⟨e2, by rw [e2], by rw [e2], by rw [h2]⟩⟩

/-- C11 in the program state 7, on TermsAgg("p", "f") and
    DateHistogramAgg("q", "d"), each with one pure sub-aggregation named x: the
    state after Map is 7 again and the second call returns what the first did. -/
theorem C11_Map_is_a_pure_read_and_idempotent_witness :
    (∀ c ∈ [(StatefulAggregation.mk (fun u => ("x", u))
          (fun u => (Except.ok [("terms", Value.mapStringInterface
            [("field", Value.string "a")])], u)) : StatefulAggregation Nat)],
      ∀ u, (c.Name u).2 = u ∧ (c.Map u).2 = u) ∧
    ((TermsAgg "p" "f").MapIn
        [(StatefulAggregation.mk (fun u => ("x", u))
          (fun u => (Except.ok [("terms", Value.mapStringInterface
            [("field", Value.string "a")])], u)) : StatefulAggregation Nat)] 7).2 = 7 ∧
    (TermsAgg "p" "f").MapIn
        [(StatefulAggregation.mk (fun u => ("x", u))
          (fun u => (Except.ok [("terms", Value.mapStringInterface
            [("field", Value.string "a")])], u)) : StatefulAggregation Nat)]
        ((TermsAgg "p" "f").MapIn
        [(StatefulAggregation.mk (fun u => ("x", u))
          (fun u => (Except.ok [("terms", Value.mapStringInterface
            [("field", Value.string "a")])], u)) : StatefulAggregation Nat)] 7).2
      = (TermsAgg "p" "f").MapIn
        [(StatefulAggregation.mk (fun u => ("x", u))
          (fun u => (Except.ok [("terms", Value.mapStringInterface
            [("field", Value.string "a")])], u)) : StatefulAggregation Nat)] 7 ∧
    ((DateHistogramAgg "q" "d").MapIn
        [(StatefulAggregation.mk (fun u => ("x", u))
          (fun u => (Except.ok [("terms", Value.mapStringInterface
            [("field", Value.string "a")])], u)) : StatefulAggregation Nat)] 7).1
      = Except.ok [("aggs", Value.mapStringMap
            [("x", [("terms", Value.mapStringInterface [("field", Value.string "a")])])]),
          ("date_histogram", Value.mapStringInterface [("field", Value.string "d")])] := by
  have hpure : ∀ c ∈ [(StatefulAggregation.mk (fun u => ("x", u))
          (fun u => (Except.ok [("terms", Value.mapStringInterface
            [("field", Value.string "a")])], u)) : StatefulAggregation Nat)],
      ∀ u, (c.Name u).2 = u ∧ (c.Map u).2 = u := by
    intro c hc u
    rw [List.mem_singleton] at hc
    subst hc
    exact ⟨rfl, rfl⟩
  have h := C11_Map_is_a_pure_read_and_idempotent
    (fun _ => (TermsAgg "p" "f", [(StatefulAggregation.mk (fun u => ("x", u))
          (fun u => (Except.ok [("terms", Value.mapStringInterface
            [("field", Value.string "a")])], u)) : StatefulAggregation Nat)]))
    (fun _ => (DateHistogramAgg "q" "d", [(StatefulAggregation.mk (fun u => ("x", u))
          (fun u => (Except.ok [("terms", Value.mapStringInterface
            [("field", Value.string "a")])], u)) : StatefulAggregation Nat)]))
    (7 : Nat) hpure hpure
  exact ⟨hpure, h.1.1, h.1.2.2.1, rfl⟩

/-! ## Rendering a tree of aggregations -/

/-- The state after Map of a TermsAggregation in a program state: the state
    before, when the inner map panics or there is no sub-aggregation, and
    otherwise the state after the loop, which has returned when Map returns. -/
theorem TermsAggregation.terms_MapIn_cases {σ : Type} (agg : TermsAggregation)
    (aggs : List (StatefulAggregation σ)) (s : σ) :
    ((agg.MapIn aggs s).2 = s ∧
      ((∃ e, (agg.MapIn aggs s).1 = Except.error e) ∨ aggs = [])) ∨
    ((agg.MapIn aggs s).2 = (subAggsLoopIn aggs [] s).2 ∧ aggs ≠ [] ∧
      ∀ m, (agg.MapIn aggs s).1 = Except.ok m →
        ∃ subAggs, (subAggsLoopIn aggs [] s).1 = Except.ok subAggs) := by
  unfold TermsAggregation.MapIn
  cases hi : agg.innerMap with
  | error e => exact Or.inl ⟨rfl, Or.inl ⟨e, rfl⟩⟩
  | ok inner =>
    simp only []
    by_cases hlen : aggs.length > 0
    · have hne : aggs ≠ [] := List.length_pos.mp hlen
      simp only [hlen, if_true]
      rcases hl : subAggsLoopIn aggs [] s with ⟨r, q⟩
      cases r with
      | error e => exact Or.inr ⟨rfl, hne, fun m hm => by cases hm⟩
      | ok subAggs => exact Or.inr ⟨rfl, hne, fun m _ => ⟨subAggs, rfl⟩⟩
    · have hnil : aggs = [] := by
        cases aggs with
        | nil => rfl
        | cons c r => simp at hlen
      rw [if_neg hlen]
      exact Or.inl ⟨rfl, Or.inr hnil⟩

/-- Map of a TermsAggregation in a program state returns the Map of the record
    over the list of results that the loop agrees with. -/
theorem TermsAggregation.terms_MapIn_result {σ : Type} (agg : TermsAggregation)
    (aggs : List (StatefulAggregation σ)) (s : σ) (results : List Aggregation)
    (hlen : aggs.length = results.length)
    (hloop : (subAggsLoopIn aggs [] s).1 = subAggsLoop results []) :
    (agg.MapIn aggs s).1 = (agg.Aggs results).Map := by
  have hinner : (agg.Aggs results).innerMap = agg.innerMap := rfl
  unfold TermsAggregation.MapIn TermsAggregation.Map
  rw [hinner]
  cases agg.innerMap with
  | error e => rfl
  | ok inner =>
    simp only [TermsAggregation.Aggs, ← hlen]
    by_cases hpos : aggs.length > 0
    · simp only [hpos, if_true, ← hloop]
      rcases subAggsLoopIn aggs [] s with ⟨r, q⟩
      cases r <;> rfl
    · simp only [hpos, if_false]

/-- The state after Map of a DateHistogramAggregation in a program state: the state
    before, when the inner map panics or there is no sub-aggregation, and
    otherwise the state after the loop, which has returned when Map returns. -/
theorem DateHistogramAggregation.dateHistogram_MapIn_cases {σ : Type} (agg : DateHistogramAggregation)
    (aggs : List (StatefulAggregation σ)) (s : σ) :
    ((agg.MapIn aggs s).2 = s ∧
      ((∃ e, (agg.MapIn aggs s).1 = Except.error e) ∨ aggs = [])) ∨
    ((agg.MapIn aggs s).2 = (subAggsLoopIn aggs [] s).2 ∧ aggs ≠ [] ∧
      ∀ m, (agg.MapIn aggs s).1 = Except.ok m →
        ∃ subAggs, (subAggsLoopIn aggs [] s).1 = Except.ok subAggs) := by
  unfold DateHistogramAggregation.MapIn
  by_cases hlen : aggs.length > 0
  · have hne : aggs ≠ [] := List.length_pos.mp hlen
    simp only [hlen, if_true]
    rcases hl : subAggsLoopIn aggs [] s with ⟨r, q⟩
    cases r with
    | error e => exact Or.inr ⟨rfl, hne, fun m hm => by cases hm⟩
    | ok subAggs => exact Or.inr ⟨rfl, hne, fun m _ => ⟨subAggs, rfl⟩⟩
  · have hnil : aggs = [] := by
      cases aggs with
      | nil => rfl
      | cons c r => simp at hlen
    rw [if_neg hlen]
    exact Or.inl ⟨rfl, Or.inr hnil⟩

/-- Map of a DateHistogramAggregation in a program state returns the Map of the record
    over the list of results that the loop agrees with. -/
theorem DateHistogramAggregation.dateHistogram_MapIn_result {σ : Type} (agg : DateHistogramAggregation)
    (aggs : List (StatefulAggregation σ)) (s : σ) (results : List Aggregation)
    (hlen : aggs.length = results.length)
    (hloop : (subAggsLoopIn aggs [] s).1 = subAggsLoop results []) :
    (agg.MapIn aggs s).1 = (agg.Aggs results).Map := by
  have hinner : (agg.Aggs results).innerMap = agg.innerMap := rfl
  unfold DateHistogramAggregation.MapIn DateHistogramAggregation.Map
  rw [hinner]
  simp only [DateHistogramAggregation.Aggs, ← hlen]
  by_cases hpos : aggs.length > 0
  · simp only [hpos, if_true, ← hloop]
    rcases subAggsLoopIn aggs [] s with ⟨r, q⟩
    cases r <;> rfl
  · simp only [hpos, if_false]


theorem AggTree.toStatefuls_length (ts : List AggTree) :
    (AggTree.toStatefuls ts).length = ts.length := by
  induction ts with
  | nil => rfl
  | cons t rest ih => simp [AggTree.toStatefuls, ih]

theorem AggTree.toAggregations_length (ts : List AggTree) :
    (AggTree.toAggregations ts).length = ts.length := by
  induction ts with
  | nil => rfl
  | cons t rest ih => simp [AggTree.toAggregations, ih]

/-- The profile after a call of Map on a node, from the profile after its loop:
    R is what the body of Map returns on entry, L what its loop returns, D and
    N the depth and the number of nodes of the subtrees. -/
theorem node_profile (R : Except Panic (GoMap Value) × Profile)
    (L : Except Panic (GoMap (GoMap Value)) × Profile) (p : Profile) (D N : Nat)
    (hcases : (R.2 = p.enter ∧ ((∃ e, R.1 = Except.error e) ∨ (D = 0 ∧ N = 0))) ∨
      (R.2 = L.2 ∧ ∀ m, R.1 = Except.ok m → ∃ subAggs, L.1 = Except.ok subAggs))
    (hL : L.2.depth = p.enter.depth ∧ p.enter.maxDepth ≤ L.2.maxDepth ∧
      L.2.maxDepth ≤ max p.enter.maxDepth (p.enter.depth + D) ∧
      L.2.calls ≤ p.enter.calls + N ∧
      (∀ subAggs, p.enter.depth ≤ p.enter.maxDepth → L.1 = Except.ok subAggs →
        L.2.calls = p.enter.calls + N ∧
        L.2.maxDepth = max p.enter.maxDepth (p.enter.depth + D))) :
    R.2.leave.depth = p.depth ∧ p.maxDepth ≤ R.2.leave.maxDepth ∧
      R.2.leave.maxDepth ≤ max p.maxDepth (p.depth + (1 + D)) ∧
      R.2.leave.calls ≤ p.calls + (1 + N) ∧
      (∀ m, R.1 = Except.ok m →
        R.2.leave.calls = p.calls + (1 + N) ∧
        R.2.leave.maxDepth = max p.maxDepth (p.depth + (1 + D))) := by
  obtain ⟨hd, hlo, hhi, hca, hok⟩ := hL
  simp only [Profile.enter] at hd hlo hhi hca hok
  rcases hcases with ⟨h1, h2⟩ | ⟨h1, h3⟩
  · rw [h1]
    simp only [Profile.enter, Profile.leave]
    refine ⟨by omega, by omega, by omega, by omega, ?_⟩
    intro m hm
    rcases h2 with ⟨e, he⟩ | ⟨hD, hN⟩
    · rw [he] at hm
      cases hm
    · subst hD
      subst hN
      exact ⟨by omega, by omega⟩
  · rw [h1]
    simp only [Profile.leave]
    refine ⟨by omega, by omega, by omega, by omega, ?_⟩
    intro m hm
    obtain ⟨subAggs, hs⟩ := h3 m hm
    obtain ⟨e1, e2⟩ := hok subAggs (by omega) hs
    exact ⟨by omega, by omega⟩

mutual
/-- The run of Map on a tree, from any profile: the result is that of Map on
    the tree, the depth is back where it was, the largest depth reached and the
    number of calls are bounded by the nesting depth and the number of nodes,
    and they are equal to them when Map returns a mapping. -/
theorem AggTree.profile_of_Map : ∀ (t : AggTree) (p : Profile),
    t.toStateful.Name p = (t.toAggregation.Name, p) ∧
    (t.toStateful.Map p).1 = t.toAggregation.Map ∧
    (t.toStateful.Map p).2.depth = p.depth ∧
    p.maxDepth ≤ (t.toStateful.Map p).2.maxDepth ∧
    (t.toStateful.Map p).2.maxDepth ≤ max p.maxDepth (p.depth + t.depth) ∧
    (t.toStateful.Map p).2.calls ≤ p.calls + t.size ∧
    (∀ m, (t.toStateful.Map p).1 = Except.ok m →
      (t.toStateful.Map p).2.calls = p.calls + t.size ∧
      (t.toStateful.Map p).2.maxDepth = max p.maxDepth (p.depth + t.depth))
  | AggTree.terms agg children, p => by
    have hL := AggTree.profile_of_loop children [] p.enter
    have hc := TermsAggregation.terms_MapIn_cases agg (AggTree.toStatefuls children) p.enter
    have hres := TermsAggregation.terms_MapIn_result agg (AggTree.toStatefuls children) p.enter
      (AggTree.toAggregations children)
      (by rw [AggTree.toStatefuls_length, AggTree.toAggregations_length]) hL.1
    have hnode := node_profile (agg.MapIn (AggTree.toStatefuls children) p.enter)
      (subAggsLoopIn (AggTree.toStatefuls children) [] p.enter) p
      (AggTree.depths children) (AggTree.sizes children)
      (by
        rcases hc with ⟨h1, h2⟩ | ⟨h1, _, h3⟩
        · refine Or.inl ⟨h1, ?_⟩
          rcases h2 with h2 | h2
          · exact Or.inl h2
          · right
            have hnil : children = [] := by
              cases children with
              | nil => rfl
              | cons c r => simp [AggTree.toStatefuls] at h2
            subst hnil
            exact ⟨rfl, rfl⟩
        · exact Or.inr ⟨h1, h3⟩)
      hL.2
    exact ⟨rfl, hres, hnode⟩
  | AggTree.dateHistogram agg children, p => by
    have hL := AggTree.profile_of_loop children [] p.enter
    have hc := DateHistogramAggregation.dateHistogram_MapIn_cases agg (AggTree.toStatefuls children) p.enter
    have hres := DateHistogramAggregation.dateHistogram_MapIn_result agg (AggTree.toStatefuls children) p.enter
      (AggTree.toAggregations children)
      (by rw [AggTree.toStatefuls_length, AggTree.toAggregations_length]) hL.1
    have hnode := node_profile (agg.MapIn (AggTree.toStatefuls children) p.enter)
      (subAggsLoopIn (AggTree.toStatefuls children) [] p.enter) p
      (AggTree.depths children) (AggTree.sizes children)
      (by
        rcases hc with ⟨h1, h2⟩ | ⟨h1, _, h3⟩
        · refine Or.inl ⟨h1, ?_⟩
          rcases h2 with h2 | h2
          · exact Or.inl h2
          · right
            have hnil : children = [] := by
              cases children with
              | nil => rfl
              | cons c r => simp [AggTree.toStatefuls] at h2
            subst hnil
            exact ⟨rfl, rfl⟩
        · exact Or.inr ⟨h1, h3⟩)
      hL.2
    exact ⟨rfl, hres, hnode⟩
/-- The run of the loop over a list of trees, from any profile. -/
theorem AggTree.profile_of_loop : ∀ (ts : List AggTree) (acc : GoMap (GoMap Value))
    (p : Profile),
    (subAggsLoopIn (AggTree.toStatefuls ts) acc p).1
      = subAggsLoop (AggTree.toAggregations ts) acc ∧
    (subAggsLoopIn (AggTree.toStatefuls ts) acc p).2.depth = p.depth ∧
    p.maxDepth ≤ (subAggsLoopIn (AggTree.toStatefuls ts) acc p).2.maxDepth ∧
    (subAggsLoopIn (AggTree.toStatefuls ts) acc p).2.maxDepth
      ≤ max p.maxDepth (p.depth + AggTree.depths ts) ∧
    (subAggsLoopIn (AggTree.toStatefuls ts) acc p).2.calls ≤ p.calls + AggTree.sizes ts ∧
    (∀ subAggs, p.depth ≤ p.maxDepth →
      (subAggsLoopIn (AggTree.toStatefuls ts) acc p).1 = Except.ok subAggs →
      (subAggsLoopIn (AggTree.toStatefuls ts) acc p).2.calls = p.calls + AggTree.sizes ts ∧
      (subAggsLoopIn (AggTree.toStatefuls ts) acc p).2.maxDepth
        = max p.maxDepth (p.depth + AggTree.depths ts))
  | [], acc, p => by
    simp only [AggTree.toStatefuls, AggTree.toAggregations, subAggsLoopIn, subAggsLoop,
      AggTree.depths, AggTree.sizes]
    refine ⟨trivial, trivial, le_refl _, by omega, by omega,
      fun _ _ _ => ⟨by omega, by omega⟩⟩
  | t :: ts, acc, p => by
    obtain ⟨hname, hres, hd, hlo, hhi, hca, hok⟩ := AggTree.profile_of_Map t p
    simp only [AggTree.toStatefuls, AggTree.toAggregations, subAggsLoopIn, subAggsLoop,
      AggTree.depths, AggTree.sizes, hname]
    rcases hM : t.toStateful.Map p with ⟨r, q⟩
    rw [hM] at hres hd hlo hhi hca hok
    simp only at hres hd hlo hhi hca hok
    rw [← hres]
    cases r with
    | error e =>
      simp only
      refine ⟨trivial, hd, hlo, by omega, by omega, fun _ _ h => by cases h⟩
    | ok m =>
      obtain ⟨h1, h2, h3, h4, h5, h6⟩ :=
        AggTree.profile_of_loop ts (GoMap.set acc t.toAggregation.Name m) q
      obtain ⟨e1, e2⟩ := hok m rfl
      simp only
      refine ⟨h1, by omega, by omega, by omega, by omega, ?_⟩
      intro subAggs hinv hs
      obtain ⟨e3, e4⟩ := h6 subAggs (by omega) hs
      exact ⟨by omega, by omega⟩
end


mutual
/-- Map returns a mapping on a tree exactly when no terms node of the tree
    holds an include slice that is non-nil and empty. -/
theorem AggTree.Map_ok_iff_includesOk : ∀ t : AggTree,
    (∃ m, t.Map = Except.ok m) ↔ t.includesOk = true
  | AggTree.terms agg children => by
    have hkids := AggTree.all_ok_iff_allIncludesOk children
    show (∃ m, (agg.Aggs (AggTree.toAggregations children)).Map = Except.ok m) ↔ _
    rw [TermsAggregation.terms_Map_ok_iff]
    simp only [AggTree.includesOk, Bool.and_eq_true, decide_eq_true_eq, ← hkids]
    rfl
  | AggTree.dateHistogram agg children => by
    have hkids := AggTree.all_ok_iff_allIncludesOk children
    show (∃ m, (agg.Aggs (AggTree.toAggregations children)).Map = Except.ok m) ↔ _
    rw [DateHistogramAggregation.dateHistogram_Map_ok_iff]
    simp only [AggTree.includesOk, ← hkids]
    rfl
/-- The subtrees all render exactly when none of them has such a terms node. -/
theorem AggTree.all_ok_iff_allIncludesOk : ∀ ts : List AggTree,
    (∀ c ∈ AggTree.toAggregations ts, ∃ cm, c.Map = Except.ok cm) ↔
      AggTree.allIncludesOk ts = true
  | [] => by simp [AggTree.toAggregations, AggTree.allIncludesOk]
  | t :: ts => by
    have ht := AggTree.Map_ok_iff_includesOk t
    have hts := AggTree.all_ok_iff_allIncludesOk ts
    simp only [AggTree.toAggregations, AggTree.allIncludesOk, List.mem_cons, forall_eq_or_imp,
      Bool.and_eq_true, ← ht, ← hts]
    rfl
end


/-- Map on a finite tree of aggregations is a total function, defined by
    recursion on the tree: Map of a node is the Map method of the node over the
    Maps of its subtrees. A run of Map from the empty profile ends with the
    result of Map and with every call closed; it makes at most one call of Map
    per node and never nests deeper than the nesting depth of the tree. When Map
    returns a mapping, which it does exactly when no terms node holds a non-nil
    empty include slice, the run makes exactly one call of Map per node, so one
    per child in the list of each node, and its recursion depth is the nesting
    depth of the tree. -/
theorem AggTree.run_of_Map (t : AggTree) :
    (∀ (agg : TermsAggregation) (children : List AggTree),
      (AggTree.terms agg children).Map
        = (agg.Aggs (AggTree.toAggregations children)).Map) ∧
    (∀ (agg : DateHistogramAggregation) (children : List AggTree),
      (AggTree.dateHistogram agg children).Map
        = (agg.Aggs (AggTree.toAggregations children)).Map) ∧
    (t.toStateful.Map (Profile.mk 0 0 0)).1 = t.Map ∧
    (t.toStateful.Map (Profile.mk 0 0 0)).2.depth = 0 ∧
    (t.toStateful.Map (Profile.mk 0 0 0)).2.calls ≤ t.size ∧
    (t.toStateful.Map (Profile.mk 0 0 0)).2.maxDepth ≤ t.depth ∧
    ((∃ m, t.Map = Except.ok m) ↔ t.includesOk = true) ∧
    (∀ m, t.Map = Except.ok m →
      (t.toStateful.Map (Profile.mk 0 0 0)).2.calls = t.size ∧
      (t.toStateful.Map (Profile.mk 0 0 0)).2.maxDepth = t.depth) := by
  obtain ⟨_, hres, hd, _, hhi, hca, hok⟩ := AggTree.profile_of_Map t (Profile.mk 0 0 0)
  simp only [Nat.zero_add, Nat.zero_le, max_eq_right] at hhi hca hok
  refine ⟨fun _ _ => rfl, fun _ _ => rfl, hres, hd, hca, hhi,
    AggTree.Map_ok_iff_includesOk t, ?_⟩
  intro m hm
  exact hok m (hres.trans hm)

/-- A tree of four nodes and nesting depth 3 on which Map returns: the run makes
    4 calls of Map and its recursion depth is 3. -/
theorem AggTree.run_of_Map_on_four_nodes :
    (∃ m, AggTree.Map
      (AggTree.terms (TermsAgg "p" "f")
      [AggTree.dateHistogram (DateHistogramAgg "c" "d") [AggTree.terms (TermsAgg "g" "h") []],
       AggTree.terms (TermsAgg "x" "y") []]) = Except.ok m) ∧
    (AggTree.toStateful
      (AggTree.terms (TermsAgg "p" "f")
      [AggTree.dateHistogram (DateHistogramAgg "c" "d") [AggTree.terms (TermsAgg "g" "h") []],
       AggTree.terms (TermsAgg "x" "y") []])).Map (Profile.mk 0 0 0)
      = (AggTree.Map
      (AggTree.terms (TermsAgg "p" "f")
      [AggTree.dateHistogram (DateHistogramAgg "c" "d") [AggTree.terms (TermsAgg "g" "h") []],
       AggTree.terms (TermsAgg "x" "y") []]), Profile.mk 4 0 3) ∧
    AggTree.size
      (AggTree.terms (TermsAgg "p" "f")
      [AggTree.dateHistogram (DateHistogramAgg "c" "d") [AggTree.terms (TermsAgg "g" "h") []],
       AggTree.terms (TermsAgg "x" "y") []]) = 4 ∧
    AggTree.depth
      (AggTree.terms (TermsAgg "p" "f")
      [AggTree.dateHistogram (DateHistogramAgg "c" "d") [AggTree.terms (TermsAgg "g" "h") []],
       AggTree.terms (TermsAgg "x" "y") []]) = 3 := by
  have h := AggTree.run_of_Map
      (AggTree.terms (TermsAgg "p" "f")
      [AggTree.dateHistogram (DateHistogramAgg "c" "d") [AggTree.terms (TermsAgg "g" "h") []],
       AggTree.terms (TermsAgg "x" "y") []])
  have hok := h.2.2.2.2.2.2.1.mpr (by decide)
  exact ⟨hok, rfl, by decide, by decide⟩

/-- C16: on the tree whose root is TermsAgg("p", "f") after Include with an
    empty non-nil list, with the one child TermsAgg("c", "g"), Map panics at the
    root before its loop: the run makes 1 call of Map, that of the root, and no
    recursive call for the child, and its recursion depth is 1, although the
    tree has 2 nodes and nesting depth 2. -/
theorem C16_panic_at_the_root_skips_the_child :
    AggTree.Map
      (AggTree.terms ((TermsAgg "p" "f").Include (some []))
      [AggTree.terms (TermsAgg "c" "g") []]) = Except.error (Panic.indexOutOfRange 0 0) ∧
    ((AggTree.toStateful
      (AggTree.terms ((TermsAgg "p" "f").Include (some []))
      [AggTree.terms (TermsAgg "c" "g") []])).Map (Profile.mk 0 0 0)).2 = Profile.mk 1 0 1 ∧
    AggTree.size
      (AggTree.terms ((TermsAgg "p" "f").Include (some []))
      [AggTree.terms (TermsAgg "c" "g") []]) = 2 ∧
    AggTree.depth
      (AggTree.terms ((TermsAgg "p" "f").Include (some []))
      [AggTree.terms (TermsAgg "c" "g") []]) = 2 :=
  ⟨rfl, rfl, rfl, rfl⟩

end Esquery
